import Mathlib

/-!
Tabu search graph colouring (sequential `tabu.cc`, OpenMP `tabuOMP.cc`)

A shallow embedding of the two search routines and of the graph loader.

Modelling conventions
* C++ `int` values are unbounded integers; the counters of the program (a
  conflict counter is at most the total length of the adjacency rows, the
  iteration counter at most 5000) stay far below `2^31` on every graph that
  fits in memory, so no wrap-around is modelled.
* Vertex indices are natural numbers.  Conflict counters start at zero and are
  only incremented and halved, so they are natural numbers as well.  Colours,
  the palette size and the aspiration thresholds are integers (a threshold can
  be `-1`).
* `rand()` is a stream `rng : Nat → Nat` together with the number of draws made
  so far, kept in the search state.
* An access outside a vector and an integer remainder by zero are faults:
  the embedding runs in `Except Fault`.
* `std::set<int>` is a strictly ascending list, `std::map<int,int>` an
  association list with unique keys.
-/

namespace TabuSearch

/-! ## Faults and primitive operations -/

/-- The two ways a step of the program can go wrong. -/
inductive Fault where
  | divisionByZero
  | outOfRange
  deriving DecidableEq

/-- Computations that may fault. -/
abbrev Run (α : Type) := Except Fault α

/-- The C++ expression `a % b` on `int`: truncated remainder, a fault when `b` is zero. -/
def intMod (a b : Int) : Run Int :=
  if b = 0 then .error .divisionByZero else .ok (Int.tmod a b)

/-- The C++ expression `a % b` on `size_t`, a fault when `b` is zero. -/
def sizeMod (a b : Nat) : Run Nat :=
  if b = 0 then .error .divisionByZero else .ok (a % b)

/-- Reading `v[i]`. -/
def vecAt {α : Type} (v : List α) (i : Nat) : Run α :=
  match v[i]? with
  | some x => .ok x
  | none => .error .outOfRange

/-- Writing `v[i] = x`. -/
def vecSet {α : Type} (v : List α) (i : Nat) (x : α) : Run (List α) :=
  if i < v.length then .ok (v.set i x) else .error .outOfRange

/-- The operation `std::set<int>::insert` on a strictly ascending list. -/
def setInsert (x : Nat) : List Nat → List Nat
  | [] => [x]
  | y :: ys =>
    if x < y then x :: y :: ys
    else if x = y then y :: ys
    else y :: setInsert x ys

/-! ## `read_graph_from_file` -/

/-- The statement `adjacency_list[a - 1].push_back(b - 1)` for 1-based tokens `a`, `b`.
A token `a` outside `1..size` indexes outside the vector. -/
def pushNeighbor (adjacency_list : List (List Nat)) (a b : Nat) : Run (List (List Nat)) :=
  if 1 ≤ a ∧ a - 1 < adjacency_list.length then
    .ok (List.modify (fun row => row ++ [b - 1]) (a - 1) adjacency_list)
  else .error .outOfRange

/-- The loop `while (infile >> u >> v)` over the pairs of the file. -/
def loadEdges : List (Nat × Nat) → List (List Nat) → Run (List (List Nat))
  | [], adjacency_list => .ok adjacency_list
  | (u, v) :: rest, adjacency_list => do
    let a1 ← pushNeighbor adjacency_list u v
    let a2 ← pushNeighbor a1 v u
    loadEdges rest a2

/-- The loader `read_graph_from_file`: `num_nodes` is the first token of the file, `edges`
the pairs that follow it. -/
def read_graph_from_file (num_nodes : Nat) (edges : List (Nat × Nat)) : Run (List (List Nat)) :=
  loadEdges edges (List.replicate num_nodes [])

/-! ## The evaluation loops -/

/-- Inner loop of the evaluation (tabu.cc lines 48-53) for one vertex `i`: the accumulator is
`(candidate_set, conflict_count)`. -/
def scanNeighbors (colors : List Int) (i : Nat) :
    List Nat → List Nat × Nat → Run (List Nat × Nat)
  | [], acc => .ok acc
  | neighbor :: rest, (candidate_set, conflict_count) => do
    let ci ← vecAt colors i
    let cn ← vecAt colors neighbor
    if ci = cn then
      scanNeighbors colors i rest (setInsert neighbor candidate_set, conflict_count + 1)
    else
      scanNeighbors colors i rest (candidate_set, conflict_count)

/-- Outer loop of the evaluation (tabu.cc lines 47-54) over the vertices `is`. -/
def evaluateFrom (adjacency_list : List (List Nat)) (colors : List Int) :
    List Nat → List Nat × Nat → Run (List Nat × Nat)
  | [], acc => .ok acc
  | i :: rest, acc => do
    let row ← vecAt adjacency_list i
    let acc1 ← scanNeighbors colors i row acc
    evaluateFrom adjacency_list colors rest acc1

/-- Evaluation of the current colouring (tabu.cc lines 44-55): the candidate set and the
halved conflict counter. -/
def evaluate (num_nodes : Nat) (adjacency_list : List (List Nat)) (colors : List Int) :
    Run (List Nat × Nat) := do
  let (candidate_set, conflict_count) ←
    evaluateFrom adjacency_list colors (List.range num_nodes) ([], 0)
  pure (candidate_set, conflict_count / 2)

/-- Inner loop of the trial count (tabu.cc lines 74-78). -/
def countNeighbors (colors : List Int) (i : Nat) : List Nat → Nat → Run Nat
  | [], new_conflict_count => .ok new_conflict_count
  | neighbor :: rest, new_conflict_count => do
    let ci ← vecAt colors i
    let cn ← vecAt colors neighbor
    if ci = cn then countNeighbors colors i rest (new_conflict_count + 1)
    else countNeighbors colors i rest new_conflict_count

/-- Outer loop of the trial count (tabu.cc lines 73-79). -/
def countFrom (adjacency_list : List (List Nat)) (colors : List Int) :
    List Nat → Nat → Run Nat
  | [], new_conflict_count => .ok new_conflict_count
  | i :: rest, new_conflict_count => do
    let row ← vecAt adjacency_list i
    let c1 ← countNeighbors colors i row new_conflict_count
    countFrom adjacency_list colors rest c1

/-- The conflict count of a trial colouring (tabu.cc lines 72-80). -/
def countConflicts (num_nodes : Nat) (adjacency_list : List (List Nat)) (colors : List Int) :
    Run Nat := do
  let c ← countFrom adjacency_list colors (List.range num_nodes) 0
  pure (c / 2)

/-! ## Tabu memory -/

/-- Lookup in the aspiration table (`std::map::find`). -/
def mapFind : List (Nat × Int) → Nat → Option Int
  | [], _ => none
  | (k1, v1) :: rest, k => if k1 = k then some v1 else mapFind rest k

/-- The assignment `m[k] = v` on a table kept in ascending key order. -/
def mapAssign (k : Nat) (v : Int) : List (Nat × Int) → List (Nat × Int)
  | [] => [(k, v)]
  | (k1, v1) :: rest =>
    if k < k1 then (k, v) :: (k1, v1) :: rest
    else if k = k1 then (k, v) :: rest
    else (k1, v1) :: mapAssign k v rest

/-- The guarded creation of tabu.cc lines 85-87: `insert` only when `find` fails. -/
def mapInsertIfAbsent (k : Nat) (v : Int) (m : List (Nat × Int)) : List (Nat × Int) :=
  if mapFind m k = none then mapAssign k v m else m

/-- Reading `m[k]`; `operator[]` yields the default `0` for a missing key (the program only
reads a key it has just made sure is present). -/
def mapAt (m : List (Nat × Int)) (k : Nat) : Int :=
  (mapFind m k).getD 0

/-- The erase-remove of tabu.cc lines 92-97: when `v` occurs in the list every occurrence
is removed. -/
def forgive (tabu_list : List Nat) (v : Nat) : List Nat :=
  if v ∈ tabu_list then tabu_list.filter (fun x => x ≠ v) else tabu_list

/-- Outcome of the acceptance test of one trial. -/
structure Verdict where
  /-- The trial loop is left by `break`. -/
  stop : Bool
  tabu_list : List Nat
  aspiration_criteria : List (Nat × Int)
  deriving DecidableEq

/-- The acceptance test of tabu.cc lines 82-112. -/
def acceptance (conflict_count new_conflict_count selected_candidate : Nat)
    (tabu_list : List Nat) (aspiration_criteria : List (Nat × Int)) : Verdict :=
  if new_conflict_count < conflict_count then
    let created := mapInsertIfAbsent conflict_count ((conflict_count : Int) - 1) aspiration_criteria
    if (new_conflict_count : Int) ≤ mapAt created conflict_count then
      { stop := true
        tabu_list := forgive tabu_list selected_candidate
        aspiration_criteria := mapAssign conflict_count ((new_conflict_count : Int) - 1) created }
    else if selected_candidate ∈ tabu_list then
      { stop := false, tabu_list := tabu_list, aspiration_criteria := created }
    else
      { stop := true, tabu_list := tabu_list, aspiration_criteria := created }
  else
    { stop := false, tabu_list := tabu_list, aspiration_criteria := aspiration_criteria }

/-! ## The sequential search `tabu_search` -/

/-- Capacity of the tabu list. -/
def tabu_list_size : Nat := 4

/-- Number of trials of one outer iteration. -/
def neighbor_reps : Nat := 700

/-- The variables of `tabu_search` that live across iterations, and the number of calls of
`rand()` made so far. -/
structure SearchState where
  max_iterations : Nat
  solutions_checked : Nat
  tabu_list : List Nat
  aspiration_criteria : List (Nat × Int)
  current_colors : List Int
  candidate_colors : List Int
  selected_candidate : Nat
  draws : Nat
  deriving DecidableEq

/-- The clamp of tabu.cc line 30. -/
def clampColors (num_nodes : Nat) (max_colors : Int) : Int :=
  if max_colors > (num_nodes : Int) then (num_nodes : Int) else max_colors

/-- The initial colouring (tabu.cc lines 32-34): `k` more vertices to colour, the
accumulator is the colouring so far and the number of draws. -/
def initColors (rng : Nat → Nat) (max_colors : Int) :
    Nat → List Int × Nat → Run (List Int × Nat)
  | 0, acc => .ok acc
  | k + 1, (colors, draws) => do
    let c ← intMod (rng draws : Nat) max_colors
    initColors rng max_colors k (colors ++ [c], draws + 1)

/-- The fallback of tabu.cc lines 68-70: when the colour just written equals the current
colour of the vertex, the top colour `max_colors - 1` is written instead. -/
def forceChange (max_colors : Int) (recolored : List Int) (selected_candidate : Nat)
    (drawn old : Int) : Run (List Int) :=
  if drawn = old then vecSet recolored selected_candidate (max_colors - 1) else .ok recolored

/-- One trial (tabu.cc lines 64-112).  The Boolean tells whether the trial loop is left. -/
def trial (rng : Nat → Nat) (num_nodes : Nat) (max_colors : Int)
    (adjacency_list : List (List Nat)) (candidates : List Nat) (conflict_count : Nat)
    (st : SearchState) : Run (Bool × SearchState) := do
  let idx ← sizeMod (rng st.draws) candidates.length
  let selected_candidate ← vecAt candidates idx
  let drawn ← intMod (rng (st.draws + 1) : Nat) (max_colors - 1)
  let recolored ← vecSet st.current_colors selected_candidate drawn
  let old ← vecAt st.current_colors selected_candidate
  let candidate_colors ← forceChange max_colors recolored selected_candidate drawn old
  let new_conflict_count ← countConflicts num_nodes adjacency_list candidate_colors
  let verdict := acceptance conflict_count new_conflict_count selected_candidate
    st.tabu_list st.aspiration_criteria
  pure (verdict.stop,
    { st with
      tabu_list := verdict.tabu_list
      aspiration_criteria := verdict.aspiration_criteria
      candidate_colors := candidate_colors
      selected_candidate := selected_candidate
      draws := st.draws + 2 })

/-- The trial loop (tabu.cc line 63), by recursion on the number of trials left. -/
def trialLoop (rng : Nat → Nat) (num_nodes : Nat) (max_colors : Int)
    (adjacency_list : List (List Nat)) (candidates : List Nat) (conflict_count : Nat) :
    Nat → SearchState → Run SearchState
  | 0, st => .ok st
  | reps + 1, st => do
    let (stop, st1) ← trial rng num_nodes max_colors adjacency_list candidates conflict_count st
    if stop then pure st1
    else trialLoop rng num_nodes max_colors adjacency_list candidates conflict_count reps st1

/-- End of an outer iteration (tabu.cc lines 115-121). -/
def commit (st : SearchState) : SearchState :=
  let pushed := st.tabu_list ++ [st.selected_candidate]
  { st with
    tabu_list := if pushed.length > tabu_list_size then pushed.tail else pushed
    current_colors := st.candidate_colors
    max_iterations := st.max_iterations - 1 }

/-- One outer iteration (tabu.cc lines 44-121); `none` is the `break` of line 57. -/
def iteration (rng : Nat → Nat) (num_nodes : Nat) (max_colors : Int)
    (adjacency_list : List (List Nat)) (st : SearchState) : Run (Option SearchState) := do
  let (candidates, conflict_count) ← evaluate num_nodes adjacency_list st.current_colors
  if conflict_count = 0 then pure none
  else
    let st1 ← trialLoop rng num_nodes max_colors adjacency_list candidates conflict_count
      neighbor_reps { st with solutions_checked := st.solutions_checked + 1 }
    pure (some (commit st1))

/-- The loop `while (max_iterations > 0)`, by recursion on the value of `max_iterations`. -/
def searchLoop (rng : Nat → Nat) (num_nodes : Nat) (max_colors : Int)
    (adjacency_list : List (List Nat)) : Nat → SearchState → Run SearchState
  | 0, st => .ok st
  | budget + 1, st => do
    match ← iteration rng num_nodes max_colors adjacency_list st with
    | none => pure st
    | some st1 => searchLoop rng num_nodes max_colors adjacency_list budget st1

/-- State at the first test of the loop condition (tabu.cc lines 14-34).  The variable
`selected_candidate` is not initialised by the program; it is written by the first trial
before it is read. -/
def initialState (rng : Nat → Nat) (num_nodes : Nat) (max_colors : Int) : Run SearchState := do
  let (colors, draws) ← initColors rng (clampColors num_nodes max_colors) num_nodes ([], 0)
  pure
    { max_iterations := 5000
      solutions_checked := 0
      tabu_list := []
      aspiration_criteria := []
      current_colors := colors
      candidate_colors := []
      selected_candidate := 0
      draws := draws }

/-- The search after at most `budget` outer iterations. -/
def searchRun (rng : Nat → Nat) (num_nodes : Nat) (max_colors : Int)
    (adjacency_list : List (List Nat)) (budget : Nat) : Run SearchState := do
  let st ← initialState rng num_nodes max_colors
  searchLoop rng num_nodes (clampColors num_nodes max_colors) adjacency_list budget st

/-- The routine `tabu_search` up to the report: the state when the loop is left. -/
def tabu_search (rng : Nat → Nat) (num_nodes : Nat) (max_colors : Int)
    (adjacency_list : List (List Nat)) : Run SearchState :=
  searchRun rng num_nodes max_colors adjacency_list 5000


/-! ## Pure descriptions of what the loops compute -/

/-- Vertices `i` and `w` carry the same colour. -/
def sameColor (colors : List Int) (i w : Nat) : Bool :=
  decide (colors[i]? = colors[w]?)

/-- Number of entries of row `i` with the colour of `i`. -/
def rowPairs (adjacency_list : List (List Nat)) (colors : List Int) (i : Nat) : Nat :=
  (adjacency_list.getD i []).countP (sameColor colors i)

/-- Number of ordered pairs `(i, w)` with `w` listed in row `i` and equal colours. -/
def orderedPairs (num_nodes : Nat) (adjacency_list : List (List Nat)) (colors : List Int) : Nat :=
  ((List.range num_nodes).map (rowPairs adjacency_list colors)).sum

/-- The set insertions made while row `row` of vertex `i` is scanned. -/
def markRow (colors : List Int) (i : Nat) (row : List Nat) (s : List Nat) : List Nat :=
  row.foldl (fun acc w => if sameColor colors i w then setInsert w acc else acc) s

/-- The set insertions made while the rows of the vertices `is` are scanned. -/
def markFrom (adjacency_list : List (List Nat)) (colors : List Int) (is : List Nat)
    (s : List Nat) : List Nat :=
  is.foldl (fun acc i => markRow colors i (adjacency_list.getD i []) acc) s

/-- An adjacency structure for `n` vertices: one row per vertex, every entry a vertex. -/
def WellFormed (n : Nat) (adjacency_list : List (List Nat)) : Prop :=
  adjacency_list.length = n ∧ ∀ row ∈ adjacency_list, ∀ w ∈ row, w < n

instance (n : Nat) (adjacency_list : List (List Nat)) : Decidable (WellFormed n adjacency_list) := by
  unfold WellFormed; infer_instance

/-- Number of listed edges (1-based endpoints) whose endpoints carry the same colour. -/
def monochromeEdges (colors : List Int) (edges : List (Nat × Nat)) : Nat :=
  edges.countP (fun e => sameColor colors (e.1 - 1) (e.2 - 1))


/-- The symmetry invariant of the data model: `v` is listed in row `u` iff `u` is listed in
row `v`. -/
def Symmetric (adjacency_list : List (List Nat)) : Prop :=
  ∀ u < adjacency_list.length, ∀ v < adjacency_list.length,
    (v ∈ adjacency_list.getD u [] ↔ u ∈ adjacency_list.getD v [])

instance (adjacency_list : List (List Nat)) : Decidable (Symmetric adjacency_list) := by
  unfold Symmetric; infer_instance

/-- Follows the specification (section 4.2), not the source: while row `row` of vertex `u`
is scanned, an equal-coloured neighbour `w` marks both `u` and `w` as conflicted. -/
def specMarkRow (colors : List Int) (u : Nat) (row : List Nat) (s : List Nat) : List Nat :=
  row.foldl (fun acc w => if sameColor colors u w then setInsert w (setInsert u acc) else acc) s

/-- Follows the specification (section 4.2), not the source: the conflicted vertices when both
endpoints of every equal-coloured ordered pair are marked. -/
def specCandidates (num_nodes : Nat) (adjacency_list : List (List Nat)) (colors : List Int) :
    List Nat :=
  (List.range num_nodes).foldl
    (fun acc u => specMarkRow colors u (adjacency_list.getD u []) acc) []


/-- The threshold `T(C)` consulted by a trial at conflict level `C`: the entry of the
aspiration table when there is one, `C - 1` otherwise. -/
def threshold (aspiration_criteria : List (Nat × Int)) (conflict_count : Nat) : Int :=
  match mapFind aspiration_criteria conflict_count with
  | some t => t
  | none => (conflict_count : Int) - 1


/-- A colouring of `n` vertices with every colour in `[0, K)`. -/
def ColorsOK (K : Int) (n : Nat) (colors : List Int) : Prop :=
  colors.length = n ∧ ∀ c ∈ colors, 0 ≤ c ∧ c < K

instance (K : Int) (n : Nat) (colors : List Int) : Decidable (ColorsOK K n colors) := by
  unfold ColorsOK; infer_instance

/-- Every threshold of the table is at most its level minus one. -/
def AspBounded (aspiration_criteria : List (Nat × Int)) : Prop :=
  ∀ k t, mapFind aspiration_criteria k = some t → t ≤ (k : Int) - 1

/-- Every entry of the first table is still present in the second, with a threshold that is
not larger. -/
def AspLE (before after : List (Nat × Int)) : Prop :=
  ∀ k t, mapFind before k = some t → ∃ t1, mapFind after k = some t1 ∧ t1 ≤ t


/-- What a trial, or a run of trials, leaves alone or only tightens. -/
structure TrialFrame (st st1 : SearchState) : Prop where
  colors : st1.current_colors = st.current_colors
  iters : st1.max_iterations = st.max_iterations
  checked : st1.solutions_checked = st.solutions_checked
  tabu : st1.tabu_list.length ≤ st.tabu_list.length
  aspLE : AspLE st.aspiration_criteria st1.aspiration_criteria
  aspBounded : AspBounded st.aspiration_criteria → AspBounded st1.aspiration_criteria
  draws : st.draws ≤ st1.draws


/-- The colouring the initial loop produces from the first `n` draws. -/
def initialColoring (rng : Nat → Nat) (K : Int) (n : Nat) : List Int :=
  (List.range n).map (fun j => Int.tmod (rng j : Nat) K)

/-- What holds of the state at every test of the loop condition, for the clamped palette `K`. -/
structure Inv (K : Int) (n : Nat) (st : SearchState) : Prop where
  colors : ColorsOK K n st.current_colors
  tabu : st.tabu_list.length ≤ tabu_list_size
  asp : AspBounded st.aspiration_criteria


/-! ## The parallel search `tabu_search_omp`

The trial loop of tabuOMP.cc (lines 71-141) runs its 700 trials on several threads.  Each
trial is a little machine whose steps are the places where it touches shared data: the flag
`found_better_solution`, the generator `rand()`, the aspiration table, the tabu list and the
best slot.  A step is atomic, and a schedule (a list of trial indices) says which trial moves
next.  After the schedule is used up the trials that are not finished are run to their end in
index order, so the empty schedule is the execution of the loop one trial at a time in index
order.  The counting loops (lines 47-58 and 84-91) are sum reductions and set insertions, whose
result does not depend on the order; they are the loops of the sequential routine. -/

/-- Where a trial of the parallel batch stands.  The arguments are its private variables
`selected_candidate`, `candidate_colors` and `new_conflict_count`. -/
inductive TrialPhase where
  /-- Before the test of the flag (line 73). -/
  | notStarted
  /-- The flag was clear; before the first draw (line 75). -/
  | started
  /-- Before the second draw and the count (lines 76-92). -/
  | picked (selected_candidate : Nat)
  /-- Before the test `new_conflict_count < conflict_count` and the `find` (lines 94-97). -/
  | counted (selected_candidate : Nat) (candidate_colors : List Int) (new_conflict_count : Nat)
  /-- The `find` failed; before the guarded `insert` (lines 98-101). -/
  | needInsert (selected_candidate : Nat) (candidate_colors : List Int)
      (new_conflict_count : Nat)
  /-- Before the comparison with `aspiration_criteria[conflict_count]` (line 104). -/
  | compare (selected_candidate : Nat) (candidate_colors : List Int) (new_conflict_count : Nat)
  /-- Before the critical section of the aspiration branch (lines 105-121). -/
  | aspire (selected_candidate : Nat) (candidate_colors : List Int) (new_conflict_count : Nat)
  /-- Before the scan of the tabu list (lines 123-128). -/
  | tabuScan (selected_candidate : Nat) (candidate_colors : List Int)
      (new_conflict_count : Nat)
  /-- Not tabu; before the critical section of lines 130-137. -/
  | plain (selected_candidate : Nat) (candidate_colors : List Int) (new_conflict_count : Nat)
  /-- The trial is over. -/
  | done
  deriving DecidableEq

/-- The shared variables during a batch of trials, and where every trial stands. -/
structure BatchState where
  tabu_list : List Nat
  aspiration_criteria : List (Nat × Int)
  found_better_solution : Bool
  best_candidate_colors : List Int
  best_selected_candidate : Int
  draws : Nat
  phases : List TrialPhase
  deriving DecidableEq

/-- Trial `i` moves to phase `p`. -/
def BatchState.advance (bs : BatchState) (i : Nat) (p : TrialPhase) : BatchState :=
  { bs with phases := bs.phases.set i p }

/-- The guarded write of the best slot (lines 116-120 and 132-136). -/
def writeBest (conflict_count : Nat) (selected_candidate : Nat) (candidate_colors : List Int)
    (new_conflict_count : Nat) (bs : BatchState) : BatchState :=
  if !bs.found_better_solution || decide (new_conflict_count < conflict_count) then
    { bs with
      found_better_solution := true
      best_candidate_colors := candidate_colors
      best_selected_candidate := (selected_candidate : Int) }
  else bs

/-- One atomic step of trial `i` of the batch. -/
def ompStep (rng : Nat → Nat) (num_nodes : Nat) (max_colors : Int)
    (adjacency_list : List (List Nat)) (current_colors : List Int) (candidates : List Nat)
    (conflict_count : Nat) (i : Nat) (bs : BatchState) : Run BatchState :=
  match bs.phases[i]? with
  | none => .ok bs
  | some .notStarted =>
    .ok (bs.advance i (if bs.found_better_solution then .done else .started))
  | some .started => do
    let idx ← sizeMod (rng bs.draws) candidates.length
    let selected_candidate ← vecAt candidates idx
    pure ({ bs with draws := bs.draws + 1 }.advance i (.picked selected_candidate))
  | some (.picked selected_candidate) => do
    let drawn ← intMod (rng bs.draws : Nat) (max_colors - 1)
    let recolored ← vecSet current_colors selected_candidate drawn
    let old ← vecAt current_colors selected_candidate
    let candidate_colors ← forceChange max_colors recolored selected_candidate drawn old
    let new_conflict_count ← countConflicts num_nodes adjacency_list candidate_colors
    pure ({ bs with draws := bs.draws + 1 }.advance i
      (.counted selected_candidate candidate_colors new_conflict_count))
  | some (.counted selected_candidate candidate_colors new_conflict_count) =>
    if new_conflict_count < conflict_count then
      if mapFind bs.aspiration_criteria conflict_count = none then
        .ok (bs.advance i (.needInsert selected_candidate candidate_colors new_conflict_count))
      else
        .ok (bs.advance i (.compare selected_candidate candidate_colors new_conflict_count))
    else .ok (bs.advance i .done)
  | some (.needInsert selected_candidate candidate_colors new_conflict_count) =>
    .ok ({ bs with
        aspiration_criteria :=
          mapInsertIfAbsent conflict_count ((conflict_count : Int) - 1)
            bs.aspiration_criteria }.advance i
      (.compare selected_candidate candidate_colors new_conflict_count))
  | some (.compare selected_candidate candidate_colors new_conflict_count) =>
    if (new_conflict_count : Int) ≤ mapAt bs.aspiration_criteria conflict_count then
      .ok (bs.advance i (.aspire selected_candidate candidate_colors new_conflict_count))
    else
      .ok (bs.advance i (.tabuScan selected_candidate candidate_colors new_conflict_count))
  | some (.aspire selected_candidate candidate_colors new_conflict_count) =>
    .ok ((writeBest conflict_count selected_candidate candidate_colors new_conflict_count
      { bs with
        aspiration_criteria :=
          mapAssign conflict_count ((new_conflict_count : Int) - 1) bs.aspiration_criteria
        tabu_list := forgive bs.tabu_list selected_candidate }).advance i .done)
  | some (.tabuScan selected_candidate candidate_colors new_conflict_count) =>
    if selected_candidate ∈ bs.tabu_list then .ok (bs.advance i .done)
    else .ok (bs.advance i (.plain selected_candidate candidate_colors new_conflict_count))
  | some (.plain selected_candidate candidate_colors new_conflict_count) =>
    .ok ((writeBest conflict_count selected_candidate candidate_colors new_conflict_count
      bs).advance i .done)
  | some .done => .ok bs

/-- The steps of the trials named by a schedule, in the order of the schedule. -/
def ompRun (rng : Nat → Nat) (num_nodes : Nat) (max_colors : Int)
    (adjacency_list : List (List Nat)) (current_colors : List Int) (candidates : List Nat)
    (conflict_count : Nat) : List Nat → BatchState → Run BatchState
  | [], bs => .ok bs
  | i :: rest, bs => do
    let bs1 ← ompStep rng num_nodes max_colors adjacency_list current_colors candidates
      conflict_count i bs
    ompRun rng num_nodes max_colors adjacency_list current_colors candidates conflict_count
      rest bs1

/-- A trial is over after at most this many steps. -/
def stepsPerTrial : Nat := 8

/-- The schedule that runs the trials `0 .. reps-1` to their end one after the other. -/
def inOrder (reps : Nat) : List Nat :=
  (List.range reps).flatMap (fun i => List.replicate stepsPerTrial i)

/-- The batch of trials of one outer iteration (tabuOMP.cc lines 67-141) under a schedule. -/
def ompBatch (rng : Nat → Nat) (num_nodes : Nat) (max_colors : Int)
    (adjacency_list : List (List Nat)) (candidates : List Nat) (conflict_count : Nat)
    (schedule : List Nat) (st : SearchState) : Run BatchState :=
  ompRun rng num_nodes max_colors adjacency_list st.current_colors candidates conflict_count
    (schedule ++ inOrder neighbor_reps)
    { tabu_list := st.tabu_list
      aspiration_criteria := st.aspiration_criteria
      found_better_solution := false
      best_candidate_colors := []
      best_selected_candidate := -1
      draws := st.draws
      phases := List.replicate neighbor_reps .notStarted }

/-- End of an outer iteration of the parallel routine (tabuOMP.cc lines 143-151).  The best
slot holds a vertex index whenever the flag is set. -/
def ompCommit (st : SearchState) (bs : BatchState) : SearchState :=
  let pushed := bs.tabu_list ++ [bs.best_selected_candidate.toNat]
  { st with
    tabu_list :=
      if bs.found_better_solution then
        if pushed.length > tabu_list_size then pushed.tail else pushed
      else bs.tabu_list
    aspiration_criteria := bs.aspiration_criteria
    current_colors :=
      if bs.found_better_solution then bs.best_candidate_colors else st.current_colors
    draws := bs.draws
    max_iterations := st.max_iterations - 1 }

/-- One outer iteration of the parallel routine (tabuOMP.cc lines 44-151) under a schedule
for its batch; `none` is the `break` of line 61. -/
def ompIteration (rng : Nat → Nat) (num_nodes : Nat) (max_colors : Int)
    (adjacency_list : List (List Nat)) (schedule : List Nat) (st : SearchState) :
    Run (Option SearchState) := do
  let (candidates, conflict_count) ← evaluate num_nodes adjacency_list st.current_colors
  if conflict_count = 0 then pure none
  else
    let bs ← ompBatch rng num_nodes max_colors adjacency_list candidates conflict_count schedule
      { st with solutions_checked := st.solutions_checked + 1 }
    pure (some (ompCommit { st with solutions_checked := st.solutions_checked + 1 } bs))

/-- The outer loop of the parallel routine; `schedules k` is the schedule of the batch of the
iteration entered with `solutions_checked = k`. -/
def ompSearchLoop (rng : Nat → Nat) (num_nodes : Nat) (max_colors : Int)
    (adjacency_list : List (List Nat)) (schedules : Nat → List Nat) :
    Nat → SearchState → Run SearchState
  | 0, st => .ok st
  | budget + 1, st => do
    match ← ompIteration rng num_nodes max_colors adjacency_list
        (schedules st.solutions_checked) st with
    | none => pure st
    | some st1 => ompSearchLoop rng num_nodes max_colors adjacency_list schedules budget st1

/-- The initial colouring of the parallel routine (tabuOMP.cc lines 33-35): the entries
`i, i+1, ..` of a vector are overwritten, `k` of them still to do. -/
def ompInitColors (rng : Nat → Nat) (max_colors : Int) :
    Nat → Nat → List Int × Nat → Run (List Int × Nat)
  | 0, _, acc => .ok acc
  | k + 1, i, (colors, draws) => do
    let c ← intMod (rng draws : Nat) max_colors
    let colors1 ← vecSet colors i c
    ompInitColors rng max_colors k (i + 1) (colors1, draws + 1)

/-- State of the parallel routine at the first test of the loop condition (tabuOMP.cc
lines 15-35). -/
def ompInitialState (rng : Nat → Nat) (num_nodes : Nat) (max_colors : Int) :
    Run SearchState := do
  let (colors, draws) ← ompInitColors rng (clampColors num_nodes max_colors) num_nodes 0
    (List.replicate num_nodes 0, 0)
  pure
    { max_iterations := 5000
      solutions_checked := 0
      tabu_list := []
      aspiration_criteria := []
      current_colors := colors
      candidate_colors := List.replicate num_nodes 0
      selected_candidate := 0
      draws := draws }

/-- The parallel search after at most `budget` outer iterations. -/
def ompSearchRun (rng : Nat → Nat) (num_nodes : Nat) (max_colors : Int)
    (adjacency_list : List (List Nat)) (schedules : Nat → List Nat) (budget : Nat) :
    Run SearchState := do
  let st ← ompInitialState rng num_nodes max_colors
  ompSearchLoop rng num_nodes (clampColors num_nodes max_colors) adjacency_list schedules
    budget st

/-- The routine `tabu_search_omp` up to the report. -/
def tabu_search_omp (rng : Nat → Nat) (num_nodes : Nat) (max_colors : Int)
    (adjacency_list : List (List Nat)) (schedules : Nat → List Nat) : Run SearchState :=
  ompSearchRun rng num_nodes max_colors adjacency_list schedules 5000


/-- Every two distinct vertices are adjacent. -/
def Complete (n : Nat) (adjacency_list : List (List Nat)) : Prop :=
  ∀ i < n, ∀ j < n, i ≠ j → j ∈ adjacency_list.getD i []

instance (n : Nat) (adjacency_list : List (List Nat)) : Decidable (Complete n adjacency_list) := by
  unfold Complete; infer_instance


/-! ## A run on the path graph that never finds the proper colouring -/

/-- A sequence of draws for the path graph on 3 vertices: the initial colouring is `[1,0,0]`
and in the outer iteration number `t` every candidate pick has the parity of `t`. -/
def pathAdversary (i : Nat) : Nat :=
  if i < 3 then (if i = 0 then 1 else 0) else ((i - 3) / 1400) % 2

/-- The current colouring at the start of iteration `t` under `pathAdversary`. -/
def pathColors (t : Nat) : List Int :=
  if t % 2 = 0 then [1, 0, 0] else [1, 1, 0]

/-- The candidate list at the start of iteration `t` under `pathAdversary`. -/
def pathCandidates (t : Nat) : List Nat :=
  if t % 2 = 0 then [1, 2] else [0, 1]

/-- The search state at the start of iteration `t` under `pathAdversary`. -/
def pathState (t : Nat) : SearchState :=
  { max_iterations := 5000 - t
    solutions_checked := t
    tabu_list := List.replicate (min t 4) 1
    aspiration_criteria := []
    current_colors := pathColors t
    candidate_colors := if t = 0 then [] else pathColors t
    selected_candidate := if t = 0 then 0 else 1
    draws := 3 + 1400 * t }


/-! ## The parallel counting loop -/

/-- The first parallel loop of tabuOMP.cc (lines 47-58) with the vertex range handed out in
chunks, taken one after the other: every chunk counts into its private copy of
`conflict_count`, which starts at 0 and is added to the total by the reduction, and inserts
into the shared set.  The accumulator is the shared set and the total. -/
def evaluateChunks (adjacency_list : List (List Nat)) (colors : List Int) :
    List (List Nat) → List Nat × Nat → Run (List Nat × Nat)
  | [], acc => .ok acc
  | chunk :: rest, (candidate_set, total) => do
    let (set1, conflict_count) ← evaluateFrom adjacency_list colors chunk (candidate_set, 0)
    evaluateChunks adjacency_list colors rest (set1, total + conflict_count)

/-- The evaluation of tabuOMP.cc lines 44-59 for a given division of the vertices into chunks:
the shared candidate set and the halved sum of the private counters. -/
def ompEvaluate (adjacency_list : List (List Nat)) (colors : List Int)
    (chunks : List (List Nat)) : Run (List Nat × Nat) := do
  let (candidate_set, conflict_count) ← evaluateChunks adjacency_list colors chunks ([], 0)
  pure (candidate_set, conflict_count / 2)


/-! ## The report -/

/-- The step `ompStep` makes for a trial whose phase is `p`, as a function of that phase and of
the shared variables: the next phase and the shared variables after the step (the list of
phases is left alone). -/
def phaseStep (rng : Nat → Nat) (num_nodes : Nat) (max_colors : Int)
    (adjacency_list : List (List Nat)) (current_colors : List Int) (candidates : List Nat)
    (conflict_count : Nat) (p : TrialPhase) (bs : BatchState) : Run (TrialPhase × BatchState) :=
  match p with
  | .notStarted => .ok (if bs.found_better_solution then .done else .started, bs)
  | .started => do
    let idx ← sizeMod (rng bs.draws) candidates.length
    let selected_candidate ← vecAt candidates idx
    pure (.picked selected_candidate, { bs with draws := bs.draws + 1 })
  | .picked selected_candidate => do
    let drawn ← intMod (rng bs.draws : Nat) (max_colors - 1)
    let recolored ← vecSet current_colors selected_candidate drawn
    let old ← vecAt current_colors selected_candidate
    let candidate_colors ← forceChange max_colors recolored selected_candidate drawn old
    let new_conflict_count ← countConflicts num_nodes adjacency_list candidate_colors
    pure (.counted selected_candidate candidate_colors new_conflict_count,
      { bs with draws := bs.draws + 1 })
  | .counted selected_candidate candidate_colors new_conflict_count =>
    if new_conflict_count < conflict_count then
      if mapFind bs.aspiration_criteria conflict_count = none then
        .ok (.needInsert selected_candidate candidate_colors new_conflict_count, bs)
      else
        .ok (.compare selected_candidate candidate_colors new_conflict_count, bs)
    else .ok (.done, bs)
  | .needInsert selected_candidate candidate_colors new_conflict_count =>
    .ok (.compare selected_candidate candidate_colors new_conflict_count,
      { bs with
        aspiration_criteria :=
          mapInsertIfAbsent conflict_count ((conflict_count : Int) - 1)
            bs.aspiration_criteria })
  | .compare selected_candidate candidate_colors new_conflict_count =>
    if (new_conflict_count : Int) ≤ mapAt bs.aspiration_criteria conflict_count then
      .ok (.aspire selected_candidate candidate_colors new_conflict_count, bs)
    else
      .ok (.tabuScan selected_candidate candidate_colors new_conflict_count, bs)
  | .aspire selected_candidate candidate_colors new_conflict_count =>
    .ok (.done,
      writeBest conflict_count selected_candidate candidate_colors new_conflict_count
        { bs with
          aspiration_criteria :=
            mapAssign conflict_count ((new_conflict_count : Int) - 1) bs.aspiration_criteria
          tabu_list := forgive bs.tabu_list selected_candidate })
  | .tabuScan selected_candidate candidate_colors new_conflict_count =>
    if selected_candidate ∈ bs.tabu_list then .ok (.done, bs)
    else .ok (.plain selected_candidate candidate_colors new_conflict_count, bs)
  | .plain selected_candidate candidate_colors new_conflict_count =>
    .ok (.done,
      writeBest conflict_count selected_candidate candidate_colors new_conflict_count bs)
  | .done => .ok (.done, bs)

/-- Running `k` consecutive steps of one trial. -/
def phaseRun (rng : Nat → Nat) (num_nodes : Nat) (max_colors : Int)
    (adjacency_list : List (List Nat)) (current_colors : List Int) (candidates : List Nat)
    (conflict_count : Nat) : Nat → TrialPhase → BatchState → Run (TrialPhase × BatchState)
  | 0, p, bs => .ok (p, bs)
  | k + 1, p, bs => do
    let (p1, bs1) ← phaseStep rng num_nodes max_colors adjacency_list current_colors candidates
      conflict_count p bs
    phaseRun rng num_nodes max_colors adjacency_list current_colors candidates conflict_count
      k p1 bs1

/-- An upper bound on the number of steps a trial in phase `p` still takes. -/
def phaseRank : TrialPhase → Nat
  | .notStarted => 8
  | .started => 7
  | .picked _ => 6
  | .counted _ _ _ => 5
  | .needInsert _ _ _ => 4
  | .compare _ _ _ => 3
  | .tabuScan _ _ _ => 2
  | .aspire _ _ _ => 1
  | .plain _ _ _ => 1
  | .done => 0

/-- The private variables of a trial are consistent: its count is the conflict count of its
trial colouring, and past the test of line 94 the count is below the current one. -/
def PhaseOK (num_nodes : Nat) (adjacency_list : List (List Nat)) (conflict_count : Nat) :
    TrialPhase → Prop
  | .notStarted => True
  | .started => True
  | .picked _ => True
  | .counted _ cc new => countConflicts num_nodes adjacency_list cc = .ok new
  | .needInsert _ cc new =>
    countConflicts num_nodes adjacency_list cc = .ok new ∧ new < conflict_count
  | .compare _ cc new =>
    countConflicts num_nodes adjacency_list cc = .ok new ∧ new < conflict_count
  | .aspire _ cc new =>
    countConflicts num_nodes adjacency_list cc = .ok new ∧ new < conflict_count
  | .tabuScan _ cc new =>
    countConflicts num_nodes adjacency_list cc = .ok new ∧ new < conflict_count
  | .plain _ cc new =>
    countConflicts num_nodes adjacency_list cc = .ok new ∧ new < conflict_count
  | .done => True

/-- What holds of the shared variables of a batch under every schedule, for the batch entered
with tabu list `tabu0` and aspiration table `asp0` at conflict count `C`: the best slot, once
written, holds a colouring with fewer conflicts; the tabu list is untouched and not longer as
long as the flag is clear; the table only gained the key `C`. -/
structure SharedOK (num_nodes : Nat) (adjacency_list : List (List Nat)) (conflict_count : Nat)
    (tabu0 : List Nat) (asp0 : List (Nat × Int)) (bs : BatchState) : Prop where
  best : bs.found_better_solution = true →
    ∃ new, countConflicts num_nodes adjacency_list bs.best_candidate_colors = .ok new ∧
      new < conflict_count
  tabu : bs.found_better_solution = false → bs.tabu_list = tabu0
  keys : ∀ k, mapFind bs.aspiration_criteria k ≠ none →
    k = conflict_count ∨ mapFind asp0 k ≠ none


/-! ## The batch in index order -/

/-- What holds of a trial of a batch whose trials run one at a time: before the test of
line 94 and past its end the flag is set or the key `C` is absent from the table; between them
the key is absent until the trial creates it with the value `C - 1`; the branch that scans the
tabu list is not entered. -/
def Quiet (conflict_count : Nat) (p : TrialPhase) (bs : BatchState) : Prop :=
  match p with
  | .notStarted =>
    bs.found_better_solution = true ∨ mapFind bs.aspiration_criteria conflict_count = none
  | .started => mapFind bs.aspiration_criteria conflict_count = none
  | .picked _ => mapFind bs.aspiration_criteria conflict_count = none
  | .counted _ _ _ => mapFind bs.aspiration_criteria conflict_count = none
  | .needInsert _ _ new =>
    new < conflict_count ∧ mapFind bs.aspiration_criteria conflict_count = none
  | .compare _ _ new =>
    new < conflict_count ∧
      mapFind bs.aspiration_criteria conflict_count = some ((conflict_count : Int) - 1)
  | .aspire _ _ new => new < conflict_count
  | .tabuScan _ _ _ => False
  | .plain _ _ _ => False
  | .done =>
    bs.found_better_solution = true ∨ mapFind bs.aspiration_criteria conflict_count = none

/-- The vertex in the best slot is not in the tabu list when the flag is set. -/
def BestForgiven (bs : BatchState) : Prop :=
  bs.found_better_solution = true → bs.best_selected_candidate.toNat ∉ bs.tabu_list

/-- Every key of the aspiration table is above the conflict count of the current
colouring. -/
def KeysAbove (num_nodes : Nat) (adjacency_list : List (List Nat)) (st : SearchState) : Prop :=
  ∀ k, mapFind st.aspiration_criteria k ≠ none →
    ∀ c, countConflicts num_nodes adjacency_list st.current_colors = .ok c → c < k

/-! ## Accesses to the shared search memory -/

/-- The two containers of the search memory shared by the threads of the trial loop. -/
inductive Container where
  | tabuList
  | aspirationTable
  deriving DecidableEq

/-- An access to a shared container made by one step of a trial. -/
structure Access where
  container : Container
  /-- The access modifies the container. -/
  writes : Bool
  /-- The statement stands inside a block `#pragma omp critical`. -/
  critical : Bool
  deriving DecidableEq

/-- The accesses to the tabu list and to the aspiration table made by the step that a trial in
phase `p` takes next (tabuOMP.cc lines 94-140): the `find` of line 97, reached when
`new_conflict_count < conflict_count`, and the `operator[]` of line 104 are evaluated in the
conditions of the `if` statements, outside the critical blocks of lines 98-101 and 105-121;
the scan of the tabu list of lines 123-128 is outside every critical block. -/
def stepAccesses (conflict_count : Nat) : TrialPhase → List Access
  | .notStarted => []
  | .started => []
  | .picked _ => []
  | .counted _ _ new_conflict_count =>
    if new_conflict_count < conflict_count then
      [{ container := .aspirationTable, writes := false, critical := false }]
    else []
  | .needInsert _ _ _ => [{ container := .aspirationTable, writes := true, critical := true }]
  | .compare _ _ _ => [{ container := .aspirationTable, writes := false, critical := false }]
  | .aspire _ _ _ =>
    [{ container := .aspirationTable, writes := true, critical := true },
     { container := .tabuList, writes := false, critical := true },
     { container := .tabuList, writes := true, critical := true }]
  | .tabuScan _ _ _ => [{ container := .tabuList, writes := false, critical := false }]
  | .plain _ _ _ => []
  | .done => []

/-- Two accesses conflict: they go to the same container and one of them modifies it. -/
def conflicting (a b : Access) : Bool :=
  decide (a.container = b.container) && (a.writes || b.writes)

/-- A data race in a state of the batch: the next steps of two distinct trials make conflicting
accesses that are not both inside critical blocks, so nothing keeps two threads from making
them at the same time. -/
def Race (conflict_count : Nat) (bs : BatchState) : Prop :=
  ∃ (i j : Nat) (p q : TrialPhase) (a b : Access), i ≠ j ∧ bs.phases[i]? = some p ∧ bs.phases[j]? = some q ∧
    a ∈ stepAccesses conflict_count p ∧ b ∈ stepAccesses conflict_count q ∧
    conflicting a b = true ∧ (a.critical && b.critical) = false
theorem vecAt_of_lt {α : Type} (v : List α) (i : Nat) (h : i < v.length) :
    vecAt v i = .ok v[i] := by
  simp [vecAt, List.getElem?_eq_getElem h]

theorem sameColor_of_lt (colors : List Int) (i w : Nat) (hi : i < colors.length)
    (hw : w < colors.length) :
    sameColor colors i w = decide (colors[i] = colors[w]) := by
  simp [sameColor, List.getElem?_eq_getElem hi, List.getElem?_eq_getElem hw]

theorem scanNeighbors_ok (colors : List Int) (i : Nat) (hi : i < colors.length) :
    ∀ (row : List Nat) (s : List Nat) (c : Nat), (∀ w ∈ row, w < colors.length) →
      scanNeighbors colors i row (s, c)
        = .ok (markRow colors i row s, c + row.countP (sameColor colors i)) := by
  intro row
  induction row with
  | nil => intro s c _; simp [scanNeighbors, markRow]
  | cons w rest ih =>
    intro s c hrow
    have hw : w < colors.length := hrow w (List.mem_cons_self _ _)
    have hrest : ∀ x ∈ rest, x < colors.length := fun x hx => hrow x (List.mem_cons_of_mem _ hx)
    simp only [scanNeighbors, vecAt_of_lt colors i hi, vecAt_of_lt colors w hw, bind, Except.bind]
    by_cases hc : colors[i] = colors[w]
    · have hs : sameColor colors i w = true := by rw [sameColor_of_lt colors i w hi hw]; simp [hc]
      rw [if_pos hc, ih _ _ hrest]
      simp [markRow, List.countP_cons, hs]; omega
    · have hs : sameColor colors i w = false := by rw [sameColor_of_lt colors i w hi hw]; simp [hc]
      rw [if_neg hc, ih _ _ hrest]
      simp [markRow, List.countP_cons, hs]

theorem evaluateFrom_ok (adjacency_list : List (List Nat)) (colors : List Int)
    (hadj : ∀ row ∈ adjacency_list, ∀ w ∈ row, w < colors.length) :
    ∀ (is : List Nat) (s : List Nat) (c : Nat),
      (∀ i ∈ is, i < adjacency_list.length ∧ i < colors.length) →
      evaluateFrom adjacency_list colors is (s, c)
        = .ok (markFrom adjacency_list colors is s,
            c + (is.map (rowPairs adjacency_list colors)).sum) := by
  intro is
  induction is with
  | nil => intro s c _; simp [evaluateFrom, markFrom]
  | cons i rest ih =>
    intro s c his
    obtain ⟨hia, hic⟩ := his i (List.mem_cons_self _ _)
    have hrest : ∀ x ∈ rest, x < adjacency_list.length ∧ x < colors.length :=
      fun x hx => his x (List.mem_cons_of_mem _ hx)
    have hrow : ∀ w ∈ adjacency_list[i], w < colors.length :=
      hadj _ (List.getElem_mem _)
    have hget : adjacency_list[i]?.getD [] = adjacency_list[i] := by
      simp [List.getElem?_eq_getElem hia]
    simp only [evaluateFrom, vecAt_of_lt adjacency_list i hia, bind, Except.bind]
    rw [scanNeighbors_ok colors i hic _ s c hrow]
    simp only []
    rw [ih _ _ hrest]
    simp [markFrom, rowPairs, hget, Nat.add_assoc]

theorem countNeighbors_ok (colors : List Int) (i : Nat) (hi : i < colors.length) :
    ∀ (row : List Nat) (c : Nat), (∀ w ∈ row, w < colors.length) →
      countNeighbors colors i row c = .ok (c + row.countP (sameColor colors i)) := by
  intro row
  induction row with
  | nil => intro c _; simp [countNeighbors]
  | cons w rest ih =>
    intro c hrow
    have hw : w < colors.length := hrow w (List.mem_cons_self _ _)
    have hrest : ∀ x ∈ rest, x < colors.length := fun x hx => hrow x (List.mem_cons_of_mem _ hx)
    simp only [countNeighbors, vecAt_of_lt colors i hi, vecAt_of_lt colors w hw, bind, Except.bind]
    by_cases hc : colors[i] = colors[w]
    · have hs : sameColor colors i w = true := by rw [sameColor_of_lt colors i w hi hw]; simp [hc]
      rw [if_pos hc, ih _ hrest]
      simp [List.countP_cons, hs]; omega
    · have hs : sameColor colors i w = false := by rw [sameColor_of_lt colors i w hi hw]; simp [hc]
      rw [if_neg hc, ih _ hrest]
      simp [List.countP_cons, hs]

theorem countFrom_ok (adjacency_list : List (List Nat)) (colors : List Int)
    (hadj : ∀ row ∈ adjacency_list, ∀ w ∈ row, w < colors.length) :
    ∀ (is : List Nat) (c : Nat),
      (∀ i ∈ is, i < adjacency_list.length ∧ i < colors.length) →
      countFrom adjacency_list colors is c
        = .ok (c + (is.map (rowPairs adjacency_list colors)).sum) := by
  intro is
  induction is with
  | nil => intro c _; simp [countFrom]
  | cons i rest ih =>
    intro c his
    obtain ⟨hia, hic⟩ := his i (List.mem_cons_self _ _)
    have hrest : ∀ x ∈ rest, x < adjacency_list.length ∧ x < colors.length :=
      fun x hx => his x (List.mem_cons_of_mem _ hx)
    have hrow : ∀ w ∈ adjacency_list[i], w < colors.length :=
      hadj _ (List.getElem_mem _)
    have hget : adjacency_list[i]?.getD [] = adjacency_list[i] := by
      simp [List.getElem?_eq_getElem hia]
    simp only [countFrom, vecAt_of_lt adjacency_list i hia, bind, Except.bind]
    rw [countNeighbors_ok colors i hic _ c hrow]
    simp only []
    rw [ih _ hrest]
    simp [rowPairs, hget, Nat.add_assoc]

/-- On a well-formed graph and a colouring of its vertices the evaluation does not fault. -/
theorem evaluate_ok (n : Nat) (adjacency_list : List (List Nat)) (colors : List Int)
    (hwf : WellFormed n adjacency_list) (hlen : colors.length = n) :
    evaluate n adjacency_list colors
      = .ok (markFrom adjacency_list colors (List.range n) [],
          orderedPairs n adjacency_list colors / 2) := by
  obtain ⟨h1, h2⟩ := hwf
  have hadj : ∀ row ∈ adjacency_list, ∀ w ∈ row, w < colors.length := by
    intro row hr w hw; rw [hlen]; exact h2 row hr w hw
  have his : ∀ i ∈ List.range n, i < adjacency_list.length ∧ i < colors.length := by
    intro i hi; rw [List.mem_range] at hi; omega
  simp only [evaluate, bind, Except.bind]
  rw [evaluateFrom_ok adjacency_list colors hadj _ [] 0 his]
  simp [orderedPairs, pure, Except.pure]

/-- The trial count agrees with the evaluation count. -/
theorem countConflicts_ok (n : Nat) (adjacency_list : List (List Nat)) (colors : List Int)
    (hwf : WellFormed n adjacency_list) (hlen : colors.length = n) :
    countConflicts n adjacency_list colors = .ok (orderedPairs n adjacency_list colors / 2) := by
  obtain ⟨h1, h2⟩ := hwf
  have hadj : ∀ row ∈ adjacency_list, ∀ w ∈ row, w < colors.length := by
    intro row hr w hw; rw [hlen]; exact h2 row hr w hw
  have his : ∀ i ∈ List.range n, i < adjacency_list.length ∧ i < colors.length := by
    intro i hi; rw [List.mem_range] at hi; omega
  simp only [countConflicts, bind, Except.bind]
  rw [countFrom_ok adjacency_list colors hadj _ 0 his]
  simp [orderedPairs, pure, Except.pure]

theorem sum_range_bump (f g : Nat → Nat) (u d : Nat) :
    ∀ n, u < n → (∀ i, g i = f i + if i = u then d else 0) →
      ((List.range n).map g).sum = ((List.range n).map f).sum + d := by
  intro n
  induction n with
  | zero => intro h; omega
  | succ n ih =>
    intro hu hg
    rw [List.sum_range_succ, List.sum_range_succ]
    by_cases hn : u = n
    · have hsame : ((List.range n).map g).sum = ((List.range n).map f).sum := by
        congr 1
        apply List.map_congr_left
        intro i hi
        rw [List.mem_range] at hi
        rw [hg i, if_neg (by omega)]; rfl
      rw [hsame, hg n, if_pos hn.symm]; omega
    · rw [ih (by omega) hg, hg n, if_neg (fun h => hn h.symm)]; omega

theorem getD_modify_append (adjacency_list : List (List Nat)) (k x i : Nat) :
    (List.modify (fun row => row ++ [x]) k adjacency_list)[i]?.getD []
      = if i = k ∧ i < adjacency_list.length then adjacency_list[i]?.getD [] ++ [x]
        else adjacency_list[i]?.getD [] := by
  rw [List.getElem?_modify]
  by_cases hi : i < adjacency_list.length
  · rw [List.getElem?_eq_getElem hi]
    by_cases hk : k = i
    · subst hk; simp [hi]
    · have : ¬ i = k := fun h => hk h.symm
      simp [hk, this]
  · rw [List.getElem?_eq_none (by omega)]
    simp [hi]

theorem pushNeighbor_ok (n : Nat) (adjacency_list : List (List Nat)) (a b : Nat)
    (hwf : WellFormed n adjacency_list) (ha : 1 ≤ a ∧ a ≤ n) (hb : 1 ≤ b ∧ b ≤ n) :
    ∃ next, pushNeighbor adjacency_list a b = .ok next ∧ WellFormed n next ∧
      ∀ colors, orderedPairs n next colors
        = orderedPairs n adjacency_list colors
          + if sameColor colors (a - 1) (b - 1) then 1 else 0 := by
  obtain ⟨hlen, hent⟩ := hwf
  refine ⟨List.modify (fun row => row ++ [b - 1]) (a - 1) adjacency_list, ?_, ⟨?_, ?_⟩, ?_⟩
  · have : 1 ≤ a ∧ a - 1 < adjacency_list.length := ⟨ha.1, by omega⟩
    simp [pushNeighbor, this]
  · simp [hlen]
  · intro row hrow w hw
    obtain ⟨i, hi, rfl⟩ := List.getElem_of_mem hrow
    have hi2 : i < adjacency_list.length := by simpa using hi
    have hrow2 := getD_modify_append adjacency_list (a - 1) (b - 1) i
    rw [List.getElem?_eq_getElem hi, List.getElem?_eq_getElem hi2] at hrow2
    simp only [Option.getD_some] at hrow2
    rw [hrow2] at hw
    have hold : ∀ x ∈ adjacency_list[i], x < n := hent _ (List.getElem_mem _)
    split at hw
    · rcases List.mem_append.mp hw with h | h
      · exact hold w h
      · simp at h; omega
    · exact hold w hw
  · intro colors
    unfold orderedPairs
    apply sum_range_bump _ _ (a - 1) _ n (by omega)
    intro i
    unfold rowPairs
    simp only [List.getD_eq_getElem?_getD]
    rw [getD_modify_append]
    by_cases hi : i = a - 1
    · have hlt : i < adjacency_list.length := by omega
      rw [if_pos ⟨hi, hlt⟩, if_pos hi, List.countP_append]
      subst hi
      by_cases hs : sameColor colors (a - 1) (b - 1) = true <;> simp [hs]
    · rw [if_neg (fun h => hi h.1), if_neg hi]; rfl

theorem sameColor_comm (colors : List Int) (i w : Nat) :
    sameColor colors i w = sameColor colors w i := by
  unfold sameColor
  by_cases h : colors[i]? = colors[w]?
  · simp [h]
  · have : ¬ colors[w]? = colors[i]? := fun h2 => h h2.symm
    simp [h, this]

theorem loadEdges_ok (n : Nat) :
    ∀ (edges : List (Nat × Nat)) (adjacency_list : List (List Nat)),
      WellFormed n adjacency_list →
      (∀ e ∈ edges, (1 ≤ e.1 ∧ e.1 ≤ n) ∧ (1 ≤ e.2 ∧ e.2 ≤ n)) →
      ∃ out, loadEdges edges adjacency_list = .ok out ∧ WellFormed n out ∧
        ∀ colors, orderedPairs n out colors
          = orderedPairs n adjacency_list colors + 2 * monochromeEdges colors edges := by
  intro edges
  induction edges with
  | nil =>
    intro adjacency_list hwf _
    exact ⟨adjacency_list, rfl, hwf, fun colors => by simp [monochromeEdges]⟩
  | cons e rest ih =>
    intro adjacency_list hwf hedges
    obtain ⟨u, v⟩ := e
    obtain ⟨hu, hv⟩ := hedges (u, v) (List.mem_cons_self _ _)
    obtain ⟨a1, h1, hwf1, hp1⟩ := pushNeighbor_ok n adjacency_list u v hwf hu hv
    obtain ⟨a2, h2, hwf2, hp2⟩ := pushNeighbor_ok n a1 v u hwf1 hv hu
    obtain ⟨out, h3, hwf3, hp3⟩ :=
      ih a2 hwf2 (fun x hx => hedges x (List.mem_cons_of_mem _ hx))
    refine ⟨out, ?_, hwf3, ?_⟩
    · simp only [loadEdges, h1, h2, bind, Except.bind]
      exact h3
    · intro colors
      rw [hp3, hp2, hp1, sameColor_comm colors (v - 1) (u - 1)]
      simp only [monochromeEdges, List.countP_cons]
      by_cases hs : sameColor colors (u - 1) (v - 1) = true
      · simp [hs]; omega
      · simp [hs]

theorem wellFormed_replicate (n : Nat) : WellFormed n (List.replicate n []) := by
  refine ⟨by simp, ?_⟩
  intro row hrow w hw
  rw [List.eq_of_mem_replicate hrow] at hw
  simp at hw

theorem rowPairs_replicate (n : Nat) (colors : List Int) (i : Nat) :
    rowPairs (List.replicate n []) colors i = 0 := by
  unfold rowPairs
  have : (List.replicate n ([] : List Nat)).getD i [] = [] := by
    rw [List.getD_eq_getElem?_getD]
    by_cases hi : i < n
    · simp [List.getElem?_replicate, hi]
    · simp [List.getElem?_replicate, hi]
  rw [this]; rfl

theorem orderedPairs_replicate (n : Nat) (colors : List Int) :
    orderedPairs n (List.replicate n []) colors = 0 := by
  unfold orderedPairs
  apply List.sum_eq_zero
  intro x hx
  rw [List.mem_map] at hx
  obtain ⟨i, _, rfl⟩ := hx
  exact rowPairs_replicate n colors i

/-- C1: for every edge list over the vertices `1..n` (repeated edges and self-loops allowed)
the loader succeeds, and for every colouring of the `n` vertices the number of ordered
equal-colour pairs counted by the evaluation loop is even and its half, the conflict count,
is the number of listed edges (with multiplicity) whose endpoints carry the same colour. -/
theorem conflict_count_eq_monochrome_edges (n : Nat) (edges : List (Nat × Nat))
    (colors : List Int)
    (hedges : ∀ e ∈ edges, (1 ≤ e.1 ∧ e.1 ≤ n) ∧ (1 ≤ e.2 ∧ e.2 ≤ n))
    (hlen : colors.length = n) :
    ∃ adjacency_list, read_graph_from_file n edges = .ok adjacency_list ∧
      ∃ candidate_set pairs,
        evaluateFrom adjacency_list colors (List.range n) ([], 0) = .ok (candidate_set, pairs) ∧
        pairs % 2 = 0 ∧ pairs / 2 = monochromeEdges colors edges ∧
        evaluate n adjacency_list colors = .ok (candidate_set, monochromeEdges colors edges) := by
  obtain ⟨out, hload, hwf, hp⟩ :=
    loadEdges_ok n edges (List.replicate n []) (wellFormed_replicate n) hedges
  have hpairs : orderedPairs n out colors = 2 * monochromeEdges colors edges := by
    rw [hp colors, orderedPairs_replicate]; omega
  have hadj : ∀ row ∈ out, ∀ w ∈ row, w < colors.length := by
    intro row hr w hw; rw [hlen]; exact hwf.2 row hr w hw
  have his : ∀ i ∈ List.range n, i < out.length ∧ i < colors.length := by
    intro i hi; rw [List.mem_range] at hi; rw [hwf.1, hlen]; exact ⟨hi, hi⟩
  refine ⟨out, hload, markFrom out colors (List.range n) [], orderedPairs n out colors, ?_, ?_, ?_, ?_⟩
  · rw [evaluateFrom_ok out colors hadj _ [] 0 his]
    simp [orderedPairs]
  · omega
  · omega
  · rw [evaluate_ok n out colors hwf hlen, hpairs]
    simp

theorem conflict_count_eq_monochrome_edges_witness :
    ∃ adjacency_list,
      read_graph_from_file 3 [(1, 2), (2, 3), (2, 2), (1, 2)] = .ok adjacency_list ∧
      ∃ candidate_set pairs,
        evaluateFrom adjacency_list [0, 0, 1] (List.range 3) ([], 0)
          = .ok (candidate_set, pairs) ∧
        pairs % 2 = 0 ∧ pairs / 2 = monochromeEdges [0, 0, 1] [(1, 2), (2, 3), (2, 2), (1, 2)] ∧
        evaluate 3 adjacency_list [0, 0, 1]
          = .ok (candidate_set, monochromeEdges [0, 0, 1] [(1, 2), (2, 3), (2, 2), (1, 2)]) :=
  conflict_count_eq_monochrome_edges 3 [(1, 2), (2, 3), (2, 2), (1, 2)] [0, 0, 1]
    (by decide) (by decide)

/-! ## The candidate set -/

theorem mem_setInsert (x y : Nat) : ∀ l : List Nat, y ∈ setInsert x l ↔ y = x ∨ y ∈ l := by
  intro l
  induction l with
  | nil => simp [setInsert]
  | cons z zs ih =>
    unfold setInsert
    split
    · simp
    · split
      · rename_i h; subst h; simp
      · simp only [List.mem_cons, ih]; tauto

theorem sorted_setInsert (x : Nat) :
    ∀ l : List Nat, l.Sorted (· < ·) → (setInsert x l).Sorted (· < ·) := by
  intro l
  induction l with
  | nil => intro _; simp [setInsert]
  | cons z zs ih =>
    intro h
    unfold setInsert
    split
    · rename_i hlt
      refine List.sorted_cons.mpr ⟨?_, h⟩
      intro b hb
      rcases List.mem_cons.mp hb with rfl | hb
      · exact hlt
      · exact lt_trans hlt (List.rel_of_sorted_cons h b hb)
    · split
      · exact h
      · rename_i h1 h2
        refine List.sorted_cons.mpr ⟨?_, ih (List.Sorted.of_cons h)⟩
        intro b hb
        rcases (mem_setInsert x b zs).mp hb with rfl | hb
        · omega
        · exact List.rel_of_sorted_cons h b hb

theorem mem_markRow (colors : List Int) (i u : Nat) :
    ∀ (row s : List Nat),
      u ∈ markRow colors i row s ↔ u ∈ s ∨ (u ∈ row ∧ sameColor colors i u = true) := by
  intro row
  induction row with
  | nil => intro s; simp [markRow]
  | cons w rest ih =>
    intro s
    have hstep : markRow colors i (w :: rest) s
        = markRow colors i rest (if sameColor colors i w then setInsert w s else s) := rfl
    rw [hstep, ih]
    by_cases hs : sameColor colors i w = true
    · simp only [hs, if_true, mem_setInsert, List.mem_cons]
      constructor
      · rintro ((rfl | h) | h)
        · exact Or.inr ⟨Or.inl rfl, hs⟩
        · exact Or.inl h
        · exact Or.inr ⟨Or.inr h.1, h.2⟩
      · rintro (h | ⟨rfl | h, h2⟩)
        · exact Or.inl (Or.inr h)
        · exact Or.inl (Or.inl rfl)
        · exact Or.inr ⟨h, h2⟩
    · simp only [hs, List.mem_cons]
      constructor
      · rintro (h | h)
        · exact Or.inl h
        · exact Or.inr ⟨Or.inr h.1, h.2⟩
      · rintro (h | ⟨rfl | h, h2⟩)
        · exact Or.inl h
        · exact absurd h2 hs
        · exact Or.inr ⟨h, h2⟩

theorem sorted_markRow (colors : List Int) (i : Nat) :
    ∀ (row s : List Nat), s.Sorted (· < ·) → (markRow colors i row s).Sorted (· < ·) := by
  intro row
  induction row with
  | nil => intro s h; exact h
  | cons w rest ih =>
    intro s h
    have hstep : markRow colors i (w :: rest) s
        = markRow colors i rest (if sameColor colors i w then setInsert w s else s) := rfl
    rw [hstep]
    apply ih
    split
    · exact sorted_setInsert w s h
    · exact h

theorem mem_markFrom (adjacency_list : List (List Nat)) (colors : List Int) (u : Nat) :
    ∀ (is s : List Nat),
      u ∈ markFrom adjacency_list colors is s ↔
        u ∈ s ∨ ∃ i ∈ is, u ∈ adjacency_list.getD i [] ∧ sameColor colors i u = true := by
  intro is
  induction is with
  | nil => intro s; simp [markFrom]
  | cons i rest ih =>
    intro s
    have hstep : markFrom adjacency_list colors (i :: rest) s
        = markFrom adjacency_list colors rest
            (markRow colors i (adjacency_list.getD i []) s) := rfl
    rw [hstep, ih, mem_markRow]
    constructor
    · rintro ((h | h) | ⟨j, hj, h⟩)
      · exact Or.inl h
      · exact Or.inr ⟨i, List.mem_cons_self _ _, h⟩
      · exact Or.inr ⟨j, List.mem_cons_of_mem _ hj, h⟩
    · rintro (h | ⟨j, hj, h⟩)
      · exact Or.inl (Or.inl h)
      · rcases List.mem_cons.mp hj with rfl | hj
        · exact Or.inl (Or.inr h)
        · exact Or.inr ⟨j, hj, h⟩

theorem sorted_markFrom (adjacency_list : List (List Nat)) (colors : List Int) :
    ∀ (is s : List Nat), s.Sorted (· < ·) →
      (markFrom adjacency_list colors is s).Sorted (· < ·) := by
  intro is
  induction is with
  | nil => intro s h; exact h
  | cons i rest ih =>
    intro s h
    exact ih _ (sorted_markRow colors i _ s h)

theorem mem_specMarkRow (colors : List Int) (i u : Nat) :
    ∀ (row s : List Nat),
      u ∈ specMarkRow colors i row s ↔
        u ∈ s ∨ (u ∈ row ∧ sameColor colors i u = true)
          ∨ (u = i ∧ ∃ w ∈ row, sameColor colors i w = true) := by
  intro row
  induction row with
  | nil => intro s; simp [specMarkRow]
  | cons w rest ih =>
    intro s
    have hstep : specMarkRow colors i (w :: rest) s
        = specMarkRow colors i rest
            (if sameColor colors i w then setInsert w (setInsert i s) else s) := rfl
    rw [hstep, ih]
    by_cases hs : sameColor colors i w = true
    · simp only [hs, if_true, mem_setInsert, List.mem_cons]
      constructor
      · rintro ((rfl | rfl | h) | ⟨h, h2⟩ | ⟨rfl, x, hx, h2⟩)
        · exact Or.inr (Or.inl ⟨Or.inl rfl, hs⟩)
        · exact Or.inr (Or.inr ⟨rfl, w, Or.inl rfl, hs⟩)
        · exact Or.inl h
        · exact Or.inr (Or.inl ⟨Or.inr h, h2⟩)
        · exact Or.inr (Or.inr ⟨rfl, x, Or.inr hx, h2⟩)
      · rintro (h | ⟨rfl | h, h2⟩ | ⟨rfl, x, hx, h2⟩)
        · exact Or.inl (Or.inr (Or.inr h))
        · exact Or.inl (Or.inl rfl)
        · exact Or.inr (Or.inl ⟨h, h2⟩)
        · exact Or.inl (Or.inr (Or.inl rfl))
    · simp only [hs, List.mem_cons]
      constructor
      · rintro (h | ⟨h, h2⟩ | ⟨rfl, x, hx, h2⟩)
        · exact Or.inl h
        · exact Or.inr (Or.inl ⟨Or.inr h, h2⟩)
        · exact Or.inr (Or.inr ⟨rfl, x, Or.inr hx, h2⟩)
      · rintro (h | ⟨rfl | h, h2⟩ | ⟨rfl, x, rfl | hx, h2⟩)
        · exact Or.inl h
        · exact absurd h2 hs
        · exact Or.inr (Or.inl ⟨h, h2⟩)
        · exact absurd h2 hs
        · exact Or.inr (Or.inr ⟨rfl, x, hx, h2⟩)

theorem sorted_specMarkRow (colors : List Int) (i : Nat) :
    ∀ (row s : List Nat), s.Sorted (· < ·) → (specMarkRow colors i row s).Sorted (· < ·) := by
  intro row
  induction row with
  | nil => intro s h; exact h
  | cons w rest ih =>
    intro s h
    have hstep : specMarkRow colors i (w :: rest) s
        = specMarkRow colors i rest
            (if sameColor colors i w then setInsert w (setInsert i s) else s) := rfl
    rw [hstep]
    apply ih
    split
    · exact sorted_setInsert w _ (sorted_setInsert i s h)
    · exact h

theorem mem_specFold (adjacency_list : List (List Nat)) (colors : List Int) (u : Nat) :
    ∀ (is s : List Nat),
      u ∈ is.foldl (fun acc i => specMarkRow colors i (adjacency_list.getD i []) acc) s ↔
        u ∈ s ∨ (∃ i ∈ is, u ∈ adjacency_list.getD i [] ∧ sameColor colors i u = true)
          ∨ (u ∈ is ∧ ∃ w ∈ adjacency_list.getD u [], sameColor colors u w = true) := by
  intro is
  induction is with
  | nil => intro s; simp
  | cons i rest ih =>
    intro s
    rw [List.foldl_cons, ih, mem_specMarkRow]
    constructor
    · rintro ((h | h | ⟨rfl, h⟩) | ⟨j, hj, h⟩ | ⟨hu, h⟩)
      · exact Or.inl h
      · exact Or.inr (Or.inl ⟨i, List.mem_cons_self _ _, h⟩)
      · exact Or.inr (Or.inr ⟨List.mem_cons_self _ _, h⟩)
      · exact Or.inr (Or.inl ⟨j, List.mem_cons_of_mem _ hj, h⟩)
      · exact Or.inr (Or.inr ⟨List.mem_cons_of_mem _ hu, h⟩)
    · rintro (h | ⟨j, hj, h⟩ | ⟨hu, h⟩)
      · exact Or.inl (Or.inl h)
      · rcases List.mem_cons.mp hj with rfl | hj
        · exact Or.inl (Or.inr (Or.inl h))
        · exact Or.inr (Or.inl ⟨j, hj, h⟩)
      · rcases List.mem_cons.mp hu with rfl | hu
        · exact Or.inl (Or.inr (Or.inr ⟨rfl, h⟩))
        · exact Or.inr (Or.inr ⟨hu, h⟩)

theorem sorted_specFold (adjacency_list : List (List Nat)) (colors : List Int) :
    ∀ (is s : List Nat), s.Sorted (· < ·) →
      (is.foldl (fun acc i => specMarkRow colors i (adjacency_list.getD i []) acc) s).Sorted
        (· < ·) := by
  intro is
  induction is with
  | nil => intro s h; exact h
  | cons i rest ih =>
    intro s h
    exact ih _ (sorted_specMarkRow colors i _ s h)

/-- In a well-formed symmetric graph, `u` is the second component of an equal-coloured ordered
pair iff it is the first component of one. -/
theorem conflict_endpoint_swap (n : Nat) (adjacency_list : List (List Nat)) (colors : List Int)
    (hwf : WellFormed n adjacency_list) (hsym : Symmetric adjacency_list) (u : Nat) :
    (∃ i ∈ List.range n, u ∈ adjacency_list.getD i [] ∧ sameColor colors i u = true) ↔
      (u < n ∧ ∃ w ∈ adjacency_list.getD u [], sameColor colors u w = true) := by
  obtain ⟨hlen, hent⟩ := hwf
  have hrow : ∀ i x, i < n → x ∈ adjacency_list.getD i [] → x < n := by
    intro i x hi hx
    have hi2 : i < adjacency_list.length := by omega
    rw [List.getD_eq_getElem?_getD, List.getElem?_eq_getElem hi2] at hx
    exact hent _ (List.getElem_mem _) x hx
  constructor
  · rintro ⟨i, hi, hu, hs⟩
    rw [List.mem_range] at hi
    have hun : u < n := hrow i u hi hu
    refine ⟨hun, i, ?_, ?_⟩
    · exact (hsym i (by omega) u (by omega)).mp hu
    · rw [sameColor_comm]; exact hs
  · rintro ⟨hun, w, hw, hs⟩
    have hwn : w < n := hrow u w hun hw
    refine ⟨w, List.mem_range.mpr hwn, ?_, ?_⟩
    · exact (hsym u (by omega) w (by omega)).mp hw
    · rw [sameColor_comm]; exact hs

/-- C2: on a well-formed symmetric adjacency structure and any colouring of its vertices the
candidate set built by the evaluation loop, which inserts only the neighbour endpoint, is
exactly the set of vertices with an equal-coloured neighbour, and it is the set obtained by
marking both endpoints as the specification describes. -/
theorem candidate_set_exact (n : Nat) (adjacency_list : List (List Nat)) (colors : List Int)
    (hwf : WellFormed n adjacency_list) (hsym : Symmetric adjacency_list)
    (hlen : colors.length = n) :
    ∃ candidate_set conflict_count,
      evaluate n adjacency_list colors = .ok (candidate_set, conflict_count) ∧
      (∀ u, u ∈ candidate_set ↔
        (u < n ∧ ∃ w ∈ adjacency_list.getD u [], sameColor colors u w = true)) ∧
      candidate_set = specCandidates n adjacency_list colors := by
  refine ⟨_, _, evaluate_ok n adjacency_list colors hwf hlen, ?_, ?_⟩
  · intro u
    rw [mem_markFrom, ← conflict_endpoint_swap n adjacency_list colors hwf hsym u]
    simp
  · apply List.eq_of_perm_of_sorted (r := (· < ·))
    · rw [List.perm_ext_iff_of_nodup]
      · intro u
        unfold specCandidates
        rw [mem_markFrom, mem_specFold, conflict_endpoint_swap n adjacency_list colors hwf hsym u]
        simp only [List.not_mem_nil, false_or, List.mem_range]
        tauto
      · exact (sorted_markFrom adjacency_list colors _ [] List.sorted_nil).nodup
      · exact (sorted_specFold adjacency_list colors _ [] List.sorted_nil).nodup
    · exact sorted_markFrom adjacency_list colors _ [] List.sorted_nil
    · exact sorted_specFold adjacency_list colors _ [] List.sorted_nil

theorem candidate_set_exact_witness :
    ∃ candidate_set conflict_count,
      evaluate 3 [[1, 1], [0, 2, 0], [1]] [0, 0, 1] = .ok (candidate_set, conflict_count) ∧
      (∀ u, u ∈ candidate_set ↔
        (u < 3 ∧ ∃ w ∈ List.getD [[1, 1], [0, 2, 0], [1]] u [], sameColor [0, 0, 1] u w = true)) ∧
      candidate_set = specCandidates 3 [[1, 1], [0, 2, 0], [1]] [0, 0, 1] :=
  candidate_set_exact 3 [[1, 1], [0, 2, 0], [1]] [0, 0, 1] (by decide) (by decide) (by decide)

/-! ## The aspiration table and the acceptance test -/

theorem mapFind_mapAssign_self (k : Nat) (v : Int) :
    ∀ m : List (Nat × Int), mapFind (mapAssign k v m) k = some v := by
  intro m
  induction m with
  | nil => simp [mapAssign, mapFind]
  | cons e rest ih =>
    obtain ⟨k1, v1⟩ := e
    unfold mapAssign
    split
    · simp [mapFind]
    · split
      · simp [mapFind]
      · rename_i h1 h2
        have : ¬ k1 = k := fun h => h2 h.symm
        simp [mapFind, this, ih]

theorem mapFind_mapAssign_ne (k j : Nat) (v : Int) (hne : j ≠ k) :
    ∀ m : List (Nat × Int), mapFind (mapAssign k v m) j = mapFind m j := by
  intro m
  induction m with
  | nil =>
    have : ¬ k = j := fun h => hne h.symm
    simp [mapAssign, mapFind, this]
  | cons e rest ih =>
    obtain ⟨k1, v1⟩ := e
    have hkj : ¬ k = j := fun h => hne h.symm
    unfold mapAssign
    split
    · simp [mapFind, hkj]
    · split
      · rename_i h1 h2
        subst h2
        simp [mapFind, hkj]
      · simp [mapFind, ih]

theorem mapAt_created (m : List (Nat × Int)) (k : Nat) :
    mapAt (mapInsertIfAbsent k ((k : Int) - 1) m) k = threshold m k := by
  unfold mapAt mapInsertIfAbsent threshold
  cases h : mapFind m k with
  | none => simp [mapFind_mapAssign_self]
  | some t => simp [h]

theorem bind_ok_inv {α β : Type} (x : Run α) (f : α → Run β) (b : β)
    (h : (x >>= f) = .ok b) : ∃ a, x = .ok a ∧ f a = .ok b := by
  cases x with
  | error e => cases h
  | ok a => exact ⟨a, rfl, h⟩

/-- Inversion of a successful trial: every step succeeded. -/
theorem trial_inv (rng : Nat → Nat) (n : Nat) (max_colors : Int)
    (adjacency_list : List (List Nat)) (candidates : List Nat) (C : Nat)
    (st st1 : SearchState) (stop : Bool)
    (h : trial rng n max_colors adjacency_list candidates C st = .ok (stop, st1)) :
    ∃ idx sel drawn recolored old cc C',
      sizeMod (rng st.draws) candidates.length = .ok idx ∧
      vecAt candidates idx = .ok sel ∧
      intMod (rng (st.draws + 1) : Nat) (max_colors - 1) = .ok drawn ∧
      vecSet st.current_colors sel drawn = .ok recolored ∧
      vecAt st.current_colors sel = .ok old ∧
      forceChange max_colors recolored sel drawn old = .ok cc ∧
      countConflicts n adjacency_list cc = .ok C' ∧
      stop = (acceptance C C' sel st.tabu_list st.aspiration_criteria).stop ∧
      st1 = { st with
        tabu_list := (acceptance C C' sel st.tabu_list st.aspiration_criteria).tabu_list
        aspiration_criteria :=
          (acceptance C C' sel st.tabu_list st.aspiration_criteria).aspiration_criteria
        candidate_colors := cc
        selected_candidate := sel
        draws := st.draws + 2 } := by
  unfold trial at h
  obtain ⟨idx, h1, h⟩ := bind_ok_inv _ _ _ h
  obtain ⟨sel, h2, h⟩ := bind_ok_inv _ _ _ h
  obtain ⟨drawn, h3, h⟩ := bind_ok_inv _ _ _ h
  obtain ⟨recolored, h4, h⟩ := bind_ok_inv _ _ _ h
  obtain ⟨old, h5, h⟩ := bind_ok_inv _ _ _ h
  obtain ⟨cc, h6, h⟩ := bind_ok_inv _ _ _ h
  obtain ⟨C', h7, h⟩ := bind_ok_inv _ _ _ h
  injection h with h
  injection h with hstop hst
  exact ⟨idx, sel, drawn, recolored, old, cc, C', h1, h2, h3, h4, h5, h6, h7,
    hstop.symm, hst.symm⟩

/-- C3: a trial leaves the trial loop as accepted iff `C' < C` and (`C' <= T(C)` or `v` is not
in the tabu list), where `T(C)` is the table entry if present and `C - 1` otherwise; when
`C' < C`, `C' > T(C)` and `v` is tabu the trial is rejected, the tabu list is untouched and
the loop goes on to the next trial.  The flag returned by `trial` is this decision taken at the
conflict count of the trial colouring, and the loop stops exactly when the flag is set. -/
theorem acceptance_decision :
    (∀ (C C' v : Nat) (L : List Nat) (A : List (Nat × Int)),
      ((acceptance C C' v L A).stop = true ↔
        (C' < C ∧ ((C' : Int) ≤ threshold A C ∨ v ∉ L))) ∧
      (C' < C → threshold A C < (C' : Int) → v ∈ L →
        (acceptance C C' v L A).stop = false ∧ (acceptance C C' v L A).tabu_list = L)) ∧
    (∀ (rng : Nat → Nat) (n : Nat) (max_colors : Int) (adjacency_list : List (List Nat))
      (candidates : List Nat) (C reps : Nat) (st st1 : SearchState) (stop : Bool),
      trial rng n max_colors adjacency_list candidates C st = .ok (stop, st1) →
      (∃ C', countConflicts n adjacency_list st1.candidate_colors = .ok C' ∧
        stop = (acceptance C C' st1.selected_candidate st.tabu_list
          st.aspiration_criteria).stop) ∧
      trialLoop rng n max_colors adjacency_list candidates C (reps + 1) st
        = if stop then .ok st1
          else trialLoop rng n max_colors adjacency_list candidates C reps st1) := by
  refine ⟨?_, ?_⟩
  · intro C C' v L A
    have hT := mapAt_created A C
    refine ⟨?_, ?_⟩
    · unfold acceptance
      by_cases h1 : C' < C
      · by_cases h2 : (C' : Int) ≤ mapAt (mapInsertIfAbsent C ((C : Int) - 1) A) C
        · simp only [h1, h2, if_true, true_and, true_iff]
          left; rw [← hT]; exact h2
        · by_cases h3 : v ∈ L
          · simp only [h1, h2, h3, if_true, if_false, true_and]
            rw [← hT]
            simp [h2]
          · simp only [h1, h2, h3, if_true, if_false, true_and, true_iff]
            right; trivial
      · simp [h1]
    · intro h1 h2 h3
      rw [← hT] at h2
      have h2n : ¬ (C' : Int) ≤ mapAt (mapInsertIfAbsent C ((C : Int) - 1) A) C := by omega
      unfold acceptance
      simp [h1, h2n, h3]
  · intro rng n max_colors adjacency_list candidates C reps st st1 stop htrial
    refine ⟨?_, ?_⟩
    · obtain ⟨idx, sel, drawn, recolored, old, cc, C', -, -, -, -, -, -, h7, h8, h9⟩ :=
        trial_inv rng n max_colors adjacency_list candidates C st st1 stop htrial
      subst h9
      exact ⟨C', h7, h8⟩
    · simp only [trialLoop, htrial, bind, Except.bind, pure, Except.pure]

theorem acceptance_decision_witness :
    (acceptance 2 1 0 [0] [(2, 0)]).stop = false ∧
      (acceptance 2 1 0 [0] [(2, 0)]).tabu_list = [0] :=
  (acceptance_decision.1 2 1 0 [0] [(2, 0)]).2 (by decide) (by decide) (by decide)

theorem mapFind_created (m : List (Nat × Int)) (k j : Nat) :
    mapFind (mapInsertIfAbsent k ((k : Int) - 1) m) j
      = if j = k then some (threshold m k) else mapFind m j := by
  unfold mapInsertIfAbsent threshold
  by_cases hj : j = k
  · subst hj
    cases h : mapFind m j with
    | none => simp [mapFind_mapAssign_self]
    | some t => simp [h]
  · cases h : mapFind m k with
    | none => simp [mapFind_mapAssign_ne k j _ hj, hj]
    | some t => simp [hj]

theorem threshold_le (m : List (Nat × Int)) (k : Nat) (hm : AspBounded m) :
    threshold m k ≤ (k : Int) - 1 := by
  unfold threshold
  cases h : mapFind m k with
  | none => simp
  | some t => exact hm k t h

theorem forgive_length_le (L : List Nat) (v : Nat) : (forgive L v).length ≤ L.length := by
  unfold forgive
  split
  · exact List.length_filter_le _ _
  · exact le_rfl

theorem acceptance_tabu_length (C C' v : Nat) (L : List Nat) (A : List (Nat × Int)) :
    (acceptance C C' v L A).tabu_list.length ≤ L.length := by
  unfold acceptance
  split
  · simp only []
    split
    · exact forgive_length_le L v
    · split <;> exact le_rfl
  · exact le_rfl

/-- What the acceptance test does to an entry of the aspiration table. -/
theorem acceptance_table (C C' v : Nat) (L : List Nat) (A : List (Nat × Int)) (j : Nat) :
    mapFind (acceptance C C' v L A).aspiration_criteria j = mapFind A j ∨
      (j = C ∧ C' < C ∧
        (mapFind (acceptance C C' v L A).aspiration_criteria j = some (threshold A C) ∨
          (mapFind (acceptance C C' v L A).aspiration_criteria j = some ((C' : Int) - 1) ∧
            (C' : Int) ≤ threshold A C))) := by
  unfold acceptance
  by_cases h1 : C' < C
  · simp only [h1, if_true]
    by_cases hj : j = C
    · right
      refine ⟨hj, trivial, ?_⟩
      subst hj
      by_cases h2 : (C' : Int) ≤ mapAt (mapInsertIfAbsent j ((j : Int) - 1) A) j
      · right
        simp only [h2, if_true]
        exact ⟨mapFind_mapAssign_self _ _ _, by rw [← mapAt_created]; exact h2⟩
      · left
        simp only [h2, if_false]
        split <;> simp [mapFind_created]
    · left
      by_cases h2 : (C' : Int) ≤ mapAt (mapInsertIfAbsent C ((C : Int) - 1) A) C
      · simp only [h2, if_true]
        rw [mapFind_mapAssign_ne C j _ hj, mapFind_created, if_neg hj]
      · simp only [h2, if_false]
        split <;> simp [mapFind_created, hj]
  · left; simp [h1]

theorem acceptance_aspBounded (C C' v : Nat) (L : List Nat) (A : List (Nat × Int))
    (hA : AspBounded A) : AspBounded (acceptance C C' v L A).aspiration_criteria := by
  intro j t hj
  have hT := threshold_le A C hA
  rcases acceptance_table C C' v L A j with h | ⟨rfl, hlt, h | ⟨h, hle⟩⟩
  · rw [h] at hj; exact hA j t hj
  · rw [h] at hj; injection hj with hj; omega
  · rw [h] at hj; injection hj with hj; omega

theorem acceptance_aspLE (C C' v : Nat) (L : List Nat) (A : List (Nat × Int)) :
    AspLE A (acceptance C C' v L A).aspiration_criteria := by
  intro j t hj
  rcases acceptance_table C C' v L A j with h | ⟨rfl, hlt, h | ⟨h, hle⟩⟩
  · exact ⟨t, by rw [h, hj], le_rfl⟩
  · refine ⟨threshold A j, h, ?_⟩
    simp [threshold, hj]
  · refine ⟨(C' : Int) - 1, h, ?_⟩
    have : threshold A j = t := by simp [threshold, hj]
    omega

theorem aspLE_refl (A : List (Nat × Int)) : AspLE A A :=
  fun _ t h => ⟨t, h, le_rfl⟩

theorem aspLE_trans (A B D : List (Nat × Int)) (h1 : AspLE A B) (h2 : AspLE B D) :
    AspLE A D := by
  intro k t hk
  obtain ⟨t1, hb, hle1⟩ := h1 k t hk
  obtain ⟨t2, hd, hle2⟩ := h2 k t1 hb
  exact ⟨t2, hd, le_trans hle2 hle1⟩

/-! ## Trials and the trial loop -/

theorem trialFrame_refl (st : SearchState) : TrialFrame st st :=
  ⟨rfl, rfl, rfl, le_rfl, aspLE_refl _, fun h => h, le_rfl⟩

theorem trialFrame_trans (a b c : SearchState) (h1 : TrialFrame a b) (h2 : TrialFrame b c) :
    TrialFrame a c :=
  ⟨h2.colors.trans h1.colors, h2.iters.trans h1.iters, h2.checked.trans h1.checked,
    le_trans h2.tabu h1.tabu, aspLE_trans _ _ _ h1.aspLE h2.aspLE,
    fun h => h2.aspBounded (h1.aspBounded h), le_trans h1.draws h2.draws⟩

theorem trial_frame (rng : Nat → Nat) (n : Nat) (K : Int) (adjacency_list : List (List Nat))
    (candidates : List Nat) (C : Nat) (st st1 : SearchState) (stop : Bool)
    (h : trial rng n K adjacency_list candidates C st = .ok (stop, st1)) :
    TrialFrame st st1 ∧ st1.draws = st.draws + 2 := by
  obtain ⟨idx, sel, drawn, recolored, old, cc, C', -, -, -, -, -, -, -, -, hst⟩ :=
    trial_inv rng n K adjacency_list candidates C st st1 stop h
  subst hst
  exact ⟨⟨rfl, rfl, rfl, acceptance_tabu_length _ _ _ _ _, acceptance_aspLE _ _ _ _ _,
    acceptance_aspBounded _ _ _ _ _, by simp⟩, rfl⟩

theorem intMod_inv (a b r : Int) (h : intMod a b = .ok r) : b ≠ 0 ∧ r = Int.tmod a b := by
  unfold intMod at h
  split at h
  · cases h
  · injection h with h; exact ⟨by assumption, h.symm⟩

theorem sizeMod_inv (a b r : Nat) (h : sizeMod a b = .ok r) : b ≠ 0 ∧ r = a % b := by
  unfold sizeMod at h
  split at h
  · cases h
  · injection h with h; exact ⟨by assumption, h.symm⟩

theorem vecSet_inv {α : Type} (v : List α) (i : Nat) (x : α) (r : List α)
    (h : vecSet v i x = .ok r) : i < v.length ∧ r = v.set i x := by
  unfold vecSet at h
  split at h
  · injection h with h; exact ⟨by assumption, h.symm⟩
  · cases h

theorem vecAt_inv {α : Type} (v : List α) (i : Nat) (x : α) (h : vecAt v i = .ok x) :
    v[i]? = some x := by
  unfold vecAt at h
  split at h
  · injection h with h; subst h; assumption
  · cases h

theorem colorsOK_set (K : Int) (n : Nat) (colors : List Int) (i : Nat) (x : Int)
    (h : ColorsOK K n colors) (hx : 0 ≤ x ∧ x < K) : ColorsOK K n (colors.set i x) := by
  refine ⟨by simp [h.1], ?_⟩
  intro c hc
  rcases List.mem_or_eq_of_mem_set hc with hc | rfl
  · exact h.2 c hc
  · exact hx

/-- The trial colouring of a successful trial is a colouring with colours in range. -/
theorem trial_colors (rng : Nat → Nat) (n : Nat) (K : Int) (adjacency_list : List (List Nat))
    (candidates : List Nat) (C : Nat) (st st1 : SearchState) (stop : Bool)
    (hK : 2 ≤ K) (hcol : ColorsOK K n st.current_colors)
    (h : trial rng n K adjacency_list candidates C st = .ok (stop, st1)) :
    ColorsOK K n st1.candidate_colors ∧ st1.selected_candidate ∈ candidates := by
  obtain ⟨idx, sel, drawn, recolored, old, cc, C', -, h2, h3, h4, -, h6, -, -, hst⟩ :=
    trial_inv rng n K adjacency_list candidates C st st1 stop h
  subst hst
  obtain ⟨hne, hdrawn⟩ := intMod_inv _ _ _ h3
  obtain ⟨hsel, hrec⟩ := vecSet_inv _ _ _ _ h4
  have hd0 : 0 ≤ drawn := by
    rw [hdrawn]; exact Int.tmod_nonneg _ (Int.ofNat_nonneg _)
  have hd1 : drawn < K - 1 := by
    rw [hdrawn]; exact Int.tmod_lt_of_pos _ (by omega)
  have hrecOK : ColorsOK K n recolored := by
    rw [hrec]; exact colorsOK_set K n _ _ _ hcol ⟨hd0, by omega⟩
  refine ⟨?_, ?_⟩
  · simp only []
    unfold forceChange at h6
    split at h6
    · obtain ⟨-, hcc⟩ := vecSet_inv _ _ _ _ h6
      rw [hcc]; exact colorsOK_set K n _ _ _ hrecOK ⟨by omega, by omega⟩
    · injection h6 with h6; rw [← h6]; exact hrecOK
  · simp only []
    have := vecAt_inv _ _ _ h2
    exact List.getElem?_mem this

theorem forceChange_ok (K : Int) (recolored : List Int) (sel : Nat) (drawn old : Int)
    (hsel : sel < recolored.length) :
    ∃ cc, forceChange K recolored sel drawn old = .ok cc ∧ cc.length = recolored.length := by
  unfold forceChange
  split
  · exact ⟨recolored.set sel (K - 1), by simp [vecSet, hsel], by simp⟩
  · exact ⟨recolored, rfl, rfl⟩

/-- A trial does not fault on a well-formed graph, a colouring in range, a palette of at least
two colours and a non-empty candidate list of vertices. -/
theorem trial_ok (rng : Nat → Nat) (n : Nat) (K : Int) (adjacency_list : List (List Nat))
    (candidates : List Nat) (C : Nat) (st : SearchState)
    (hwf : WellFormed n adjacency_list) (hK : 2 ≤ K) (hcol : ColorsOK K n st.current_colors)
    (hne : candidates ≠ []) (hcand : ∀ v ∈ candidates, v < n) :
    ∃ stop st1, trial rng n K adjacency_list candidates C st = .ok (stop, st1) := by
  have hlen : candidates.length ≠ 0 := by
    intro h; exact hne (List.length_eq_zero.mp h)
  have hidx : rng st.draws % candidates.length < candidates.length :=
    Nat.mod_lt _ (Nat.pos_of_ne_zero hlen)
  have hsel : candidates[rng st.draws % candidates.length] < st.current_colors.length := by
    rw [hcol.1]; exact hcand _ (List.getElem_mem _)
  have hK1 : K - 1 ≠ 0 := by omega
  have h1 : sizeMod (rng st.draws) candidates.length
      = .ok (rng st.draws % candidates.length) := by simp [sizeMod, hlen]
  have h3 : intMod (rng (st.draws + 1) : Nat) (K - 1)
      = .ok (Int.tmod (rng (st.draws + 1) : Nat) (K - 1)) := by simp [intMod, hK1]
  have h4 : vecSet st.current_colors candidates[rng st.draws % candidates.length]
      (Int.tmod (rng (st.draws + 1) : Nat) (K - 1))
      = .ok (st.current_colors.set candidates[rng st.draws % candidates.length]
          (Int.tmod (rng (st.draws + 1) : Nat) (K - 1))) := by simp [vecSet, hsel]
  obtain ⟨cc, hcc, hcclen⟩ := forceChange_ok K
    (st.current_colors.set candidates[rng st.draws % candidates.length]
      (Int.tmod (rng (st.draws + 1) : Nat) (K - 1)))
    candidates[rng st.draws % candidates.length]
    (Int.tmod (rng (st.draws + 1) : Nat) (K - 1))
    st.current_colors[candidates[rng st.draws % candidates.length]] (by simpa using hsel)
  have h7 := countConflicts_ok n adjacency_list cc hwf
    (by rw [hcclen]; simp [hcol.1])
  unfold trial
  simp only [bind, Except.bind, pure, Except.pure, h1, vecAt_of_lt _ _ hidx, h3, h4,
    vecAt_of_lt _ _ hsel, hcc, h7]
  exact ⟨_, _, rfl⟩

/-- Partial correctness of the trial loop: what any run of trials preserves. -/
theorem trialLoop_frame (rng : Nat → Nat) (n : Nat) (K : Int) (adjacency_list : List (List Nat))
    (candidates : List Nat) (C : Nat) :
    ∀ (reps : Nat) (st st1 : SearchState),
      trialLoop rng n K adjacency_list candidates C reps st = .ok st1 →
      TrialFrame st st1 ∧ st1.draws ≤ st.draws + 2 * reps := by
  intro reps
  induction reps with
  | zero =>
    intro st st1 h
    simp only [trialLoop] at h
    injection h with h
    subst h
    exact ⟨trialFrame_refl _, by omega⟩
  | succ reps ih =>
    intro st st1 h
    simp only [trialLoop] at h
    obtain ⟨⟨stop, mid⟩, htrial, h⟩ := bind_ok_inv _ _ _ h
    obtain ⟨hframe, hdraws⟩ := trial_frame rng n K adjacency_list candidates C st mid stop htrial
    cases stop with
    | true =>
      simp only [if_true, pure, Except.pure] at h
      injection h with h
      subst h
      exact ⟨hframe, by omega⟩
    | false =>
      simp only [Bool.false_eq_true, if_false] at h
      obtain ⟨hf2, hd2⟩ := ih mid st1 h
      exact ⟨trialFrame_trans _ _ _ hframe hf2, by omega⟩

/-- After at least one trial the trial colouring is in range and the selected vertex is a
candidate. -/
theorem trialLoop_colors (rng : Nat → Nat) (n : Nat) (K : Int)
    (adjacency_list : List (List Nat)) (candidates : List Nat) (C : Nat) (hK : 2 ≤ K) :
    ∀ (reps : Nat) (st st1 : SearchState), ColorsOK K n st.current_colors →
      trialLoop rng n K adjacency_list candidates C (reps + 1) st = .ok st1 →
      ColorsOK K n st1.candidate_colors ∧ st1.selected_candidate ∈ candidates := by
  intro reps
  induction reps with
  | zero =>
    intro st st1 hcol h
    simp only [trialLoop] at h
    obtain ⟨⟨stop, mid⟩, htrial, h⟩ := bind_ok_inv _ _ _ h
    have hpost := trial_colors rng n K adjacency_list candidates C st mid stop hK hcol htrial
    cases stop with
    | true =>
      simp only [if_true, pure, Except.pure] at h
      injection h with h; subst h; exact hpost
    | false =>
      simp only [Bool.false_eq_true, if_false] at h
      injection h with h; subst h; exact hpost
  | succ reps ih =>
    intro st st1 hcol h
    rw [trialLoop] at h
    obtain ⟨⟨stop, mid⟩, htrial, h⟩ := bind_ok_inv _ _ _ h
    have hpost := trial_colors rng n K adjacency_list candidates C st mid stop hK hcol htrial
    obtain ⟨hframe, -⟩ := trial_frame rng n K adjacency_list candidates C st mid stop htrial
    cases stop with
    | true =>
      simp only [if_true, pure, Except.pure] at h
      injection h with h; subst h; exact hpost
    | false =>
      simp only [Bool.false_eq_true, if_false] at h
      exact ih mid st1 (by rw [hframe.colors]; exact hcol) h

/-- The trial loop does not fault. -/
theorem trialLoop_ok (rng : Nat → Nat) (n : Nat) (K : Int) (adjacency_list : List (List Nat))
    (candidates : List Nat) (C : Nat)
    (hwf : WellFormed n adjacency_list) (hK : 2 ≤ K)
    (hne : candidates ≠ []) (hcand : ∀ v ∈ candidates, v < n) :
    ∀ (reps : Nat) (st : SearchState), ColorsOK K n st.current_colors →
      ∃ st1, trialLoop rng n K adjacency_list candidates C reps st = .ok st1 := by
  intro reps
  induction reps with
  | zero => intro st _; exact ⟨st, rfl⟩
  | succ reps ih =>
    intro st hcol
    obtain ⟨stop, mid, htrial⟩ :=
      trial_ok rng n K adjacency_list candidates C st hwf hK hcol hne hcand
    obtain ⟨hframe, -⟩ := trial_frame rng n K adjacency_list candidates C st mid stop htrial
    simp only [trialLoop, htrial, bind, Except.bind, pure, Except.pure]
    cases stop with
    | true => exact ⟨mid, rfl⟩
    | false =>
      simp only [Bool.false_eq_true, if_false]
      exact ih mid (by rw [hframe.colors]; exact hcol)

/-! ## Outer iterations -/

theorem getD_row_lt (n : Nat) (adjacency_list : List (List Nat))
    (hwf : WellFormed n adjacency_list) (i x : Nat) (hx : x ∈ adjacency_list.getD i []) :
    x < n := by
  by_cases hi : i < adjacency_list.length
  · rw [List.getD_eq_getElem?_getD, List.getElem?_eq_getElem hi] at hx
    exact hwf.2 _ (List.getElem_mem _) x hx
  · rw [List.getD_eq_getElem?_getD, List.getElem?_eq_none (by omega)] at hx
    simp at hx

theorem candidates_lt (n : Nat) (adjacency_list : List (List Nat)) (colors : List Int)
    (hwf : WellFormed n adjacency_list) :
    ∀ v ∈ markFrom adjacency_list colors (List.range n) [], v < n := by
  intro v hv
  rw [mem_markFrom] at hv
  rcases hv with hv | ⟨i, -, hv, -⟩
  · simp at hv
  · exact getD_row_lt n adjacency_list hwf i v hv

theorem candidates_ne_nil (n : Nat) (adjacency_list : List (List Nat)) (colors : List Int)
    (hpos : orderedPairs n adjacency_list colors ≠ 0) :
    markFrom adjacency_list colors (List.range n) [] ≠ [] := by
  have hex : ∃ i ∈ List.range n, rowPairs adjacency_list colors i ≠ 0 := by
    by_contra hcon
    push_neg at hcon
    apply hpos
    unfold orderedPairs
    apply List.sum_eq_zero
    intro x hx
    rw [List.mem_map] at hx
    obtain ⟨i, hi, rfl⟩ := hx
    exact hcon i hi
  obtain ⟨i, hi, hrow⟩ := hex
  unfold rowPairs at hrow
  obtain ⟨w, hw, hs⟩ := List.countP_pos_iff.mp (Nat.pos_of_ne_zero hrow)
  have hmem : w ∈ markFrom adjacency_list colors (List.range n) [] := by
    rw [mem_markFrom]
    exact Or.inr ⟨i, hi, hw, hs⟩
  intro hnil
  rw [hnil] at hmem
  simp at hmem

/-- Inversion of an outer iteration that went through its trials. -/
theorem iteration_some_inv (rng : Nat → Nat) (n : Nat) (K : Int)
    (adjacency_list : List (List Nat)) (st st1 : SearchState)
    (h : iteration rng n K adjacency_list st = .ok (some st1)) :
    ∃ candidates C mid,
      evaluate n adjacency_list st.current_colors = .ok (candidates, C) ∧ C ≠ 0 ∧
      trialLoop rng n K adjacency_list candidates C neighbor_reps
        { st with solutions_checked := st.solutions_checked + 1 } = .ok mid ∧
      st1 = commit mid := by
  unfold iteration at h
  obtain ⟨⟨candidates, C⟩, hev, h⟩ := bind_ok_inv _ _ _ h
  simp only [] at h
  by_cases hC : C = 0
  · simp only [hC, if_true, pure, Except.pure] at h
    injection h with h
    cases h
  · simp only [hC, if_false] at h
    obtain ⟨mid, hloop, h⟩ := bind_ok_inv _ _ _ h
    simp only [pure, Except.pure] at h
    injection h with h
    injection h with h
    exact ⟨candidates, C, mid, hev, hC, hloop, h.symm⟩

theorem commit_tabu_length (st : SearchState) (h : st.tabu_list.length ≤ tabu_list_size) :
    (commit st).tabu_list.length ≤ tabu_list_size := by
  unfold commit
  simp only []
  split
  · simp only [List.length_tail, List.length_append, List.length_singleton]
    omega
  · rename_i hgt
    omega

/-- Induction over the outer loop: a property kept by every iteration that goes through its
trials holds when the loop is left. -/
theorem searchLoop_induct (rng : Nat → Nat) (n : Nat) (K : Int)
    (adjacency_list : List (List Nat)) (P : SearchState → Prop)
    (hstep : ∀ st st1, P st → iteration rng n K adjacency_list st = .ok (some st1) → P st1) :
    ∀ (budget : Nat) (st st1 : SearchState), P st →
      searchLoop rng n K adjacency_list budget st = .ok st1 → P st1 := by
  intro budget
  induction budget with
  | zero =>
    intro st st1 hP h
    simp only [searchLoop] at h
    injection h with h
    subst h; exact hP
  | succ budget ih =>
    intro st st1 hP h
    rw [searchLoop] at h
    obtain ⟨r, hit, h⟩ := bind_ok_inv _ _ _ h
    cases r with
    | none =>
      simp only [pure, Except.pure] at h
      injection h with h
      subst h; exact hP
    | some mid =>
      simp only [] at h
      exact ih mid st1 (hstep st mid hP hit) h

theorem initColors_ok (rng : Nat → Nat) (K : Int) (hK : K ≠ 0) :
    ∀ (k : Nat) (colors : List Int) (draws : Nat),
      initColors rng K k (colors, draws)
        = .ok (colors ++ (List.range k).map (fun j => Int.tmod (rng (draws + j) : Nat) K),
            draws + k) := by
  intro k
  induction k with
  | zero => intro colors draws; simp [initColors]
  | succ k ih =>
    intro colors draws
    simp only [initColors, intMod, hK, if_false, bind, Except.bind]
    rw [ih]
    have hshift : (fun j => Int.tmod (rng (draws + 1 + j) : Nat) K)
        = (fun j => Int.tmod (rng (draws + j) : Nat) K) ∘ Nat.succ := by
      funext j
      simp only [Function.comp, Nat.succ_eq_add_one]
      congr 3
      omega
    rw [List.range_succ_eq_map, List.map_cons, hshift, List.map_map, List.append_assoc]
    simp only [List.singleton_append, Nat.add_zero]
    congr 2
    omega

/-- The initial state: no fault when the clamped palette is not zero or there is no vertex. -/
theorem initialState_ok (rng : Nat → Nat) (n : Nat) (max_colors : Int)
    (h : n = 0 ∨ clampColors n max_colors ≠ 0) :
    initialState rng n max_colors = .ok
      { max_iterations := 5000
        solutions_checked := 0
        tabu_list := []
        aspiration_criteria := []
        current_colors := initialColoring rng (clampColors n max_colors) n
        candidate_colors := []
        selected_candidate := 0
        draws := n } := by
  unfold initialState
  rcases h with rfl | h
  · simp [initColors, initialColoring, bind, Except.bind, pure, Except.pure]
  · simp only [bind, Except.bind, pure, Except.pure, initColors_ok rng _ h]
    simp [initialColoring]

theorem clampColors_bounds (n : Nat) (max_colors : Int) (hn : 2 ≤ n) (hreq : 2 ≤ max_colors) :
    2 ≤ clampColors n max_colors ∧ clampColors n max_colors ≤ n := by
  unfold clampColors
  split <;> omega

theorem initialColoring_ok (rng : Nat → Nat) (K : Int) (n : Nat) (hK : 0 < K) :
    ColorsOK K n (initialColoring rng K n) := by
  refine ⟨by simp [initialColoring], ?_⟩
  intro c hc
  unfold initialColoring at hc
  rw [List.mem_map] at hc
  obtain ⟨j, -, rfl⟩ := hc
  exact ⟨Int.tmod_nonneg _ (Int.ofNat_nonneg _), Int.tmod_lt_of_pos _ hK⟩

theorem aspBounded_nil : AspBounded [] := by
  intro k t h
  simp [mapFind] at h

/-- One outer iteration keeps the invariant and tightens the table. -/
theorem iteration_inv (rng : Nat → Nat) (n : Nat) (K : Int) (adjacency_list : List (List Nat))
    (hK : 2 ≤ K) (st st1 : SearchState) (hinv : Inv K n st)
    (h : iteration rng n K adjacency_list st = .ok (some st1)) :
    Inv K n st1 ∧ AspLE st.aspiration_criteria st1.aspiration_criteria ∧
      st1.max_iterations = st.max_iterations - 1 ∧
      st1.solutions_checked = st.solutions_checked + 1 ∧
      st.draws + 2 ≤ st1.draws ∧ st1.draws ≤ st.draws + 2 * neighbor_reps := by
  obtain ⟨candidates, C, mid, -, -, hloop, rfl⟩ :=
    iteration_some_inv rng n K adjacency_list st st1 h
  obtain ⟨hframe, hdraws⟩ := trialLoop_frame rng n K adjacency_list candidates C _ _ _ hloop
  obtain ⟨hcc, -⟩ := trialLoop_colors rng n K adjacency_list candidates C hK 699
    { st with solutions_checked := st.solutions_checked + 1 } mid hinv.colors hloop
  have hlo : st.draws + 2 ≤ mid.draws := by
    have h2 := hloop
    rw [show neighbor_reps = 699 + 1 from rfl, trialLoop] at h2
    obtain ⟨⟨stop, s1⟩, htrial, h2⟩ := bind_ok_inv _ _ _ h2
    obtain ⟨-, hd1⟩ := trial_frame rng n K adjacency_list candidates C _ s1 stop htrial
    cases stop with
    | true =>
      simp only [if_true, pure, Except.pure] at h2
      injection h2 with h2
      subst h2
      simp only [] at hd1
      omega
    | false =>
      simp only [Bool.false_eq_true, if_false] at h2
      obtain ⟨hf2, -⟩ := trialLoop_frame rng n K adjacency_list candidates C _ _ _ h2
      have := hf2.draws
      simp only [] at hd1
      omega
  refine ⟨⟨hcc, ?_, ?_⟩, ?_, ?_, ?_, ?_, ?_⟩
  · exact commit_tabu_length mid (le_trans hframe.tabu hinv.tabu)
  · exact hframe.aspBounded hinv.asp
  · exact hframe.aspLE
  · simp only [commit]; rw [hframe.iters]
  · simp only [commit]; rw [hframe.checked]
  · exact hlo
  · exact hdraws

/-- An outer iteration does not fault on a well-formed graph, a colouring in range and a
palette of at least two colours. -/
theorem iteration_ok (rng : Nat → Nat) (n : Nat) (K : Int) (adjacency_list : List (List Nat))
    (hwf : WellFormed n adjacency_list) (hK : 2 ≤ K) (st : SearchState)
    (hcol : ColorsOK K n st.current_colors) :
    (orderedPairs n adjacency_list st.current_colors / 2 = 0 ∧
      iteration rng n K adjacency_list st = .ok none) ∨
    (orderedPairs n adjacency_list st.current_colors / 2 ≠ 0 ∧
      ∃ st1, iteration rng n K adjacency_list st = .ok (some st1)) := by
  have hev := evaluate_ok n adjacency_list st.current_colors hwf hcol.1
  by_cases hC : orderedPairs n adjacency_list st.current_colors / 2 = 0
  · left
    refine ⟨hC, ?_⟩
    simp [iteration, hev, hC, bind, Except.bind, pure, Except.pure]
  · right
    refine ⟨hC, ?_⟩
    have hpos : orderedPairs n adjacency_list st.current_colors ≠ 0 := by
      intro h0; rw [h0] at hC; exact hC rfl
    obtain ⟨mid, hloop⟩ := trialLoop_ok rng n K adjacency_list
      (markFrom adjacency_list st.current_colors (List.range n) [])
      (orderedPairs n adjacency_list st.current_colors / 2) hwf hK
      (candidates_ne_nil n adjacency_list st.current_colors hpos)
      (candidates_lt n adjacency_list st.current_colors hwf) neighbor_reps
      { st with solutions_checked := st.solutions_checked + 1 } hcol
    exact ⟨commit mid, by
      simp [iteration, hev, hC, hloop, bind, Except.bind, pure, Except.pure]⟩

/-- The outer loop terminates without a fault, whatever the budget. -/
theorem searchLoop_ok (rng : Nat → Nat) (n : Nat) (K : Int) (adjacency_list : List (List Nat))
    (hwf : WellFormed n adjacency_list) (hK : 2 ≤ K) :
    ∀ (budget : Nat) (st : SearchState), Inv K n st →
      ∃ st1, searchLoop rng n K adjacency_list budget st = .ok st1 := by
  intro budget
  induction budget with
  | zero => intro st _; exact ⟨st, rfl⟩
  | succ budget ih =>
    intro st hinv
    rcases iteration_ok rng n K adjacency_list hwf hK st hinv.colors with
      ⟨-, hit⟩ | ⟨-, st1, hit⟩
    · exact ⟨st, by simp [searchLoop, hit, bind, Except.bind, pure, Except.pure]⟩
    · obtain ⟨hinv1, -⟩ := iteration_inv rng n K adjacency_list hK st st1 hinv hit
      obtain ⟨st2, h2⟩ := ih st1 hinv1
      exact ⟨st2, by simp [searchLoop, hit, h2, bind, Except.bind]⟩

/-- The invariant holds whenever the loop is left. -/
theorem searchLoop_inv (rng : Nat → Nat) (n : Nat) (K : Int) (adjacency_list : List (List Nat))
    (hK : 2 ≤ K) (budget : Nat) (st st1 : SearchState) (hinv : Inv K n st)
    (h : searchLoop rng n K adjacency_list budget st = .ok st1) : Inv K n st1 :=
  searchLoop_induct rng n K adjacency_list (Inv K n)
    (fun a b ha hab => (iteration_inv rng n K adjacency_list hK a b ha hab).1) budget st st1 hinv h

/-- Running `a + b` iterations is running `a` iterations and then `b` more: the state after
`a` iterations of a longer run is the result of the run with budget `a`. -/
theorem searchLoop_add (rng : Nat → Nat) (n : Nat) (K : Int) (adjacency_list : List (List Nat))
    (b : Nat) :
    ∀ (a : Nat) (st : SearchState),
      searchLoop rng n K adjacency_list (a + b) st
        = (searchLoop rng n K adjacency_list a st >>= searchLoop rng n K adjacency_list b) := by
  intro a
  induction a with
  | zero =>
    intro st
    simp [searchLoop, bind, Except.bind]
  | succ a ih =>
    intro st
    rw [show a + 1 + b = (a + b) + 1 by omega]
    rw [searchLoop, searchLoop]
    cases hit : iteration rng n K adjacency_list st with
    | error e => simp [bind, Except.bind]
    | ok r =>
      cases r with
      | none =>
        simp only [bind, Except.bind, pure, Except.pure]
        cases b with
        | zero => simp [searchLoop]
        | succ b => simp [searchLoop, hit, bind, Except.bind, pure, Except.pure]
      | some mid =>
        simp only [bind, Except.bind]
        have := ih mid
        simp only [bind, Except.bind] at this
        exact this

theorem initial_inv (rng : Nat → Nat) (n : Nat) (max_colors : Int) (hn : 2 ≤ n)
    (hreq : 2 ≤ max_colors) :
    ∃ st, initialState rng n max_colors = .ok st ∧ Inv (clampColors n max_colors) n st ∧
      st.current_colors = initialColoring rng (clampColors n max_colors) n ∧
      st.max_iterations = 5000 ∧ st.solutions_checked = 0 ∧ st.draws = n := by
  have hb := clampColors_bounds n max_colors hn hreq
  refine ⟨_, initialState_ok rng n max_colors (Or.inr (by omega)), ⟨?_, ?_, ?_⟩, rfl, rfl, rfl, rfl⟩
  · exact initialColoring_ok rng _ n (by omega)
  · simp [tabu_list_size]
  · exact aspBounded_nil

/-! ## Claims on the sequential search -/

/-- C4: for a graph with at least two vertices and a requested palette of at least two colours,
with `maxColors = min(requested, n)`, every colouring the sequential search produces has its
`n` entries in `[0, maxColors)`: the state after any number of outer iterations exists (no
fault) and its current colouring is in range (the initial colouring for budget 0, the returned
colouring for the full budget), and from such a state every trial colouring is in range. -/
theorem color_range_invariant (rng : Nat → Nat) (n : Nat) (max_colors : Int)
    (adjacency_list : List (List Nat)) (hn : 2 ≤ n) (hreq : 2 ≤ max_colors)
    (hwf : WellFormed n adjacency_list) (budget : Nat) :
    clampColors n max_colors = min max_colors n ∧
    (∃ st, tabu_search rng n max_colors adjacency_list = .ok st ∧
      ColorsOK (clampColors n max_colors) n st.current_colors) ∧
    ∃ st, searchRun rng n max_colors adjacency_list budget = .ok st ∧
      ColorsOK (clampColors n max_colors) n st.current_colors ∧
      (budget = 0 → st.current_colors = initialColoring rng (clampColors n max_colors) n) ∧
      ∀ candidates C reps,
        evaluate n adjacency_list st.current_colors = .ok (candidates, C) → C ≠ 0 →
        ∃ st1, trialLoop rng n (clampColors n max_colors) adjacency_list candidates C (reps + 1)
            { st with solutions_checked := st.solutions_checked + 1 } = .ok st1 ∧
          ColorsOK (clampColors n max_colors) n st1.candidate_colors := by
  have hb := clampColors_bounds n max_colors hn hreq
  obtain ⟨st0, hinit, hinv0, hcol0, -⟩ := initial_inv rng n max_colors hn hreq
  have hrun : ∀ b, ∃ st, searchRun rng n max_colors adjacency_list b = .ok st ∧
      Inv (clampColors n max_colors) n st ∧ (b = 0 → st = st0) := by
    intro b
    obtain ⟨st, hst⟩ := searchLoop_ok rng n _ adjacency_list hwf hb.1 b st0 hinv0
    refine ⟨st, by simp [searchRun, hinit, hst, bind, Except.bind], ?_, ?_⟩
    · exact searchLoop_inv rng n _ adjacency_list hb.1 b st0 st hinv0 hst
    · intro h0
      subst h0
      simp only [searchLoop] at hst
      injection hst with hst
      exact hst.symm
  refine ⟨?_, ?_, ?_⟩
  · unfold clampColors
    split
    · rw [min_eq_right (by omega)]
    · rw [min_eq_left (by omega)]
  · obtain ⟨st, hst, hinv, -⟩ := hrun 5000
    exact ⟨st, hst, hinv.colors⟩
  · obtain ⟨st, hst, hinv, h0⟩ := hrun budget
    refine ⟨st, hst, hinv.colors, ?_, ?_⟩
    · intro hb0; rw [h0 hb0]; exact hcol0
    · intro candidates C reps hev hC
      have hev2 := evaluate_ok n adjacency_list st.current_colors hwf hinv.colors.1
      rw [hev2] at hev
      injection hev with hev
      injection hev with hc1 hc2
      have hpos : orderedPairs n adjacency_list st.current_colors ≠ 0 := by
        intro hz; rw [hz] at hc2; exact hC hc2.symm
      subst hc1
      obtain ⟨st1, hloop⟩ := trialLoop_ok rng n _ adjacency_list _ C hwf hb.1
        (candidates_ne_nil n adjacency_list st.current_colors hpos)
        (candidates_lt n adjacency_list st.current_colors hwf) (reps + 1)
        { st with solutions_checked := st.solutions_checked + 1 } hinv.colors
      refine ⟨st1, hloop, ?_⟩
      exact (trialLoop_colors rng n _ adjacency_list _ C hb.1 reps
        { st with solutions_checked := st.solutions_checked + 1 } st1 hinv.colors hloop).1

theorem color_range_invariant_witness :
    ∃ st, tabu_search (fun _ => 0) 3 2 [[1], [0, 2], [1]] = .ok st ∧
      ColorsOK (clampColors 3 2) 3 st.current_colors :=
  (color_range_invariant (fun _ => 0) 3 2 [[1], [0, 2], [1]]
    (by decide) (by decide) (by decide) 0).2.1

/-- C5: when the evaluation at the start of an outer iteration yields conflict count 0 the
iteration takes the `break`, and the loop returns the very state it was entered with: no trial
is run (no draw is consumed, no counter moves) and the colouring, the tabu list and the
aspiration table are unchanged.  For every graph without edges the search returns the initial
random colouring, with empty tabu list and aspiration table, after exactly `n` draws. -/
theorem zero_conflicts_stop :
    (∀ (rng : Nat → Nat) (n : Nat) (K : Int) (adjacency_list : List (List Nat)) (budget : Nat)
      (st : SearchState) (candidates : List Nat),
      evaluate n adjacency_list st.current_colors = .ok (candidates, 0) →
      iteration rng n K adjacency_list st = .ok none ∧
        searchLoop rng n K adjacency_list budget st = .ok st) ∧
    (∀ (rng : Nat → Nat) (n : Nat) (max_colors : Int),
      (n = 0 ∨ clampColors n max_colors ≠ 0) →
      tabu_search rng n max_colors (List.replicate n []) = .ok
        { max_iterations := 5000
          solutions_checked := 0
          tabu_list := []
          aspiration_criteria := []
          current_colors := initialColoring rng (clampColors n max_colors) n
          candidate_colors := []
          selected_candidate := 0
          draws := n }) := by
  have hstop : ∀ (rng : Nat → Nat) (n : Nat) (K : Int) (adjacency_list : List (List Nat))
      (budget : Nat) (st : SearchState) (candidates : List Nat),
      evaluate n adjacency_list st.current_colors = .ok (candidates, 0) →
      iteration rng n K adjacency_list st = .ok none ∧
        searchLoop rng n K adjacency_list budget st = .ok st := by
    intro rng n K adjacency_list budget st candidates hev
    have hit : iteration rng n K adjacency_list st = .ok none := by
      simp [iteration, hev, bind, Except.bind, pure, Except.pure]
    refine ⟨hit, ?_⟩
    cases budget with
    | zero => rfl
    | succ b => simp [searchLoop, hit, bind, Except.bind, pure, Except.pure]
  refine ⟨hstop, ?_⟩
  intro rng n max_colors h
  have hinit := initialState_ok rng n max_colors h
  have hev := evaluate_ok n (List.replicate n []) (initialColoring rng (clampColors n max_colors) n)
    (wellFormed_replicate n) (by simp [initialColoring])
  rw [orderedPairs_replicate] at hev
  unfold tabu_search searchRun
  simp only [hinit, bind, Except.bind]
  exact (hstop rng n _ _ 5000 _ _ hev).2

theorem zero_conflicts_stop_witness :
    tabu_search (fun i => 3 * i + 1) 5 100 [[], [], [], [], []] = .ok
      { max_iterations := 5000
        solutions_checked := 0
        tabu_list := []
        aspiration_criteria := []
        current_colors := [1, 4, 2, 0, 3]
        candidate_colors := []
        selected_candidate := 0
        draws := 5 } :=
  zero_conflicts_stop.2 (fun i => 3 * i + 1) 5 100 (by decide)

/-! ## The tabu list -/

theorem initialState_inv (rng : Nat → Nat) (n : Nat) (max_colors : Int) (st : SearchState)
    (h : initialState rng n max_colors = .ok st) :
    st.tabu_list = [] ∧ st.aspiration_criteria = [] ∧ st.max_iterations = 5000 ∧
      st.solutions_checked = 0 := by
  unfold initialState at h
  obtain ⟨⟨colors, draws⟩, -, h⟩ := bind_ok_inv _ _ _ h
  simp only [pure, Except.pure] at h
  injection h with h
  subst h
  exact ⟨rfl, rfl, rfl, rfl⟩

theorem commit_tabu_grow (st : SearchState) :
    (commit st).tabu_list.length ≤ st.tabu_list.length + 1 := by
  unfold commit
  simp only []
  split
  · simp only [List.length_tail, List.length_append, List.length_singleton]
    omega
  · simp

/-- The tabu list over one outer iteration of the sequential routine. -/
theorem iteration_tabu (rng : Nat → Nat) (n : Nat) (K : Int) (adjacency_list : List (List Nat))
    (st st1 : SearchState) (h : iteration rng n K adjacency_list st = .ok (some st1)) :
    st1.tabu_list.length ≤ st.tabu_list.length + 1 ∧
      (st.tabu_list.length ≤ tabu_list_size → st1.tabu_list.length ≤ tabu_list_size) := by
  obtain ⟨candidates, C, mid, -, -, hloop, rfl⟩ :=
    iteration_some_inv rng n K adjacency_list st st1 h
  obtain ⟨hframe, -⟩ := trialLoop_frame rng n K adjacency_list candidates C _ _ _ hloop
  have hmid : mid.tabu_list.length ≤ st.tabu_list.length := hframe.tabu
  refine ⟨le_trans (commit_tabu_grow mid) (by omega), ?_⟩
  intro hst
  exact commit_tabu_length mid (le_trans hmid hst)

theorem writeBest_tabu (C sel : Nat) (cc : List Int) (new : Nat) (bs : BatchState) :
    (writeBest C sel cc new bs).tabu_list = bs.tabu_list := by
  unfold writeBest
  split <;> rfl

/-- No step of a trial of the parallel batch makes the tabu list longer. -/
theorem ompStep_tabu (rng : Nat → Nat) (n : Nat) (K : Int) (adjacency_list : List (List Nat))
    (current_colors : List Int) (candidates : List Nat) (C i : Nat) (bs bs1 : BatchState)
    (h : ompStep rng n K adjacency_list current_colors candidates C i bs = .ok bs1) :
    bs1.tabu_list.length ≤ bs.tabu_list.length := by
  unfold ompStep at h
  split at h
  · injection h with h; subst h; exact le_rfl
  · injection h with h; subst h; exact le_rfl
  · obtain ⟨idx, -, h⟩ := bind_ok_inv _ _ _ h
    obtain ⟨sel, -, h⟩ := bind_ok_inv _ _ _ h
    simp only [pure, Except.pure] at h
    injection h with h; subst h; exact le_rfl
  · obtain ⟨drawn, -, h⟩ := bind_ok_inv _ _ _ h
    obtain ⟨recolored, -, h⟩ := bind_ok_inv _ _ _ h
    obtain ⟨old, -, h⟩ := bind_ok_inv _ _ _ h
    obtain ⟨cc, -, h⟩ := bind_ok_inv _ _ _ h
    obtain ⟨new, -, h⟩ := bind_ok_inv _ _ _ h
    simp only [pure, Except.pure] at h
    injection h with h; subst h; exact le_rfl
  · split at h
    · split at h <;> (injection h with h; subst h; exact le_rfl)
    · injection h with h; subst h; exact le_rfl
  · injection h with h; subst h; exact le_rfl
  · split at h <;> (injection h with h; subst h; exact le_rfl)
  · injection h with h; subst h
    simp only [BatchState.advance, writeBest_tabu]
    exact forgive_length_le _ _
  · split at h <;> (injection h with h; subst h; exact le_rfl)
  · injection h with h; subst h
    simp only [BatchState.advance, writeBest_tabu]
    exact le_rfl
  · injection h with h; subst h; exact le_rfl

theorem ompRun_tabu (rng : Nat → Nat) (n : Nat) (K : Int) (adjacency_list : List (List Nat))
    (current_colors : List Int) (candidates : List Nat) (C : Nat) :
    ∀ (schedule : List Nat) (bs bs1 : BatchState),
      ompRun rng n K adjacency_list current_colors candidates C schedule bs = .ok bs1 →
      bs1.tabu_list.length ≤ bs.tabu_list.length := by
  intro schedule
  induction schedule with
  | nil =>
    intro bs bs1 h
    simp only [ompRun] at h
    injection h with h; subst h; exact le_rfl
  | cons i rest ih =>
    intro bs bs1 h
    simp only [ompRun] at h
    obtain ⟨mid, hstep, h⟩ := bind_ok_inv _ _ _ h
    exact le_trans (ih mid bs1 h)
      (ompStep_tabu rng n K adjacency_list current_colors candidates C i bs mid hstep)

/-- Inversion of an outer iteration of the parallel routine that ran its batch. -/
theorem ompIteration_some_inv (rng : Nat → Nat) (n : Nat) (K : Int)
    (adjacency_list : List (List Nat)) (schedule : List Nat) (st st1 : SearchState)
    (h : ompIteration rng n K adjacency_list schedule st = .ok (some st1)) :
    ∃ candidates C bs,
      evaluate n adjacency_list st.current_colors = .ok (candidates, C) ∧ C ≠ 0 ∧
      ompBatch rng n K adjacency_list candidates C schedule
        { st with solutions_checked := st.solutions_checked + 1 } = .ok bs ∧
      st1 = ompCommit { st with solutions_checked := st.solutions_checked + 1 } bs := by
  unfold ompIteration at h
  obtain ⟨⟨candidates, C⟩, hev, h⟩ := bind_ok_inv _ _ _ h
  simp only [] at h
  by_cases hC : C = 0
  · simp only [hC, if_true, pure, Except.pure] at h
    injection h with h
    cases h
  · simp only [hC, if_false] at h
    obtain ⟨bs, hbatch, h⟩ := bind_ok_inv _ _ _ h
    simp only [pure, Except.pure] at h
    injection h with h
    injection h with h
    exact ⟨candidates, C, bs, hev, hC, hbatch, h.symm⟩

theorem ompCommit_tabu (st : SearchState) (bs : BatchState) :
    (ompCommit st bs).tabu_list.length ≤ bs.tabu_list.length + 1 ∧
      (bs.tabu_list.length ≤ tabu_list_size →
        (ompCommit st bs).tabu_list.length ≤ tabu_list_size) := by
  unfold ompCommit
  simp only []
  split
  · split
    · simp only [List.length_tail, List.length_append, List.length_singleton]
      omega
    · rename_i hgt
      simp only [List.length_append, List.length_singleton] at hgt ⊢
      omega
  · omega

/-- The tabu list over one outer iteration of the parallel routine, under any schedule. -/
theorem ompIteration_tabu (rng : Nat → Nat) (n : Nat) (K : Int)
    (adjacency_list : List (List Nat)) (schedule : List Nat) (st st1 : SearchState)
    (h : ompIteration rng n K adjacency_list schedule st = .ok (some st1)) :
    st1.tabu_list.length ≤ st.tabu_list.length + 1 ∧
      (st.tabu_list.length ≤ tabu_list_size → st1.tabu_list.length ≤ tabu_list_size) := by
  obtain ⟨candidates, C, bs, -, -, hbatch, rfl⟩ :=
    ompIteration_some_inv rng n K adjacency_list schedule st st1 h
  have hbs : bs.tabu_list.length ≤ st.tabu_list.length :=
    ompRun_tabu rng n K adjacency_list _ candidates C _ _ bs hbatch
  obtain ⟨h1, h2⟩ := ompCommit_tabu { st with solutions_checked := st.solutions_checked + 1 } bs
  exact ⟨by omega, fun hst => h2 (le_trans hbs hst)⟩

/-- Induction over the outer loop of the parallel routine. -/
theorem ompSearchLoop_induct (rng : Nat → Nat) (n : Nat) (K : Int)
    (adjacency_list : List (List Nat)) (schedules : Nat → List Nat) (P : SearchState → Prop)
    (hstep : ∀ schedule st st1, P st →
      ompIteration rng n K adjacency_list schedule st = .ok (some st1) → P st1) :
    ∀ (budget : Nat) (st st1 : SearchState), P st →
      ompSearchLoop rng n K adjacency_list schedules budget st = .ok st1 → P st1 := by
  intro budget
  induction budget with
  | zero =>
    intro st st1 hP h
    simp only [ompSearchLoop] at h
    injection h with h
    subst h; exact hP
  | succ budget ih =>
    intro st st1 hP h
    rw [ompSearchLoop] at h
    obtain ⟨r, hit, h⟩ := bind_ok_inv _ _ _ h
    cases r with
    | none =>
      simp only [pure, Except.pure] at h
      injection h with h
      subst h; exact hP
    | some mid =>
      simp only [] at h
      exact ih mid st1 (hstep _ st mid hP hit) h

theorem ompInitialState_inv (rng : Nat → Nat) (n : Nat) (max_colors : Int) (st : SearchState)
    (h : ompInitialState rng n max_colors = .ok st) :
    st.tabu_list = [] ∧ st.aspiration_criteria = [] ∧ st.max_iterations = 5000 ∧
      st.solutions_checked = 0 := by
  unfold ompInitialState at h
  obtain ⟨⟨colors, draws⟩, -, h⟩ := bind_ok_inv _ _ _ h
  simp only [pure, Except.pure] at h
  injection h with h
  subst h
  exact ⟨rfl, rfl, rfl, rfl⟩

/-- C6: in the sequential and in the parallel strategy, for every input, every sequence of
draws and (parallel) every schedule of the trial steps, the tabu list is empty at search start,
grows by at most one entry per outer iteration and holds at most 4 entries at the start and at
the end of every outer iteration, that is in the state reached after any number of outer
iterations. -/
theorem tabu_capacity :
    (∀ (rng : Nat → Nat) (n : Nat) (max_colors : Int) (adjacency_list : List (List Nat))
      (budget : Nat) (st : SearchState),
      searchRun rng n max_colors adjacency_list budget = .ok st →
      st.tabu_list.length ≤ 4 ∧ (budget = 0 → st.tabu_list = []) ∧
      ∀ st1, iteration rng n (clampColors n max_colors) adjacency_list st = .ok (some st1) →
        st1.tabu_list.length ≤ st.tabu_list.length + 1 ∧ st1.tabu_list.length ≤ 4) ∧
    (∀ (rng : Nat → Nat) (n : Nat) (max_colors : Int) (adjacency_list : List (List Nat))
      (schedules : Nat → List Nat) (budget : Nat) (st : SearchState),
      ompSearchRun rng n max_colors adjacency_list schedules budget = .ok st →
      st.tabu_list.length ≤ 4 ∧ (budget = 0 → st.tabu_list = []) ∧
      ∀ schedule st1,
        ompIteration rng n (clampColors n max_colors) adjacency_list schedule st
          = .ok (some st1) →
        st1.tabu_list.length ≤ st.tabu_list.length + 1 ∧ st1.tabu_list.length ≤ 4) := by
  refine ⟨?_, ?_⟩
  · intro rng n max_colors adjacency_list budget st h
    unfold searchRun at h
    obtain ⟨st0, hinit, hloop⟩ := bind_ok_inv _ _ _ h
    obtain ⟨ht0, -⟩ := initialState_inv rng n max_colors st0 hinit
    have hst : st.tabu_list.length ≤ tabu_list_size :=
      searchLoop_induct rng n _ adjacency_list (fun s => s.tabu_list.length ≤ tabu_list_size)
        (fun a b ha hab => (iteration_tabu rng n _ adjacency_list a b hab).2 ha)
        budget st0 st (by simp [ht0]) hloop
    refine ⟨hst, ?_, ?_⟩
    · intro hb
      subst hb
      simp only [searchLoop] at hloop
      injection hloop with hloop
      rw [← hloop]; exact ht0
    · intro st1 hit
      obtain ⟨h1, h2⟩ := iteration_tabu rng n _ adjacency_list st st1 hit
      exact ⟨h1, h2 hst⟩
  · intro rng n max_colors adjacency_list schedules budget st h
    unfold ompSearchRun at h
    obtain ⟨st0, hinit, hloop⟩ := bind_ok_inv _ _ _ h
    obtain ⟨ht0, -⟩ := ompInitialState_inv rng n max_colors st0 hinit
    have hst : st.tabu_list.length ≤ tabu_list_size :=
      ompSearchLoop_induct rng n _ adjacency_list schedules
        (fun s => s.tabu_list.length ≤ tabu_list_size)
        (fun sch a b ha hab => (ompIteration_tabu rng n _ adjacency_list sch a b hab).2 ha)
        budget st0 st (by simp [ht0]) hloop
    refine ⟨hst, ?_, ?_⟩
    · intro hb
      subst hb
      simp only [ompSearchLoop] at hloop
      injection hloop with hloop
      rw [← hloop]; exact ht0
    · intro schedule st1 hit
      obtain ⟨h1, h2⟩ := ompIteration_tabu rng n _ adjacency_list schedule st st1 hit
      exact ⟨h1, h2 hst⟩

/-! ## The aspiration table over a run -/

theorem iteration_asp (rng : Nat → Nat) (n : Nat) (K : Int) (adjacency_list : List (List Nat))
    (st st1 : SearchState) (h : iteration rng n K adjacency_list st = .ok (some st1)) :
    AspLE st.aspiration_criteria st1.aspiration_criteria ∧
      (AspBounded st.aspiration_criteria → AspBounded st1.aspiration_criteria) := by
  obtain ⟨candidates, C, mid, -, -, hloop, rfl⟩ :=
    iteration_some_inv rng n K adjacency_list st st1 h
  obtain ⟨hframe, -⟩ := trialLoop_frame rng n K adjacency_list candidates C _ _ _ hloop
  exact ⟨hframe.aspLE, hframe.aspBounded⟩

/-- C7: an entry `T(C)` of the aspiration table is created with the value `C - 1` (and only
when absent); the only other write, in the aspiration branch of the acceptance test, stores
`C' - 1`, strictly below the value it replaces; so over every run of the sequential search an
entry, once set, stays set and never increases, and every entry satisfies `T(C) <= C - 1`. -/
theorem aspiration_monotone :
    (∀ (C : Nat) (A : List (Nat × Int)),
      (mapFind A C = none → mapFind (mapInsertIfAbsent C ((C : Int) - 1) A) C
        = some ((C : Int) - 1)) ∧
      (mapFind A C ≠ none → mapInsertIfAbsent C ((C : Int) - 1) A = A)) ∧
    (∀ (C C' v : Nat) (L : List Nat) (A : List (Nat × Int)),
      (acceptance C C' v L A).aspiration_criteria = A ∨
      (acceptance C C' v L A).aspiration_criteria = mapInsertIfAbsent C ((C : Int) - 1) A ∨
      ((acceptance C C' v L A).aspiration_criteria
          = mapAssign C ((C' : Int) - 1) (mapInsertIfAbsent C ((C : Int) - 1) A) ∧
        ∃ t, mapFind (mapInsertIfAbsent C ((C : Int) - 1) A) C = some t ∧
          (C' : Int) - 1 < t ∧
          mapFind (acceptance C C' v L A).aspiration_criteria C = some ((C' : Int) - 1))) ∧
    (∀ (rng : Nat → Nat) (n : Nat) (max_colors : Int) (adjacency_list : List (List Nat))
      (a d : Nat) (sa sb : SearchState),
      searchRun rng n max_colors adjacency_list a = .ok sa →
      searchRun rng n max_colors adjacency_list (a + d) = .ok sb →
      AspBounded sa.aspiration_criteria ∧
        AspLE sa.aspiration_criteria sb.aspiration_criteria) := by
  refine ⟨?_, ?_, ?_⟩
  · intro C A
    refine ⟨?_, ?_⟩
    · intro h
      simp [mapInsertIfAbsent, h, mapFind_mapAssign_self]
    · intro h
      simp [mapInsertIfAbsent, h]
  · intro C C' v L A
    unfold acceptance
    by_cases h1 : C' < C
    · simp only [h1, if_true]
      by_cases h2 : (C' : Int) ≤ mapAt (mapInsertIfAbsent C ((C : Int) - 1) A) C
      · right; right
        simp only [h2, if_true, true_and]
        refine ⟨threshold A C, ?_, ?_, mapFind_mapAssign_self _ _ _⟩
        · rw [mapFind_created, if_pos rfl]
        · rw [mapAt_created] at h2; omega
      · right; left
        simp only [h2, if_false]
        split <;> rfl
    · left; simp [h1]
  · intro rng n max_colors adjacency_list a d sa sb ha hb
    unfold searchRun at ha hb
    obtain ⟨st0, hinit, hla⟩ := bind_ok_inv _ _ _ ha
    rw [hinit] at hb
    simp only [bind, Except.bind] at hb
    have hadd := searchLoop_add rng n (clampColors n max_colors) adjacency_list d a st0
    rw [hla] at hadd
    simp only [bind, Except.bind] at hadd
    rw [hadd] at hb
    obtain ⟨-, ha0, -⟩ := initialState_inv rng n max_colors st0 hinit
    refine ⟨?_, ?_⟩
    · exact searchLoop_induct rng n _ adjacency_list (fun s => AspBounded s.aspiration_criteria)
        (fun x y hx hxy => (iteration_asp rng n _ adjacency_list x y hxy).2 hx)
        a st0 sa (by show AspBounded st0.aspiration_criteria; rw [ha0]; exact aspBounded_nil) hla
    · exact searchLoop_induct rng n _ adjacency_list
        (fun s => AspLE sa.aspiration_criteria s.aspiration_criteria)
        (fun x y hx hxy => aspLE_trans _ _ _ hx (iteration_asp rng n _ adjacency_list x y hxy).1)
        d sa sb (aspLE_refl _) hb

theorem aspiration_monotone_witness :
    searchRun (fun _ => 1) 3 2 [[1], [0, 2], [1]] 0 = .ok
        { max_iterations := 5000, solutions_checked := 0, tabu_list := [],
          aspiration_criteria := [], current_colors := [1, 1, 1],
          candidate_colors := [], selected_candidate := 0, draws := 3 } ∧
      searchRun (fun _ => 1) 3 2 [[1], [0, 2], [1]] (0 + 2) = .ok
        { max_iterations := 4999, solutions_checked := 1, tabu_list := [1],
          aspiration_criteria := [(2, -1)], current_colors := [1, 0, 1],
          candidate_colors := [1, 0, 1], selected_candidate := 1, draws := 5 } ∧
      AspBounded [] ∧ AspLE [] [(2, -1)] :=
  ⟨rfl, rfl, aspiration_monotone.2.2 (fun _ => 1) 3 2 [[1], [0, 2], [1]] 0 2 _ _ rfl rfl⟩

/-! ## Palette of one colour -/

/-- C8 (the program faults): for the graph with the single edge `(1,2)` and palette size 1
both vertices get colour 0 and the conflict count is 1, and then the first trial computes
`rand() % (max_colors - 1)` with `max_colors - 1 = 0`: the run ends in a division by zero,
whatever the draws, instead of consuming its 5000 iterations. -/
theorem single_edge_palette_one_faults (rng : Nat → Nat) :
    read_graph_from_file 2 [(1, 2)] = .ok [[1], [0]] ∧
    (∃ st, initialState rng 2 1 = .ok st ∧ st.current_colors = [0, 0] ∧
      evaluate 2 [[1], [0]] st.current_colors = .ok ([0, 1], 1)) ∧
    tabu_search rng 2 1 [[1], [0]] = .error .divisionByZero := by
  have hinit := initialState_ok rng 2 1 (Or.inr (by decide))
  have hclamp : clampColors 2 1 = 1 := by decide
  have hcol : initialColoring rng (clampColors 2 1) 2 = [0, 0] := by
    rw [hclamp]
    simp [initialColoring, List.range_succ, Int.tmod_one]
  rw [hcol] at hinit
  refine ⟨rfl, ⟨_, hinit, rfl, rfl⟩, ?_⟩
  have htrial : ∀ (C : Nat) (st : SearchState),
      trial rng 2 1 [[1], [0]] [0, 1] C st = .error .divisionByZero := by
    intro C st
    have hlt : rng st.draws % 2 < 2 := Nat.mod_lt _ (by decide)
    have hat : ∃ v, vecAt [0, 1] (rng st.draws % 2) = .ok v := by
      rcases Nat.lt_succ_iff_lt_or_eq.mp hlt with h | h
      · have h0 : rng st.draws % 2 = 0 := by omega
        exact ⟨0, by rw [h0]; rfl⟩
      · exact ⟨1, by rw [h]; rfl⟩
    obtain ⟨v, hv⟩ := hat
    simp [trial, sizeMod, hv, intMod, bind, Except.bind]
  unfold tabu_search searchRun
  rw [hinit, hclamp]
  simp only [bind, Except.bind]
  rw [show (5000 : Nat) = 4999 + 1 from rfl, searchLoop]
  have hit : iteration rng 2 1 [[1], [0]]
      { max_iterations := 5000, solutions_checked := 0, tabu_list := [],
        aspiration_criteria := [], current_colors := [0, 0], candidate_colors := [],
        selected_candidate := 0, draws := 2 } = .error .divisionByZero := by
    unfold iteration
    rw [show evaluate 2 [[1], [0]] [0, 0] = .ok ([0, 1], 1) from rfl]
    simp only [bind, Except.bind]
    rw [show neighbor_reps = 699 + 1 from rfl, trialLoop]
    simp [htrial, bind, Except.bind]
  rw [hit]
  rfl

/-! ## The complete graph with one colour too few -/

theorem pigeonhole_colors (k : Nat) (colors : List Int) (hcol : ColorsOK (k : Int) (k + 1) colors) :
    ∃ x y, x < k + 1 ∧ y < k + 1 ∧ x ≠ y ∧ sameColor colors x y = true := by
  obtain ⟨hlen, hrange⟩ := hcol
  have hmaps : ∀ a ∈ Finset.range (k + 1),
      (colors.getD a 0).toNat ∈ Finset.range k := by
    intro a ha
    rw [Finset.mem_range] at ha ⊢
    have hlt : a < colors.length := by omega
    have hmem : colors.getD a 0 ∈ colors := by
      rw [List.getD_eq_getElem?_getD, List.getElem?_eq_getElem hlt]
      exact List.getElem_mem _
    have := hrange _ hmem
    omega
  obtain ⟨x, hx, y, hy, hne, hxy⟩ :=
    Finset.exists_ne_map_eq_of_card_lt_of_maps_to (by simp) hmaps
  rw [Finset.mem_range] at hx hy
  refine ⟨x, y, hx, hy, hne, ?_⟩
  have hxl : x < colors.length := by omega
  have hyl : y < colors.length := by omega
  have hcx := hrange colors[x] (List.getElem_mem _)
  have hcy := hrange colors[y] (List.getElem_mem _)
  rw [List.getD_eq_getElem?_getD, List.getD_eq_getElem?_getD, List.getElem?_eq_getElem hxl,
    List.getElem?_eq_getElem hyl] at hxy
  simp only [Option.getD_some] at hxy
  rw [sameColor_of_lt colors x y hxl hyl]
  simp only [decide_eq_true_eq]
  omega

theorem two_rows_le_sum (f : Nat → Nat) (n x y : Nat) (hx : x < n) (hy : y < n) (hne : x ≠ y) :
    f x + f y ≤ ((List.range n).map f).sum := by
  have h1 := sum_range_bump (fun _ => 0) (fun i => 0 + if i = x then f x else 0) x (f x) n hx
    (fun _ => rfl)
  have h2 := sum_range_bump (fun i => 0 + if i = x then f x else 0)
    (fun i => (0 + if i = x then f x else 0) + if i = y then f y else 0) y (f y) n hy
    (fun _ => rfl)
  have h0 : ((List.range n).map (fun _ : Nat => 0)).sum = 0 := by simp
  have hle : ((List.range n).map
      (fun i => (0 + if i = x then f x else 0) + if i = y then f y else 0)).sum
      ≤ ((List.range n).map f).sum := by
    apply List.sum_le_sum
    intro i _
    by_cases hix : i = x
    · subst hix
      simp [hne]
    · by_cases hiy : i = y
      · subst hiy
        simp [hix]
      · simp [hix, hiy]
  omega

/-- On a complete graph with `k + 1` vertices every colouring with `k` colours has a
conflict. -/
theorem complete_conflict (k : Nat) (adjacency_list : List (List Nat)) (colors : List Int)
    (hcomplete : Complete (k + 1) adjacency_list)
    (hcol : ColorsOK (k : Int) (k + 1) colors) :
    1 ≤ orderedPairs (k + 1) adjacency_list colors / 2 := by
  obtain ⟨x, y, hx, hy, hne, hs⟩ := pigeonhole_colors k colors hcol
  have hrx : 1 ≤ rowPairs adjacency_list colors x := by
    unfold rowPairs
    exact List.countP_pos_iff.mpr ⟨y, hcomplete x hx y hy hne, hs⟩
  have hry : 1 ≤ rowPairs adjacency_list colors y := by
    unfold rowPairs
    exact List.countP_pos_iff.mpr
      ⟨x, hcomplete y hy x hx (fun h => hne h.symm), by rw [sameColor_comm]; exact hs⟩
  have := two_rows_le_sum (rowPairs adjacency_list colors) (k + 1) x y hx hy hne
  unfold orderedPairs
  omega

/-- On an instance without a proper colouring the loop never takes the `break`: it runs its
whole budget. -/
theorem searchLoop_exhausts (rng : Nat → Nat) (n : Nat) (K : Int)
    (adjacency_list : List (List Nat)) (hwf : WellFormed n adjacency_list) (hK : 2 ≤ K)
    (hunsat : ∀ colors, ColorsOK K n colors → orderedPairs n adjacency_list colors / 2 ≠ 0) :
    ∀ (budget : Nat) (st : SearchState), Inv K n st →
      ∃ st1, searchLoop rng n K adjacency_list budget st = .ok st1 ∧ Inv K n st1 ∧
        st1.solutions_checked = st.solutions_checked + budget ∧
        st1.max_iterations = st.max_iterations - budget ∧
        st1.draws ≤ st.draws + 2 * neighbor_reps * budget := by
  intro budget
  induction budget with
  | zero => intro st hinv; exact ⟨st, rfl, hinv, rfl, rfl, by omega⟩
  | succ budget ih =>
    intro st hinv
    rcases iteration_ok rng n K adjacency_list hwf hK st hinv.colors with
      ⟨h0, -⟩ | ⟨-, mid, hit⟩
    · exact absurd h0 (hunsat _ hinv.colors)
    · obtain ⟨hinv1, -, hm, hc, -, hd⟩ := iteration_inv rng n K adjacency_list hK st mid hinv hit
      obtain ⟨st1, hloop, hinv2, hc2, hm2, hd2⟩ := ih mid hinv1
      refine ⟨st1, by simp [searchLoop, hit, hloop, bind, Except.bind], hinv2, ?_, ?_, ?_⟩
      · omega
      · omega
      · have : 2 * neighbor_reps * (budget + 1) = 2 * neighbor_reps * budget + 2 * neighbor_reps := by
          ring
        omega

/-- C9: for `k >= 2`, on a complete graph with `k + 1` vertices and requested palette `k`,
every colouring with colours in `[0, k)` has conflict count at least 1; the sequential search
never leaves its loop early: each of its 5000 outer iterations goes through between 1 and 700
trials (2 draws each), the run ends without a fault with the iteration counter at 0 after
exactly 5000 iterations, and the returned colouring has conflict count at least 1. -/
theorem complete_graph_exhausts_budget (rng : Nat → Nat) (k : Nat)
    (adjacency_list : List (List Nat)) (hk : 2 ≤ k)
    (hwf : WellFormed (k + 1) adjacency_list) (hcomplete : Complete (k + 1) adjacency_list) :
    (∀ colors, ColorsOK (k : Int) (k + 1) colors →
      ∃ c, countConflicts (k + 1) adjacency_list colors = .ok c ∧ 1 ≤ c) ∧
    (∀ j, j < 5000 → ∃ s s1,
      searchRun rng (k + 1) k adjacency_list j = .ok s ∧
      iteration rng (k + 1) (clampColors (k + 1) k) adjacency_list s = .ok (some s1) ∧
      searchRun rng (k + 1) k adjacency_list (j + 1) = .ok s1 ∧
      s.solutions_checked = j ∧ s1.solutions_checked = j + 1 ∧
      s.draws + 2 ≤ s1.draws ∧ s1.draws ≤ s.draws + 2 * 700) ∧
    ∃ st, tabu_search rng (k + 1) k adjacency_list = .ok st ∧
      st.max_iterations = 0 ∧ st.solutions_checked = 5000 ∧
      ∃ c, countConflicts (k + 1) adjacency_list st.current_colors = .ok c ∧ 1 ≤ c := by
  have hclamp : clampColors (k + 1) (k : Int) = (k : Int) := by
    unfold clampColors
    rw [if_neg (by push_cast; omega)]
  have hK : (2 : Int) ≤ (k : Int) := by omega
  have hunsat : ∀ colors, ColorsOK (k : Int) (k + 1) colors →
      orderedPairs (k + 1) adjacency_list colors / 2 ≠ 0 := by
    intro colors hcol
    have := complete_conflict k adjacency_list colors hcomplete hcol
    omega
  have hconf : ∀ colors, ColorsOK (k : Int) (k + 1) colors →
      ∃ c, countConflicts (k + 1) adjacency_list colors = .ok c ∧ 1 ≤ c := by
    intro colors hcol
    exact ⟨_, countConflicts_ok (k + 1) adjacency_list colors hwf hcol.1,
      complete_conflict k adjacency_list colors hcomplete hcol⟩
  obtain ⟨st0, hinit, hinv0, -, hm0, hc0, -⟩ :=
    initial_inv rng (k + 1) (k : Int) (by omega) hK
  rw [hclamp] at hinv0
  have hrun : ∀ b, ∃ s, searchRun rng (k + 1) k adjacency_list b = .ok s ∧
      searchLoop rng (k + 1) k adjacency_list b st0 = .ok s ∧
      Inv (k : Int) (k + 1) s ∧ s.solutions_checked = b ∧ s.max_iterations = 5000 - b := by
    intro b
    obtain ⟨s, hloop, hinv, hc, hm, -⟩ :=
      searchLoop_exhausts rng (k + 1) k adjacency_list hwf hK hunsat b st0 hinv0
    refine ⟨s, ?_, hloop, hinv, by omega, by omega⟩
    simp [searchRun, hinit, hclamp, hloop, bind, Except.bind]
  refine ⟨hconf, ?_, ?_⟩
  · intro j _
    obtain ⟨s, hs, hloop, hinv, hc, -⟩ := hrun j
    rcases iteration_ok rng (k + 1) k adjacency_list hwf hK s hinv.colors with
      ⟨h0, -⟩ | ⟨-, s1, hit⟩
    · exact absurd h0 (hunsat _ hinv.colors)
    · obtain ⟨-, -, -, hc1, hlo, hhi⟩ :=
        iteration_inv rng (k + 1) k adjacency_list hK s s1 hinv hit
      refine ⟨s, s1, hs, by rw [hclamp]; exact hit, ?_, hc, by omega, hlo, hhi⟩
      have hone : searchLoop rng (k + 1) (k : Int) adjacency_list 1 s = .ok s1 := by
        simp [searchLoop, hit, bind, Except.bind]
      have hadd := searchLoop_add rng (k + 1) (k : Int) adjacency_list 1 j st0
      rw [hloop] at hadd
      simp only [bind, Except.bind] at hadd
      rw [hone] at hadd
      simp [searchRun, hinit, hclamp, hadd, bind, Except.bind]
  · obtain ⟨s, hs, -, hinv, hc, hm⟩ := hrun 5000
    exact ⟨s, hs, by omega, hc, hconf _ hinv.colors⟩

theorem complete_graph_exhausts_budget_witness :
    (2 ≤ 2 ∧ WellFormed 3 [[1, 2], [0, 2], [0, 1]] ∧ Complete 3 [[1, 2], [0, 2], [0, 1]]) ∧
      read_graph_from_file 3 [(1, 2), (1, 3), (2, 3)] = .ok [[1, 2], [0, 2], [0, 1]] ∧
      ∃ st, tabu_search (fun i => 7 * i + 3) (2 + 1) (2 : Nat) [[1, 2], [0, 2], [0, 1]] = .ok st ∧
        st.max_iterations = 0 ∧ st.solutions_checked = 5000 ∧
        ∃ c, countConflicts (2 + 1) [[1, 2], [0, 2], [0, 1]] st.current_colors = .ok c ∧ 1 ≤ c :=
  ⟨⟨by decide, by decide, by decide⟩, rfl,
    (complete_graph_exhausts_budget (fun i => 7 * i + 3) 2 [[1, 2], [0, 2], [0, 1]]
      (by decide) (by decide) (by decide)).2.2⟩

/-! ## The path graph on 3 vertices -/

theorem pathAdversary_pick (t j : Nat) (hj : j < 700) :
    pathAdversary (3 + 1400 * t + 2 * j) = t % 2 := by
  unfold pathAdversary
  rw [if_neg (by omega)]
  congr 1
  omega

/-- Under the adversary every trial of iteration `t` recolours vertex 1 and gains nothing. -/
theorem path_trial (t j : Nat) (hj : j < 700) (st : SearchState)
    (hcol : st.current_colors = pathColors t) (hdraws : st.draws = 3 + 1400 * t + 2 * j) :
    trial pathAdversary 3 2 [[1], [0, 2], [1]] (pathCandidates t) 1 st
      = .ok (false, { st with
          candidate_colors := pathColors (t + 1)
          selected_candidate := 1
          draws := st.draws + 2 }) := by
  have hpick : pathAdversary st.draws = t % 2 := by rw [hdraws]; exact pathAdversary_pick t j hj
  have hmod : Int.tmod (pathAdversary (st.draws + 1) : Nat) (2 - 1) = 0 := by
    rw [show (2 : Int) - 1 = 1 from rfl, Int.tmod_one]
  rcases Nat.mod_two_eq_zero_or_one t with ht | ht
  · have ht1 : (t + 1) % 2 = 1 := by omega
    simp [trial, hpick, ht, ht1, hcol, pathColors, pathCandidates, sizeMod, intMod, hmod, vecAt,
      vecSet, forceChange, bind, Except.bind, pure, Except.pure]
    rw [show countConflicts 3 [[1], [0, 2], [1]] [1, 1, 0] = .ok 1 from rfl]
    simp [acceptance]
  · have ht1 : (t + 1) % 2 = 0 := by omega
    simp [trial, hpick, ht, ht1, hcol, pathColors, pathCandidates, sizeMod, intMod, hmod, vecAt,
      vecSet, forceChange, bind, Except.bind, pure, Except.pure]
    rw [show countConflicts 3 [[1], [0, 2], [1]] [1, 0, 0] = .ok 1 from rfl]
    simp [acceptance]

theorem row_le_sum (f : Nat → Nat) (n x : Nat) (hx : x < n) :
    f x ≤ ((List.range n).map f).sum := by
  have h1 := sum_range_bump (fun _ => 0) (fun i => 0 + if i = x then f x else 0) x (f x) n hx
    (fun _ => rfl)
  have h0 : ((List.range n).map (fun _ : Nat => 0)).sum = 0 := by simp
  have hle : ((List.range n).map (fun i => 0 + if i = x then f x else 0)).sum
      ≤ ((List.range n).map f).sum := by
    apply List.sum_le_sum
    intro i _
    by_cases hix : i = x
    · subst hix; simp
    · simp [hix]
  omega

/-- The candidate set is empty exactly when no ordered equal-coloured pair was counted. -/
theorem candidates_nil_iff (n : Nat) (adjacency_list : List (List Nat)) (colors : List Int) :
    markFrom adjacency_list colors (List.range n) [] = [] ↔
      orderedPairs n adjacency_list colors = 0 := by
  constructor
  · intro hnil
    by_contra hne
    exact candidates_ne_nil n adjacency_list colors hne hnil
  · intro hzero
    rw [List.eq_nil_iff_forall_not_mem]
    intro u hu
    rw [mem_markFrom] at hu
    rcases hu with hu | ⟨i, hi, hrow, hs⟩
    · simp at hu
    · rw [List.mem_range] at hi
      have h1 : 1 ≤ rowPairs adjacency_list colors i := by
        unfold rowPairs
        exact List.countP_pos_iff.mpr ⟨u, hrow, hs⟩
      have h2 := row_le_sum (rowPairs adjacency_list colors) n i hi
      unfold orderedPairs at hzero
      omega

theorem sameColor_self (colors : List Int) (i : Nat) : sameColor colors i i = true := by
  simp [sameColor]

/-- In a symmetric structure where no row lists its own vertex an odd number of times, one
equal-coloured ordered pair is never alone. -/
theorem orderedPairs_ne_one (n : Nat) (adjacency_list : List (List Nat)) (colors : List Int)
    (hwf : WellFormed n adjacency_list) (hsym : Symmetric adjacency_list)
    (hself : ∀ u < n, (adjacency_list.getD u []).count u % 2 = 0)
    (hpos : orderedPairs n adjacency_list colors ≠ 0) :
    2 ≤ orderedPairs n adjacency_list colors := by
  have hne := candidates_ne_nil n adjacency_list colors hpos
  obtain ⟨u, hu⟩ := List.exists_mem_of_ne_nil _ hne
  rw [mem_markFrom] at hu
  rcases hu with hu | ⟨i, hi, hrow, hs⟩
  · simp at hu
  · rw [List.mem_range] at hi
    have hun : u < n := getD_row_lt n adjacency_list hwf i u hrow
    by_cases hiu : i = u
    · subst hiu
      have hcount : 1 ≤ (adjacency_list.getD i []).count i := List.count_pos_iff.mpr hrow
      have heven := hself i hi
      have hle : (adjacency_list.getD i []).count i ≤ rowPairs adjacency_list colors i := by
        unfold rowPairs
        rw [List.count_eq_countP]
        apply List.countP_mono_left
        intro x _ hx
        have : x = i := by simpa using hx
        rw [this]; exact sameColor_self colors i
      have h2 := row_le_sum (rowPairs adjacency_list colors) n i hi
      unfold orderedPairs
      omega
    · have hback : i ∈ adjacency_list.getD u [] :=
        (hsym i (by rw [hwf.1]; exact hi) u (by rw [hwf.1]; exact hun)).mp hrow
      have h1 : 1 ≤ rowPairs adjacency_list colors i := by
        unfold rowPairs
        exact List.countP_pos_iff.mpr ⟨u, hrow, hs⟩
      have h2 : 1 ≤ rowPairs adjacency_list colors u := by
        unfold rowPairs
        exact List.countP_pos_iff.mpr ⟨i, hback, by rw [sameColor_comm]; exact hs⟩
      have := two_rows_le_sum (rowPairs adjacency_list colors) n i u hi hun hiu
      unfold orderedPairs
      omega

/-- C11 (counterexample): the structure with one vertex whose row lists the vertex itself once
satisfies the symmetry invariant; its evaluation counts one ordered pair, so the conflict count
is `1 / 2 = 0` while the candidate set is `{0}`: a non-empty candidate set at conflict
count 0. -/
theorem candidate_set_nonempty_at_zero :
    WellFormed 1 [[0]] ∧ Symmetric [[0]] ∧
    evaluateFrom [[0]] [7] (List.range 1) ([], 0) = .ok ([0], 1) ∧
    evaluate 1 [[0]] [7] = .ok ([0], 0) ∧
    ¬ ∀ (n : Nat) (adjacency_list : List (List Nat)) (colors : List Int)
        (candidate_set : List Nat) (conflict_count : Nat),
        WellFormed n adjacency_list → Symmetric adjacency_list → colors.length = n →
        evaluate n adjacency_list colors = .ok (candidate_set, conflict_count) →
        (candidate_set = [] ↔ conflict_count = 0) := by
  refine ⟨by decide, by decide, rfl, rfl, ?_⟩
  intro hall
  have h := hall 1 [[0]] [7] [0] 0 (by decide) (by decide) rfl rfl
  exact absurd (h.mpr rfl) (by decide)

/-- C11 (amended): on every well-formed adjacency structure and every colouring of its
vertices the candidate set built by the evaluation loop is empty iff the number of ordered
equal-coloured pairs is 0; whenever the conflict count (that number halved) is positive the
candidate list is non-empty, so the index `rand() % candidates.size()` is well defined and
addresses an element; and the candidate set is empty iff the conflict count is 0 whenever the
ordered count is even (as it is for every structure built by the loader) or the structure is
symmetric and no row lists its own vertex an odd number of times. -/
theorem candidate_set_empty_iff (n : Nat) (adjacency_list : List (List Nat))
    (colors : List Int) (hwf : WellFormed n adjacency_list) (hlen : colors.length = n) :
    ∃ candidate_set pairs,
      evaluateFrom adjacency_list colors (List.range n) ([], 0) = .ok (candidate_set, pairs) ∧
      evaluate n adjacency_list colors = .ok (candidate_set, pairs / 2) ∧
      (candidate_set = [] ↔ pairs = 0) ∧
      (0 < pairs / 2 → candidate_set ≠ [] ∧
        ∀ r : Nat, ∃ idx v, sizeMod r candidate_set.length = .ok idx ∧
          vecAt candidate_set idx = .ok v ∧ v < n) ∧
      (pairs % 2 = 0 → (candidate_set = [] ↔ pairs / 2 = 0)) ∧
      (Symmetric adjacency_list →
        (∀ u < n, (adjacency_list.getD u []).count u % 2 = 0) →
        (candidate_set = [] ↔ pairs / 2 = 0)) := by
  have hadj : ∀ row ∈ adjacency_list, ∀ w ∈ row, w < colors.length := by
    intro row hr w hw; rw [hlen]; exact hwf.2 row hr w hw
  have his : ∀ i ∈ List.range n, i < adjacency_list.length ∧ i < colors.length := by
    intro i hi; rw [List.mem_range] at hi; rw [hwf.1, hlen]; exact ⟨hi, hi⟩
  have hiff := candidates_nil_iff n adjacency_list colors
  refine ⟨markFrom adjacency_list colors (List.range n) [], orderedPairs n adjacency_list colors,
    ?_, evaluate_ok n adjacency_list colors hwf hlen, hiff, ?_, ?_, ?_⟩
  · rw [evaluateFrom_ok adjacency_list colors hadj _ [] 0 his]
    simp [orderedPairs]
  · intro hpos
    have hne : markFrom adjacency_list colors (List.range n) [] ≠ [] := by
      intro h; rw [hiff] at h; omega
    refine ⟨hne, ?_⟩
    intro r
    have hlenpos : (markFrom adjacency_list colors (List.range n) []).length ≠ 0 := by
      intro h; exact hne (List.length_eq_zero.mp h)
    have hidx : r % (markFrom adjacency_list colors (List.range n) []).length
        < (markFrom adjacency_list colors (List.range n) []).length :=
      Nat.mod_lt _ (Nat.pos_of_ne_zero hlenpos)
    refine ⟨_, _, by simp [sizeMod, hlenpos], vecAt_of_lt _ _ hidx, ?_⟩
    exact candidates_lt n adjacency_list colors hwf _ (List.getElem_mem _)
  · intro heven
    rw [hiff]; omega
  · intro hsym hself
    rw [hiff]
    constructor
    · intro h; omega
    · intro h
      by_contra hne
      have := orderedPairs_ne_one n adjacency_list colors hwf hsym hself hne
      omega

theorem candidate_set_empty_iff_witness :
    ∃ candidate_set pairs,
      evaluateFrom [[1, 1, 0, 0], [0, 0], []] [4, 4, 4] (List.range 3) ([], 0)
        = .ok (candidate_set, pairs) ∧
      evaluate 3 [[1, 1, 0, 0], [0, 0], []] [4, 4, 4] = .ok (candidate_set, pairs / 2) ∧
      (candidate_set = [] ↔ pairs = 0) ∧
      (0 < pairs / 2 → candidate_set ≠ [] ∧
        ∀ r : Nat, ∃ idx v, sizeMod r candidate_set.length = .ok idx ∧
          vecAt candidate_set idx = .ok v ∧ v < 3) ∧
      (pairs % 2 = 0 → (candidate_set = [] ↔ pairs / 2 = 0)) ∧
      (Symmetric [[1, 1, 0, 0], [0, 0], []] →
        (∀ u < 3, (List.getD [[1, 1, 0, 0], [0, 0], []] u []).count u % 2 = 0) →
        (candidate_set = [] ↔ pairs / 2 = 0)) :=
  candidate_set_empty_iff 3 [[1, 1, 0, 0], [0, 0], []] [4, 4, 4] (by decide) (by decide)

/-! ## One trial is a move of one vertex -/

/-- C15: for `maxColors >= 2`, whatever the current colouring, the selected vertex `v` and the
draws, the trial colouring has the length of the current colouring, equals it at every vertex
other than `v` and differs from it at `v`: the colour written is `rand mod (maxColors - 1)`,
replaced by `maxColors - 1` exactly when it equals the current colour of `v`. -/
theorem trial_single_vertex_move (rng : Nat → Nat) (n : Nat) (K : Int)
    (adjacency_list : List (List Nat)) (candidates : List Nat) (C : Nat)
    (st st1 : SearchState) (stop : Bool) (hK : 2 ≤ K)
    (h : trial rng n K adjacency_list candidates C st = .ok (stop, st1)) :
    st1.candidate_colors.length = st.current_colors.length ∧
    st1.selected_candidate < st.current_colors.length ∧
    (∀ u, u ≠ st1.selected_candidate →
      st1.candidate_colors[u]? = st.current_colors[u]?) ∧
    st1.candidate_colors[st1.selected_candidate]? ≠ st.current_colors[st1.selected_candidate]? ∧
    ∃ old, st.current_colors[st1.selected_candidate]? = some old ∧
      st1.candidate_colors[st1.selected_candidate]?
        = some (if Int.tmod (rng (st.draws + 1) : Nat) (K - 1) = old then K - 1
            else Int.tmod (rng (st.draws + 1) : Nat) (K - 1)) := by
  obtain ⟨idx, sel, drawn, recolored, old, cc, C', -, -, h3, h4, h5, h6, -, -, hst⟩ :=
    trial_inv rng n K adjacency_list candidates C st st1 stop h
  subst hst
  obtain ⟨hne, hdrawn⟩ := intMod_inv _ _ _ h3
  obtain ⟨hsel, hrec⟩ := vecSet_inv _ _ _ _ h4
  have hold := vecAt_inv _ _ _ h5
  have hd1 : drawn < K - 1 := by
    rw [hdrawn]; exact Int.tmod_lt_of_pos _ (by omega)
  subst hrec
  simp only []
  unfold forceChange at h6
  by_cases hd : drawn = old
  · rw [if_pos hd] at h6
    obtain ⟨-, hcc⟩ := vecSet_inv _ _ _ _ h6
    subst hcc
    refine ⟨by simp, hsel, ?_, ?_, old, hold, ?_⟩
    · intro u hu
      have : ¬ sel = u := fun h => hu h.symm
      simp [List.getElem?_set, this]
    · rw [hold]
      simp [List.getElem?_set, hsel]
      omega
    · rw [← hdrawn, if_pos hd]
      simp [List.getElem?_set, hsel]
  · rw [if_neg hd] at h6
    injection h6 with h6
    subst h6
    refine ⟨by simp, hsel, ?_, ?_, old, hold, ?_⟩
    · intro u hu
      have : ¬ sel = u := fun h => hu h.symm
      simp [List.getElem?_set, this]
    · rw [hold]
      simp [List.getElem?_set, hsel]
      exact hd
    · rw [← hdrawn, if_neg hd]
      simp [List.getElem?_set, hsel]

theorem trial_single_vertex_move_witness :
    trial (fun _ => 1) 3 2 [[1], [0, 2], [1]] [0, 1, 2] 2
        { max_iterations := 5000, solutions_checked := 1, tabu_list := [],
          aspiration_criteria := [], current_colors := [1, 1, 1], candidate_colors := [],
          selected_candidate := 0, draws := 3 }
      = .ok (true,
        { max_iterations := 5000, solutions_checked := 1, tabu_list := [],
          aspiration_criteria := [(2, -1)], current_colors := [1, 1, 1],
          candidate_colors := [1, 0, 1], selected_candidate := 1, draws := 5 }) ∧
    ([1, 0, 1] : List Int)[1]? ≠ ([1, 1, 1] : List Int)[1]? :=
  ⟨rfl, (trial_single_vertex_move (fun _ => 1) 3 2 [[1], [0, 2], [1]] [0, 1, 2] 2
    { max_iterations := 5000, solutions_checked := 1, tabu_list := [],
      aspiration_criteria := [], current_colors := [1, 1, 1], candidate_colors := [],
      selected_candidate := 0, draws := 3 }
    { max_iterations := 5000, solutions_checked := 1, tabu_list := [],
      aspiration_criteria := [(2, -1)], current_colors := [1, 1, 1],
      candidate_colors := [1, 0, 1], selected_candidate := 1, draws := 5 }
    true (by decide) rfl).2.2.2.1⟩

/-! ## Exhausting the trial budget -/

theorem acceptance_reject_tabu (C C' v : Nat) (L : List Nat) (A : List (Nat × Int))
    (h : (acceptance C C' v L A).stop = false) : (acceptance C C' v L A).tabu_list = L := by
  unfold acceptance at h ⊢
  split
  · rename_i h1
    rw [if_pos h1] at h
    simp only [] at h ⊢
    split
    · rename_i h2
      rw [if_pos h2] at h
      cases h
    · split <;> rfl
  · rfl

theorem trial_reject_tabu (rng : Nat → Nat) (n : Nat) (K : Int)
    (adjacency_list : List (List Nat)) (candidates : List Nat) (C : Nat)
    (st st1 : SearchState)
    (h : trial rng n K adjacency_list candidates C st = .ok (false, st1)) :
    st1.tabu_list = st.tabu_list := by
  obtain ⟨idx, sel, drawn, recolored, old, cc, C', -, -, -, -, -, -, -, hstop, hst⟩ :=
    trial_inv rng n K adjacency_list candidates C st st1 false h
  subst hst
  exact acceptance_reject_tabu _ _ _ _ _ hstop.symm

/-- When every trial is rejected the loop runs them all and ends in the state of the last. -/
theorem trialLoop_all_rejected (rng : Nat → Nat) (n : Nat) (K : Int)
    (adjacency_list : List (List Nat)) (candidates : List Nat) (C : Nat)
    (states : Nat → SearchState) :
    ∀ (reps base : Nat),
      (∀ k, k < reps → trial rng n K adjacency_list candidates C (states (base + k))
        = .ok (false, states (base + k + 1))) →
      trialLoop rng n K adjacency_list candidates C reps (states base)
        = .ok (states (base + reps)) ∧
      (states (base + reps)).tabu_list = (states base).tabu_list := by
  intro reps
  induction reps with
  | zero => intro base _; exact ⟨rfl, rfl⟩
  | succ reps ih =>
    intro base hrej
    have h0 := hrej 0 (by omega)
    rw [Nat.add_zero] at h0
    obtain ⟨h1, h2⟩ := ih (base + 1) (fun k hk => by
      have := hrej (k + 1) (by omega)
      rw [show base + (k + 1) = base + 1 + k by omega] at this
      exact this)
    rw [show base + 1 + reps = base + (reps + 1) by omega] at h1 h2
    refine ⟨?_, ?_⟩
    · rw [trialLoop, h0]
      simp only [bind, Except.bind, Bool.false_eq_true, if_false]
      exact h1
    · rw [h2]
      exact trial_reject_tabu rng n K adjacency_list candidates C _ _ h0

/-- C14: in an outer iteration of the sequential routine in which each of the 700 trials is
rejected (the trial loop never breaks), the iteration ends by committing the 700th trial: the
current colouring becomes the colouring of that trial, the vertex of that trial is appended to
the tabu list, which the rejected trials left as it was, whether or not it already occurs in
it (the oldest entry is erased above 4), and the iteration counter goes down by one. -/
theorem budget_exhaustion_commits (rng : Nat → Nat) (n : Nat) (K : Int)
    (adjacency_list : List (List Nat)) (st : SearchState) (candidates : List Nat) (C : Nat)
    (states : Nat → SearchState)
    (hev : evaluate n adjacency_list st.current_colors = .ok (candidates, C)) (hC : C ≠ 0)
    (h0 : states 0 = { st with solutions_checked := st.solutions_checked + 1 })
    (hrej : ∀ k, k < 700 → trial rng n K adjacency_list candidates C (states k)
      = .ok (false, states (k + 1))) :
    ∃ st1, iteration rng n K adjacency_list st = .ok (some st1) ∧
      st1.current_colors = (states 700).candidate_colors ∧
      st1.tabu_list =
        (if (st.tabu_list ++ [(states 700).selected_candidate]).length > 4
          then (st.tabu_list ++ [(states 700).selected_candidate]).tail
          else st.tabu_list ++ [(states 700).selected_candidate]) ∧
      (states 700).selected_candidate ∈ st1.tabu_list ∧
      st1.max_iterations = st.max_iterations - 1 ∧
      st1.solutions_checked = st.solutions_checked + 1 := by
  obtain ⟨hloop, htabu⟩ := trialLoop_all_rejected rng n K adjacency_list candidates C states
    neighbor_reps 0 (fun k hk => by
      have := hrej k hk
      rw [Nat.zero_add]
      exact this)
  rw [Nat.zero_add] at hloop htabu
  rw [h0] at hloop htabu
  simp only [] at htabu
  have hframe := (trialLoop_frame rng n K adjacency_list candidates C _ _ _ hloop).1
  have hreps : neighbor_reps = 700 := rfl
  rw [hreps] at htabu hframe
  refine ⟨commit (states 700), ?_, rfl, ?_, ?_, ?_, ?_⟩
  · unfold iteration
    rw [hev]
    simp only [bind, Except.bind, hC, if_false, hloop, pure, Except.pure]
    rfl
  · show (commit (states 700)).tabu_list = _
    simp only [commit, htabu, tabu_list_size]
  · show _ ∈ (commit (states 700)).tabu_list
    simp only [commit, htabu, tabu_list_size]
    split
    · rename_i hlen
      cases hL : st.tabu_list with
      | nil => rw [hL] at hlen; simp at hlen
      | cons a rest => simp
    · simp
  · show (commit (states 700)).max_iterations = _
    simp only [commit]
    rw [hframe.iters]
  · show (commit (states 700)).solutions_checked = _
    simp only [commit]
    rw [hframe.checked]

theorem budget_exhaustion_commits_witness :
    evaluate 3 [[1], [0, 2], [1]] (pathState 0).current_colors = .ok ([1, 2], 1) ∧
    ∃ st1, iteration pathAdversary 3 2 [[1], [0, 2], [1]] (pathState 0) = .ok (some st1) ∧
      st1.current_colors = [1, 1, 0] ∧ st1.tabu_list = [1] ∧ st1.max_iterations = 4999 := by
  refine ⟨rfl, ?_⟩
  obtain ⟨st1, h1, h2, h3, -, h5, -⟩ :=
    budget_exhaustion_commits pathAdversary 3 2 [[1], [0, 2], [1]] (pathState 0) [1, 2] 1
      (fun k =>
        { max_iterations := 5000, solutions_checked := 1, tabu_list := [],
          aspiration_criteria := [], current_colors := [1, 0, 0],
          candidate_colors := if k = 0 then [] else [1, 1, 0],
          selected_candidate := if k = 0 then 0 else 1, draws := 3 + 2 * k })
      rfl (by decide) rfl
      (fun k hk => by
        have h := path_trial 0 k hk
          { max_iterations := 5000, solutions_checked := 1, tabu_list := [],
            aspiration_criteria := [], current_colors := [1, 0, 0],
            candidate_colors := if k = 0 then [] else [1, 1, 0],
            selected_candidate := if k = 0 then 0 else 1, draws := 3 + 2 * k }
          rfl (by simp)
        rw [show pathCandidates 0 = [1, 2] from rfl] at h
        rw [h]
        simp [pathColors]
        omega)
  exact ⟨st1, h1, h2, h3, h5⟩

/-! ## Counting by chunks -/

theorem markFrom_append (adjacency_list : List (List Nat)) (colors : List Int)
    (a b s : List Nat) :
    markFrom adjacency_list colors (a ++ b) s
      = markFrom adjacency_list colors b (markFrom adjacency_list colors a s) := by
  simp [markFrom, List.foldl_append]

theorem sum_chunks (f : Nat → Nat) :
    ∀ chunks : List (List Nat),
      (chunks.map (fun ch => (ch.map f).sum)).sum = (chunks.flatten.map f).sum := by
  intro chunks
  induction chunks with
  | nil => simp
  | cons ch rest ih => simp [ih]

theorem evaluateChunks_ok (adjacency_list : List (List Nat)) (colors : List Int)
    (hadj : ∀ row ∈ adjacency_list, ∀ w ∈ row, w < colors.length) :
    ∀ (chunks : List (List Nat)) (s : List Nat) (t : Nat),
      (∀ i ∈ chunks.flatten, i < adjacency_list.length ∧ i < colors.length) →
      evaluateChunks adjacency_list colors chunks (s, t)
        = .ok (markFrom adjacency_list colors chunks.flatten s,
            t + (chunks.flatten.map (rowPairs adjacency_list colors)).sum) := by
  intro chunks
  induction chunks with
  | nil => intro s t _; simp [evaluateChunks, markFrom]
  | cons ch rest ih =>
    intro s t his
    have hch : ∀ i ∈ ch, i < adjacency_list.length ∧ i < colors.length :=
      fun i hi => his i (by simp [hi])
    have hrest : ∀ i ∈ rest.flatten, i < adjacency_list.length ∧ i < colors.length :=
      fun i hi => his i (by
        rw [List.flatten_cons, List.mem_append]; exact Or.inr hi)
    simp only [evaluateChunks, bind, Except.bind]
    rw [evaluateFrom_ok adjacency_list colors hadj ch s 0 hch]
    simp only []
    rw [ih _ _ hrest, List.flatten_cons, markFrom_append]
    simp [Nat.add_assoc]

/-- C18: for every well-formed adjacency structure, every colouring of its vertices and every
division of the vertex range `0..n-1` into disjoint chunks taken in any order, the sum of the
per-chunk counts of ordered equal-coloured pairs, halved, is the conflict count of the
sequential evaluation loop and the union of the per-chunk candidate insertions is the
sequential candidate set; the evaluation by chunks with a shared set returns exactly what the
sequential evaluation returns. -/
theorem partitioned_count_eq_sequential (n : Nat) (adjacency_list : List (List Nat))
    (colors : List Int) (chunks : List (List Nat))
    (hwf : WellFormed n adjacency_list) (hlen : colors.length = n)
    (hpart : chunks.flatten.Perm (List.range n)) :
    ∃ candidate_set conflict_count,
      evaluate n adjacency_list colors = .ok (candidate_set, conflict_count) ∧
      ompEvaluate adjacency_list colors chunks = .ok (candidate_set, conflict_count) ∧
      ∃ results : List (List Nat × Nat),
        List.Forall₂ (fun ch r => evaluateFrom adjacency_list colors ch ([], 0) = .ok r)
          chunks results ∧
        (results.map Prod.snd).sum / 2 = conflict_count ∧
        ∀ u, u ∈ candidate_set ↔ ∃ r ∈ results, u ∈ r.1 := by
  have hadj : ∀ row ∈ adjacency_list, ∀ w ∈ row, w < colors.length := by
    intro row hr w hw; rw [hlen]; exact hwf.2 row hr w hw
  have hflat : ∀ i ∈ chunks.flatten, i < adjacency_list.length ∧ i < colors.length := by
    intro i hi
    have := List.mem_range.mp (hpart.mem_iff.mp hi)
    rw [hwf.1, hlen]; exact ⟨this, this⟩
  have hsum : (chunks.flatten.map (rowPairs adjacency_list colors)).sum
      = orderedPairs n adjacency_list colors :=
    List.Perm.sum_eq (List.Perm.map _ hpart)
  have hmem : ∀ u, u ∈ markFrom adjacency_list colors chunks.flatten [] ↔
      u ∈ markFrom adjacency_list colors (List.range n) [] := by
    intro u
    rw [mem_markFrom, mem_markFrom]
    constructor
    · rintro (h | ⟨i, hi, h⟩)
      · exact Or.inl h
      · exact Or.inr ⟨i, hpart.mem_iff.mp hi, h⟩
    · rintro (h | ⟨i, hi, h⟩)
      · exact Or.inl h
      · exact Or.inr ⟨i, hpart.mem_iff.mpr hi, h⟩
  have hset : markFrom adjacency_list colors chunks.flatten []
      = markFrom adjacency_list colors (List.range n) [] := by
    apply List.eq_of_perm_of_sorted (r := (· < ·))
    · rw [List.perm_ext_iff_of_nodup]
      · exact hmem
      · exact (sorted_markFrom adjacency_list colors _ [] List.sorted_nil).nodup
      · exact (sorted_markFrom adjacency_list colors _ [] List.sorted_nil).nodup
    · exact sorted_markFrom adjacency_list colors _ [] List.sorted_nil
    · exact sorted_markFrom adjacency_list colors _ [] List.sorted_nil
  refine ⟨_, _, evaluate_ok n adjacency_list colors hwf hlen, ?_,
    chunks.map (fun ch => (markFrom adjacency_list colors ch [],
      (ch.map (rowPairs adjacency_list colors)).sum)), ?_, ?_, ?_⟩
  · simp only [ompEvaluate, bind, Except.bind]
    rw [evaluateChunks_ok adjacency_list colors hadj chunks [] 0 hflat, hsum, hset]
    simp [pure, Except.pure]
  · rw [List.forall₂_map_right_iff, List.forall₂_same]
    intro ch hch
    have hchk : ∀ i ∈ ch, i < adjacency_list.length ∧ i < colors.length :=
      fun i hi => hflat i (List.mem_flatten_of_mem hch hi)
    rw [evaluateFrom_ok adjacency_list colors hadj ch [] 0 hchk]
    simp
  · rw [List.map_map]
    have : (Prod.snd ∘ fun ch => (markFrom adjacency_list colors ch [],
        (ch.map (rowPairs adjacency_list colors)).sum))
        = fun ch => (ch.map (rowPairs adjacency_list colors)).sum := rfl
    rw [this, sum_chunks, hsum]
  · intro u
    rw [← hmem u, mem_markFrom]
    simp only [List.not_mem_nil, false_or, List.mem_map, List.mem_flatten]
    constructor
    · rintro ⟨i, ⟨ch, hch, hi⟩, h⟩
      refine ⟨_, ⟨ch, hch, rfl⟩, ?_⟩
      rw [mem_markFrom]
      exact Or.inr ⟨i, hi, h⟩
    · rintro ⟨r, ⟨ch, hch, rfl⟩, hu⟩
      rw [mem_markFrom] at hu
      rcases hu with hu | ⟨i, hi, h⟩
      · simp at hu
      · exact ⟨i, ⟨ch, hch, hi⟩, h⟩

theorem partitioned_count_eq_sequential_witness :
    ∃ candidate_set conflict_count,
      evaluate 4 [[1, 2], [0], [0, 3], [2]] [5, 5, 5, 1] = .ok (candidate_set, conflict_count) ∧
      ompEvaluate [[1, 2], [0], [0, 3], [2]] [5, 5, 5, 1] [[3, 1], [], [2, 0]]
        = .ok (candidate_set, conflict_count) ∧
      ∃ results : List (List Nat × Nat),
        List.Forall₂
          (fun ch r => evaluateFrom [[1, 2], [0], [0, 3], [2]] [5, 5, 5, 1] ch ([], 0) = .ok r)
          [[3, 1], [], [2, 0]] results ∧
        (results.map Prod.snd).sum / 2 = conflict_count ∧
        ∀ u, u ∈ candidate_set ↔ ∃ r ∈ results, u ∈ r.1 :=
  partitioned_count_eq_sequential 4 [[1, 2], [0], [0, 3], [2]] [5, 5, 5, 1] [[3, 1], [], [2, 0]]
    (by decide) (by decide) (by decide)

/-! ## The report lines -/

theorem ompRun_cons (rng : Nat → Nat) (n : Nat) (K : Int) (adjacency_list : List (List Nat))
    (cur : List Int) (candidates : List Nat) (C i : Nat) (rest : List Nat)
    (bs bs1 : BatchState)
    (h : ompStep rng n K adjacency_list cur candidates C i bs = .ok bs1) :
    ompRun rng n K adjacency_list cur candidates C (i :: rest) bs
      = ompRun rng n K adjacency_list cur candidates C rest bs1 := by
  simp only [ompRun, h, bind, Except.bind]

theorem ompRun_append (rng : Nat → Nat) (n : Nat) (K : Int) (adjacency_list : List (List Nat))
    (cur : List Int) (candidates : List Nat) (C : Nat) :
    ∀ (a b : List Nat) (bs : BatchState),
      ompRun rng n K adjacency_list cur candidates C (a ++ b) bs
        = (ompRun rng n K adjacency_list cur candidates C a bs
            >>= ompRun rng n K adjacency_list cur candidates C b) := by
  intro a
  induction a with
  | nil => intro b bs; simp [ompRun, bind, Except.bind]
  | cons i rest ih =>
    intro b bs
    simp only [List.cons_append, ompRun, bind, Except.bind]
    cases ompStep rng n K adjacency_list cur candidates C i bs with
    | error e => rfl
    | ok bs1 =>
      simp only []
      have := ih b bs1
      simp only [bind, Except.bind] at this
      exact this

theorem ompStep_done (rng : Nat → Nat) (n : Nat) (K : Int) (adjacency_list : List (List Nat))
    (cur : List Int) (candidates : List Nat) (C i : Nat) (bs : BatchState)
    (h : bs.phases[i]? = some .done) :
    ompStep rng n K adjacency_list cur candidates C i bs = .ok bs := by
  unfold ompStep
  rw [h]

theorem ompRun_done (rng : Nat → Nat) (n : Nat) (K : Int) (adjacency_list : List (List Nat))
    (cur : List Int) (candidates : List Nat) (C i : Nat) (bs : BatchState)
    (h : bs.phases[i]? = some .done) :
    ∀ k, ompRun rng n K adjacency_list cur candidates C (List.replicate k i) bs = .ok bs := by
  intro k
  induction k with
  | zero => rfl
  | succ k ih =>
    rw [List.replicate_succ, ompRun_cons _ _ _ _ _ _ _ _ _ _ _
      (ompStep_done rng n K adjacency_list cur candidates C i bs h)]
    exact ih

theorem ompStep_notStarted (rng : Nat → Nat) (n : Nat) (K : Int)
    (adjacency_list : List (List Nat)) (cur : List Int) (candidates : List Nat) (C i : Nat)
    (bs : BatchState) (h : bs.phases[i]? = some .notStarted) :
    ompStep rng n K adjacency_list cur candidates C i bs
      = .ok (bs.advance i (if bs.found_better_solution then .done else .started)) := by
  unfold ompStep
  rw [h]

theorem advance_phase (bs : BatchState) (i : Nat) (p : TrialPhase)
    (hi : i < bs.phases.length) : (bs.advance i p).phases[i]? = some p := by
  simp [BatchState.advance, List.getElem?_set_self hi]


theorem ompStep_eq_phaseStep (rng : Nat → Nat) (n : Nat) (K : Int)
    (adjacency_list : List (List Nat)) (cur : List Int) (candidates : List Nat) (C i : Nat)
    (bs : BatchState) (p : TrialPhase) (h : bs.phases[i]? = some p) :
    ompStep rng n K adjacency_list cur candidates C i bs
      = (phaseStep rng n K adjacency_list cur candidates C p bs >>= fun r =>
          .ok (r.2.advance i r.1)) := by
  unfold ompStep phaseStep
  rw [h]
  cases p with
  | notStarted => rfl
  | started =>
    simp only [bind, Except.bind, pure, Except.pure]
    cases sizeMod (rng bs.draws) candidates.length with
    | error e => rfl
    | ok idx =>
      simp only []
      cases vecAt candidates idx with
      | error e => rfl
      | ok sel => rfl
  | picked sel =>
    simp only [bind, Except.bind, pure, Except.pure]
    cases intMod (rng bs.draws : Nat) (K - 1) with
    | error e => rfl
    | ok drawn =>
      simp only []
      cases vecSet cur sel drawn with
      | error e => rfl
      | ok recolored =>
        simp only []
        cases vecAt cur sel with
        | error e => rfl
        | ok old =>
          simp only []
          cases forceChange K recolored sel drawn old with
          | error e => rfl
          | ok cc =>
            simp only []
            cases countConflicts n adjacency_list cc with
            | error e => rfl
            | ok new => rfl
  | counted sel cc new =>
    simp only []
    split
    · split <;> rfl
    · rfl
  | needInsert sel cc new => rfl
  | compare sel cc new =>
    simp only []
    split <;> rfl
  | aspire sel cc new => rfl
  | tabuScan sel cc new =>
    simp only []
    split <;> rfl
  | plain sel cc new => rfl
  | done =>
    simp only [bind, Except.bind, BatchState.advance]
    congr 1
    have : bs.phases.set i .done = bs.phases := by
      apply List.ext_getElem?
      intro j
      by_cases hj : i = j
      · subst hj
        rw [List.getElem?_set, if_pos rfl, h]
        obtain ⟨hi, -⟩ := List.getElem?_eq_some_iff.mp h
        simp [hi]
      · rw [List.getElem?_set_ne hj]
    rw [this]

theorem writeBest_fields (C sel : Nat) (cc : List Int) (new : Nat) (bs : BatchState) :
    (writeBest C sel cc new bs).tabu_list = bs.tabu_list ∧
    (writeBest C sel cc new bs).aspiration_criteria = bs.aspiration_criteria ∧
    (writeBest C sel cc new bs).draws = bs.draws ∧
    (writeBest C sel cc new bs).phases = bs.phases := by
  unfold writeBest
  split <;> exact ⟨rfl, rfl, rfl, rfl⟩

theorem writeBest_improving (C sel : Nat) (cc : List Int) (new : Nat) (bs : BatchState)
    (h : new < C) :
    writeBest C sel cc new bs =
      { bs with
        found_better_solution := true
        best_candidate_colors := cc
        best_selected_candidate := (sel : Int) } := by
  unfold writeBest
  simp [h]

/-- A step of a trial leaves the list of phases alone, lowers the rank of the trial, consumes
at most one draw and never clears the flag. -/
theorem phaseStep_frame (rng : Nat → Nat) (n : Nat) (K : Int)
    (adjacency_list : List (List Nat)) (cur : List Int) (candidates : List Nat) (C : Nat)
    (p p1 : TrialPhase) (bs bs1 : BatchState)
    (h : phaseStep rng n K adjacency_list cur candidates C p bs = .ok (p1, bs1)) :
    bs1.phases = bs.phases ∧ phaseRank p1 ≤ phaseRank p - 1 ∧
      (bs.found_better_solution = true → bs1.found_better_solution = true) := by
  unfold phaseStep at h
  cases p with
  | notStarted =>
    simp only [Except.ok.injEq, Prod.mk.injEq] at h
    obtain ⟨rfl, rfl⟩ := h
    refine ⟨rfl, ?_, fun h => h⟩
    split <;> simp [phaseRank]
  | started =>
    obtain ⟨idx, -, h⟩ := bind_ok_inv _ _ _ h
    obtain ⟨sel, -, h⟩ := bind_ok_inv _ _ _ h
    simp only [pure, Except.pure, Except.ok.injEq, Prod.mk.injEq] at h
    obtain ⟨rfl, rfl⟩ := h
    exact ⟨rfl, by simp [phaseRank], fun h => h⟩
  | picked sel =>
    obtain ⟨drawn, -, h⟩ := bind_ok_inv _ _ _ h
    obtain ⟨recolored, -, h⟩ := bind_ok_inv _ _ _ h
    obtain ⟨old, -, h⟩ := bind_ok_inv _ _ _ h
    obtain ⟨cc, -, h⟩ := bind_ok_inv _ _ _ h
    obtain ⟨new, -, h⟩ := bind_ok_inv _ _ _ h
    simp only [pure, Except.pure, Except.ok.injEq, Prod.mk.injEq] at h
    obtain ⟨rfl, rfl⟩ := h
    exact ⟨rfl, by simp [phaseRank], fun h => h⟩
  | counted sel cc new =>
    simp only [] at h
    split at h
    · split at h <;>
        (simp only [Except.ok.injEq, Prod.mk.injEq] at h
         obtain ⟨rfl, rfl⟩ := h
         exact ⟨rfl, by simp [phaseRank], fun h => h⟩)
    · simp only [Except.ok.injEq, Prod.mk.injEq] at h
      obtain ⟨rfl, rfl⟩ := h
      exact ⟨rfl, by simp [phaseRank], fun h => h⟩
  | needInsert sel cc new =>
    simp only [Except.ok.injEq, Prod.mk.injEq] at h
    obtain ⟨rfl, rfl⟩ := h
    exact ⟨rfl, by simp [phaseRank], fun h => h⟩
  | compare sel cc new =>
    simp only [] at h
    split at h <;>
      (simp only [Except.ok.injEq, Prod.mk.injEq] at h
       obtain ⟨rfl, rfl⟩ := h
       exact ⟨rfl, by simp [phaseRank], fun h => h⟩)
  | aspire sel cc new =>
    simp only [Except.ok.injEq, Prod.mk.injEq] at h
    obtain ⟨rfl, rfl⟩ := h
    refine ⟨(writeBest_fields _ _ _ _ _).2.2.2, by simp [phaseRank], ?_⟩
    intro hf
    unfold writeBest
    split
    · rfl
    · exact hf
  | tabuScan sel cc new =>
    simp only [] at h
    split at h <;>
      (simp only [Except.ok.injEq, Prod.mk.injEq] at h
       obtain ⟨rfl, rfl⟩ := h
       exact ⟨rfl, by simp [phaseRank], fun h => h⟩)
  | plain sel cc new =>
    simp only [Except.ok.injEq, Prod.mk.injEq] at h
    obtain ⟨rfl, rfl⟩ := h
    refine ⟨(writeBest_fields _ _ _ _ _).2.2.2, by simp [phaseRank], ?_⟩
    intro hf
    unfold writeBest
    split
    · rfl
    · exact hf
  | done =>
    simp only [Except.ok.injEq, Prod.mk.injEq] at h
    obtain ⟨rfl, rfl⟩ := h
    exact ⟨rfl, by simp [phaseRank], fun h => h⟩

theorem mapFind_insert_keys (C k : Nat) (v : Int) (A : List (Nat × Int))
    (h : mapFind (mapInsertIfAbsent C v A) k ≠ none) : k = C ∨ mapFind A k ≠ none := by
  by_cases hk : k = C
  · exact Or.inl hk
  · right
    unfold mapInsertIfAbsent at h
    split at h
    · rwa [mapFind_mapAssign_ne C k v hk] at h
    · exact h

theorem mapFind_assign_keys (C k : Nat) (v : Int) (A : List (Nat × Int))
    (h : mapFind (mapAssign C v A) k ≠ none) : k = C ∨ mapFind A k ≠ none := by
  by_cases hk : k = C
  · exact Or.inl hk
  · right
    rwa [mapFind_mapAssign_ne C k v hk] at h

/-- The consistency of the private variables and of the shared variables is kept by every
step of every trial. -/
theorem phaseStep_sharedOK (rng : Nat → Nat) (n : Nat) (K : Int)
    (adjacency_list : List (List Nat)) (cur : List Int) (candidates : List Nat) (C : Nat)
    (tabu0 : List Nat) (asp0 : List (Nat × Int))
    (p p1 : TrialPhase) (bs bs1 : BatchState)
    (hp : PhaseOK n adjacency_list C p) (hs : SharedOK n adjacency_list C tabu0 asp0 bs)
    (h : phaseStep rng n K adjacency_list cur candidates C p bs = .ok (p1, bs1)) :
    PhaseOK n adjacency_list C p1 ∧ SharedOK n adjacency_list C tabu0 asp0 bs1 := by
  unfold phaseStep at h
  cases p with
  | notStarted =>
    simp only [Except.ok.injEq, Prod.mk.injEq] at h
    obtain ⟨rfl, rfl⟩ := h
    refine ⟨?_, hs⟩
    split <;> trivial
  | started =>
    obtain ⟨idx, -, h⟩ := bind_ok_inv _ _ _ h
    obtain ⟨sel, -, h⟩ := bind_ok_inv _ _ _ h
    simp only [pure, Except.pure, Except.ok.injEq, Prod.mk.injEq] at h
    obtain ⟨rfl, rfl⟩ := h
    exact ⟨trivial, ⟨hs.best, hs.tabu, hs.keys⟩⟩
  | picked sel =>
    obtain ⟨drawn, -, h⟩ := bind_ok_inv _ _ _ h
    obtain ⟨recolored, -, h⟩ := bind_ok_inv _ _ _ h
    obtain ⟨old, -, h⟩ := bind_ok_inv _ _ _ h
    obtain ⟨cc, -, h⟩ := bind_ok_inv _ _ _ h
    obtain ⟨new, hnew, h⟩ := bind_ok_inv _ _ _ h
    simp only [pure, Except.pure, Except.ok.injEq, Prod.mk.injEq] at h
    obtain ⟨rfl, rfl⟩ := h
    exact ⟨hnew, ⟨hs.best, hs.tabu, hs.keys⟩⟩
  | counted sel cc new =>
    simp only [] at h
    split at h
    · rename_i hlt
      split at h <;>
        (simp only [Except.ok.injEq, Prod.mk.injEq] at h
         obtain ⟨rfl, rfl⟩ := h
         exact ⟨⟨hp, hlt⟩, hs⟩)
    · simp only [Except.ok.injEq, Prod.mk.injEq] at h
      obtain ⟨rfl, rfl⟩ := h
      exact ⟨trivial, hs⟩
  | needInsert sel cc new =>
    simp only [Except.ok.injEq, Prod.mk.injEq] at h
    obtain ⟨rfl, rfl⟩ := h
    refine ⟨hp, ⟨hs.best, hs.tabu, ?_⟩⟩
    intro k hk
    rcases mapFind_insert_keys C k _ _ hk with h1 | h1
    · exact Or.inl h1
    · exact hs.keys k h1
  | compare sel cc new =>
    simp only [] at h
    split at h <;>
      (simp only [Except.ok.injEq, Prod.mk.injEq] at h
       obtain ⟨rfl, rfl⟩ := h
       exact ⟨hp, hs⟩)
  | aspire sel cc new =>
    simp only [Except.ok.injEq, Prod.mk.injEq] at h
    obtain ⟨rfl, rfl⟩ := h
    rw [writeBest_improving C sel cc new _ hp.2]
    refine ⟨trivial, ⟨fun _ => ⟨new, hp.1, hp.2⟩, ?_, ?_⟩⟩
    · intro hf; cases hf
    · intro k hk
      rcases mapFind_assign_keys C k _ _ hk with h1 | h1
      · exact Or.inl h1
      · exact hs.keys k h1
  | tabuScan sel cc new =>
    simp only [] at h
    split at h <;>
      (simp only [Except.ok.injEq, Prod.mk.injEq] at h
       obtain ⟨rfl, rfl⟩ := h
       first
         | exact ⟨trivial, hs⟩
         | exact ⟨hp, hs⟩)
  | plain sel cc new =>
    simp only [Except.ok.injEq, Prod.mk.injEq] at h
    obtain ⟨rfl, rfl⟩ := h
    rw [writeBest_improving C sel cc new _ hp.2]
    refine ⟨trivial, ⟨fun _ => ⟨new, hp.1, hp.2⟩, ?_, hs.keys⟩⟩
    intro hf; cases hf
  | done =>
    simp only [Except.ok.injEq, Prod.mk.injEq] at h
    obtain ⟨rfl, rfl⟩ := h
    exact ⟨trivial, hs⟩

/-- The consistency of a batch state: every trial and the shared variables. -/
theorem ompStep_sharedOK (rng : Nat → Nat) (n : Nat) (K : Int)
    (adjacency_list : List (List Nat)) (cur : List Int) (candidates : List Nat) (C i : Nat)
    (tabu0 : List Nat) (asp0 : List (Nat × Int)) (bs bs1 : BatchState)
    (hp : ∀ p ∈ bs.phases, PhaseOK n adjacency_list C p)
    (hs : SharedOK n adjacency_list C tabu0 asp0 bs)
    (h : ompStep rng n K adjacency_list cur candidates C i bs = .ok bs1) :
    (∀ p ∈ bs1.phases, PhaseOK n adjacency_list C p) ∧
      SharedOK n adjacency_list C tabu0 asp0 bs1 := by
  cases hph : bs.phases[i]? with
  | none =>
    unfold ompStep at h
    rw [hph] at h
    injection h with h
    subst h
    exact ⟨hp, hs⟩
  | some p =>
    rw [ompStep_eq_phaseStep rng n K adjacency_list cur candidates C i bs p hph] at h
    obtain ⟨⟨p1, bs2⟩, hstep, h⟩ := bind_ok_inv _ _ _ h
    injection h with h
    subst h
    obtain ⟨hp1, hs1⟩ := phaseStep_sharedOK rng n K adjacency_list cur candidates C tabu0 asp0
      p p1 bs bs2 (hp p (List.getElem?_mem hph)) hs hstep
    obtain ⟨hphases, -, -⟩ := phaseStep_frame rng n K adjacency_list cur candidates C
      p p1 bs bs2 hstep
    refine ⟨?_, ⟨hs1.best, hs1.tabu, hs1.keys⟩⟩
    intro q hq
    simp only [BatchState.advance, hphases] at hq
    rcases List.mem_or_eq_of_mem_set hq with hq | rfl
    · exact hp q hq
    · exact hp1

theorem ompRun_sharedOK (rng : Nat → Nat) (n : Nat) (K : Int)
    (adjacency_list : List (List Nat)) (cur : List Int) (candidates : List Nat) (C : Nat)
    (tabu0 : List Nat) (asp0 : List (Nat × Int)) :
    ∀ (schedule : List Nat) (bs bs1 : BatchState),
      (∀ p ∈ bs.phases, PhaseOK n adjacency_list C p) →
      SharedOK n adjacency_list C tabu0 asp0 bs →
      ompRun rng n K adjacency_list cur candidates C schedule bs = .ok bs1 →
      (∀ p ∈ bs1.phases, PhaseOK n adjacency_list C p) ∧
        SharedOK n adjacency_list C tabu0 asp0 bs1 := by
  intro schedule
  induction schedule with
  | nil =>
    intro bs bs1 hp hs h
    simp only [ompRun] at h
    injection h with h
    subst h
    exact ⟨hp, hs⟩
  | cons i rest ih =>
    intro bs bs1 hp hs h
    simp only [ompRun] at h
    obtain ⟨mid, hstep, h⟩ := bind_ok_inv _ _ _ h
    obtain ⟨hp1, hs1⟩ := ompStep_sharedOK rng n K adjacency_list cur candidates C i tabu0 asp0
      bs mid hp hs hstep
    exact ih mid bs1 hp1 hs1 h

/-! ## The batch one trial at a time in index order -/

/-- A trial of the parallel batch run on its own to its end does to the shared variables what
the trial of the sequential routine does from the same tabu list, table and draw position; its
break flag is the flag `found_better_solution`, its trial colouring and vertex the best
slot. -/
theorem phaseRun_trial (rng : Nat → Nat) (n : Nat) (K : Int)
    (adjacency_list : List (List Nat)) (candidates : List Nat) (C : Nat)
    (s s1 : SearchState) (stop : Bool) (bs : BatchState)
    (htrial : trial rng n K adjacency_list candidates C s = .ok (stop, s1))
    (htabu : bs.tabu_list = s.tabu_list) (hasp : bs.aspiration_criteria = s.aspiration_criteria)
    (hdraws : bs.draws = s.draws) (hfound : bs.found_better_solution = false) :
    phaseRun rng n K adjacency_list s.current_colors candidates C stepsPerTrial .notStarted bs
      = .ok (.done,
        { bs with
          tabu_list := s1.tabu_list
          aspiration_criteria := s1.aspiration_criteria
          draws := s1.draws
          found_better_solution := stop
          best_candidate_colors :=
            if stop then s1.candidate_colors else bs.best_candidate_colors
          best_selected_candidate :=
            if stop then (s1.selected_candidate : Int) else bs.best_selected_candidate }) := by
  obtain ⟨idx, sel, drawn, recolored, old, cc, C', h1, h2, h3, h4, h5, h6, h7, hstop, hst⟩ :=
    trial_inv rng n K adjacency_list candidates C s s1 stop htrial
  subst hst
  subst hstop
  rw [← hdraws] at h1 h3
  obtain ⟨tabu, asp, found, best, bestsel, draws, phases⟩ := bs
  simp only [] at htabu hasp hdraws hfound h1 h3
  subst htabu hasp hfound
  have h3' : intMod (rng (draws + 1) : Nat) (K - 1) = .ok drawn := h3
  simp only [stepsPerTrial, phaseRun, phaseStep, bind, Except.bind, pure, Except.pure,
    Bool.false_eq_true, if_false, h1, h2, h3', h4, h5, h6, h7]
  by_cases hlt : C' < C
  · by_cases hfind : mapFind s.aspiration_criteria C = none
    · by_cases hcmp : (C' : Int) ≤
          mapAt (mapInsertIfAbsent C ((C : Int) - 1) s.aspiration_criteria) C
      · simp [acceptance, hlt, hfind, hcmp, writeBest, hdraws]
      · by_cases hmem : sel ∈ s.tabu_list
        · simp [acceptance, hlt, hfind, hcmp, hmem, writeBest, hdraws]
        · simp [acceptance, hlt, hfind, hcmp, hmem, writeBest, hdraws]
    · have hcr : mapInsertIfAbsent C ((C : Int) - 1) s.aspiration_criteria
          = s.aspiration_criteria := by simp [mapInsertIfAbsent, hfind]
      by_cases hcmp : (C' : Int) ≤ mapAt s.aspiration_criteria C
      · simp [acceptance, hlt, hfind, hcmp, writeBest, hdraws, hcr]
      · by_cases hmem : sel ∈ s.tabu_list
        · simp [acceptance, hlt, hfind, hcmp, hmem, writeBest, hdraws, hcr]
        · simp [acceptance, hlt, hfind, hcmp, hmem, writeBest, hdraws, hcr]
  · simp [acceptance, hlt, hdraws]

theorem set_getElem_same {α : Type} (l : List α) (i : Nat) (h : i < l.length) :
    l.set i l[i] = l := by
  apply List.ext_getElem (by simp)
  intro j h1 h2
  rw [List.getElem_set]
  split
  · rename_i hij
    subst hij
    rfl
  · rfl

theorem phaseStep_phases (rng : Nat → Nat) (n : Nat) (K : Int)
    (adjacency_list : List (List Nat)) (cur : List Int) (candidates : List Nat) (C : Nat)
    (p : TrialPhase) (bs : BatchState) (ph : List TrialPhase) :
    phaseStep rng n K adjacency_list cur candidates C p { bs with phases := ph }
      = (phaseStep rng n K adjacency_list cur candidates C p bs >>= fun r =>
          .ok (r.1, { r.2 with phases := ph })) := by
  unfold phaseStep
  cases p with
  | notStarted => rfl
  | started =>
    simp only [bind, Except.bind, pure, Except.pure]
    cases sizeMod (rng bs.draws) candidates.length with
    | error e => rfl
    | ok idx =>
      simp only []
      cases vecAt candidates idx with
      | error e => rfl
      | ok sel => rfl
  | picked sel =>
    simp only [bind, Except.bind, pure, Except.pure]
    cases intMod (rng bs.draws : Nat) (K - 1) with
    | error e => rfl
    | ok drawn =>
      simp only []
      cases vecSet cur sel drawn with
      | error e => rfl
      | ok recolored =>
        simp only []
        cases vecAt cur sel with
        | error e => rfl
        | ok old =>
          simp only []
          cases forceChange K recolored sel drawn old with
          | error e => rfl
          | ok cc =>
            simp only []
            cases countConflicts n adjacency_list cc with
            | error e => rfl
            | ok new => rfl
  | counted sel cc new =>
    simp only [bind, Except.bind]
    split
    · split <;> rfl
    · rfl
  | needInsert sel cc new => rfl
  | compare sel cc new =>
    simp only [bind, Except.bind]
    split <;> rfl
  | aspire sel cc new =>
    simp only [bind, Except.bind, writeBest]
    split <;> rfl
  | tabuScan sel cc new =>
    simp only [bind, Except.bind]
    split <;> rfl
  | plain sel cc new =>
    simp only [bind, Except.bind, writeBest]
    split <;> rfl
  | done => rfl

theorem phaseRun_phases (rng : Nat → Nat) (n : Nat) (K : Int)
    (adjacency_list : List (List Nat)) (cur : List Int) (candidates : List Nat) (C : Nat)
    (ph : List TrialPhase) :
    ∀ (k : Nat) (p : TrialPhase) (bs : BatchState),
      phaseRun rng n K adjacency_list cur candidates C k p { bs with phases := ph }
        = (phaseRun rng n K adjacency_list cur candidates C k p bs >>= fun r =>
            .ok (r.1, { r.2 with phases := ph })) := by
  intro k
  induction k with
  | zero => intro p bs; rfl
  | succ k ih =>
    intro p bs
    simp only [phaseRun]
    rw [phaseStep_phases]
    cases phaseStep rng n K adjacency_list cur candidates C p bs with
    | error e => rfl
    | ok r =>
      obtain ⟨p1, bs1⟩ := r
      simp only [bind, Except.bind]
      have := ih p1 bs1
      simp only [bind, Except.bind] at this
      exact this

/-- Consecutive steps of one trial of the batch are the steps of `phaseRun`. -/
theorem ompRun_replicate (rng : Nat → Nat) (n : Nat) (K : Int)
    (adjacency_list : List (List Nat)) (cur : List Int) (candidates : List Nat) (C i : Nat) :
    ∀ (k : Nat) (p : TrialPhase) (bs : BatchState), bs.phases[i]? = some p →
      ompRun rng n K adjacency_list cur candidates C (List.replicate k i) bs
        = (phaseRun rng n K adjacency_list cur candidates C k p bs >>= fun r =>
            .ok { r.2 with phases := bs.phases.set i r.1 }) := by
  intro k
  induction k with
  | zero =>
    intro p bs hp
    simp only [List.replicate, ompRun, phaseRun, bind, Except.bind]
    have hi : i < bs.phases.length := by
      by_contra hlt
      rw [List.getElem?_eq_none (by omega)] at hp
      cases hp
    have hget : bs.phases[i] = p := by
      rw [List.getElem?_eq_getElem hi] at hp
      injection hp
    rw [← hget, set_getElem_same _ _ hi]
  | succ k ih =>
    intro p bs hp
    have hi : i < bs.phases.length := by
      by_contra hlt
      rw [List.getElem?_eq_none (by omega)] at hp
      cases hp
    simp only [List.replicate, ompRun, phaseRun]
    rw [ompStep_eq_phaseStep rng n K adjacency_list cur candidates C i bs p hp]
    cases hstep : phaseStep rng n K adjacency_list cur candidates C p bs with
    | error e => rfl
    | ok r =>
      obtain ⟨p1, bs1⟩ := r
      have hph : bs1.phases = bs.phases :=
        (phaseStep_frame rng n K adjacency_list cur candidates C p p1 bs bs1 hstep).1
      simp only [bind, Except.bind]
      have hp1 : (bs1.advance i p1).phases[i]? = some p1 :=
        advance_phase bs1 i p1 (by rw [hph]; exact hi)
      have := ih p1 (bs1.advance i p1) hp1
      simp only [bind, Except.bind] at this
      rw [this]
      have hadv : bs1.advance i p1 = { bs1 with phases := bs.phases.set i p1 } := by
        simp [BatchState.advance, hph]
      rw [hadv, phaseRun_phases]
      cases phaseRun rng n K adjacency_list cur candidates C k p1 bs1 with
      | error e => rfl
      | ok r2 =>
        simp only [bind, Except.bind, List.set_set]

theorem phaseRun_done (rng : Nat → Nat) (n : Nat) (K : Int)
    (adjacency_list : List (List Nat)) (cur : List Int) (candidates : List Nat) (C : Nat)
    (bs : BatchState) :
    ∀ k, phaseRun rng n K adjacency_list cur candidates C k .done bs = .ok (.done, bs) := by
  intro k
  induction k with
  | zero => rfl
  | succ k ih =>
    simp only [phaseRun, phaseStep, bind, Except.bind]
    exact ih

/-- A trial that finds the flag set does nothing. -/
theorem phaseRun_skip (rng : Nat → Nat) (n : Nat) (K : Int)
    (adjacency_list : List (List Nat)) (cur : List Int) (candidates : List Nat) (C : Nat)
    (bs : BatchState) (hfound : bs.found_better_solution = true) (k : Nat) :
    phaseRun rng n K adjacency_list cur candidates C (k + 1) .notStarted bs
      = .ok (.done, bs) := by
  simp only [phaseRun, phaseStep, bind, Except.bind, hfound, if_true]
  exact phaseRun_done rng n K adjacency_list cur candidates C bs k

theorem inOrder_succ (m : Nat) :
    inOrder (m + 1) = inOrder m ++ List.replicate stepsPerTrial m := by
  simp [inOrder, List.range_succ, List.flatMap_append]

theorem inOrder_step (rng : Nat → Nat) (n : Nat) (K : Int) (adjacency_list : List (List Nat))
    (cur : List Int) (candidates : List Nat) (C m : Nat) (bs0 bs : BatchState)
    (h : ompRun rng n K adjacency_list cur candidates C (inOrder m) bs0 = .ok bs) :
    ompRun rng n K adjacency_list cur candidates C (inOrder (m + 1)) bs0
      = ompRun rng n K adjacency_list cur candidates C (List.replicate stepsPerTrial m) bs := by
  rw [inOrder_succ, ompRun_append, h]
  rfl

theorem states_colors (rng : Nat → Nat) (n : Nat) (K : Int) (adjacency_list : List (List Nat))
    (candidates : List Nat) (C : Nat) (states : Nat → SearchState) :
    ∀ m, (∀ j, j < m → ∃ stop, trial rng n K adjacency_list candidates C (states j)
        = .ok (stop, states (j + 1))) →
      (states m).current_colors = (states 0).current_colors := by
  intro m
  induction m with
  | zero => intro _; rfl
  | succ m ih =>
    intro h
    obtain ⟨stop, hm⟩ := h m (by omega)
    rw [(trial_frame rng n K adjacency_list candidates C _ _ stop hm).1.colors]
    exact ih (fun j hj => h j (by omega))

/-- The batch in index order while every trial is rejected: the shared variables follow the
states of the sequential trial loop. -/
theorem inOrder_rejected (rng : Nat → Nat) (n : Nat) (K : Int)
    (adjacency_list : List (List Nat)) (candidates : List Nat) (C : Nat)
    (states : Nat → SearchState) (bs0 : BatchState) (reps : Nat)
    (hlen : bs0.phases.length = reps)
    (hns : ∀ j, j < reps → bs0.phases[j]? = some .notStarted)
    (hfound : bs0.found_better_solution = false)
    (htabu : bs0.tabu_list = (states 0).tabu_list)
    (hasp : bs0.aspiration_criteria = (states 0).aspiration_criteria)
    (hdraws : bs0.draws = (states 0).draws) :
    ∀ m, m ≤ reps →
      (∀ j, j < m → trial rng n K adjacency_list candidates C (states j)
        = .ok (false, states (j + 1))) →
      ∃ bs, ompRun rng n K adjacency_list (states 0).current_colors candidates C
          (inOrder m) bs0 = .ok bs ∧
        bs.tabu_list = (states m).tabu_list ∧
        bs.aspiration_criteria = (states m).aspiration_criteria ∧
        bs.draws = (states m).draws ∧ bs.found_better_solution = false ∧
        bs.best_candidate_colors = bs0.best_candidate_colors ∧
        bs.best_selected_candidate = bs0.best_selected_candidate ∧
        bs.phases.length = reps ∧
        ∀ j, m ≤ j → j < reps → bs.phases[j]? = some .notStarted := by
  intro m
  induction m with
  | zero =>
    intro _ _
    exact ⟨bs0, rfl, htabu, hasp, hdraws, hfound, rfl, rfl, hlen, fun j _ hj => hns j hj⟩
  | succ m ih =>
    intro hm hrej
    obtain ⟨bs, hrun, h1, h2, h3, h4, h5, h6, h7, h8⟩ :=
      ih (by omega) (fun j hj => hrej j (by omega))
    have hcol : (states m).current_colors = (states 0).current_colors :=
      states_colors rng n K adjacency_list candidates C states m
        (fun j hj => ⟨false, hrej j (by omega)⟩)
    have htrial := phaseRun_trial rng n K adjacency_list candidates C (states m)
      (states (m + 1)) false bs (hrej m (by omega)) h1 h2 h3 h4
    rw [hcol] at htrial
    rw [inOrder_step rng n K adjacency_list _ candidates C m bs0 bs hrun,
      ompRun_replicate rng n K adjacency_list _ candidates C m stepsPerTrial .notStarted bs
        (h8 m (by omega) (by omega)), htrial]
    refine ⟨_, rfl, rfl, rfl, rfl, rfl, ?_, ?_, ?_, ?_⟩
    · simpa using h5
    · simpa using h6
    · simpa using h7
    · intro j hj hjr
      simp only []
      rw [List.getElem?_set_ne (by omega)]
      exact h8 j (by omega) hjr

/-- The batch in index order up to and including the first accepted trial. -/
theorem inOrder_accepted (rng : Nat → Nat) (n : Nat) (K : Int)
    (adjacency_list : List (List Nat)) (candidates : List Nat) (C : Nat)
    (states : Nat → SearchState) (bs0 : BatchState) (reps : Nat)
    (hlen : bs0.phases.length = reps)
    (hns : ∀ j, j < reps → bs0.phases[j]? = some .notStarted)
    (hfound : bs0.found_better_solution = false)
    (htabu : bs0.tabu_list = (states 0).tabu_list)
    (hasp : bs0.aspiration_criteria = (states 0).aspiration_criteria)
    (hdraws : bs0.draws = (states 0).draws)
    (k : Nat) (hk : k < reps)
    (hrej : ∀ j, j < k → trial rng n K adjacency_list candidates C (states j)
      = .ok (false, states (j + 1)))
    (hacc : trial rng n K adjacency_list candidates C (states k)
      = .ok (true, states (k + 1))) :
    ∃ bs, ompRun rng n K adjacency_list (states 0).current_colors candidates C
        (inOrder (k + 1)) bs0 = .ok bs ∧
      bs.tabu_list = (states (k + 1)).tabu_list ∧
      bs.aspiration_criteria = (states (k + 1)).aspiration_criteria ∧
      bs.draws = (states (k + 1)).draws ∧ bs.found_better_solution = true ∧
      bs.best_candidate_colors = (states (k + 1)).candidate_colors ∧
      bs.best_selected_candidate = ((states (k + 1)).selected_candidate : Int) ∧
      bs.phases.length = reps ∧
      ∀ j, k + 1 ≤ j → j < reps → bs.phases[j]? = some .notStarted := by
  obtain ⟨bs, hrun, h1, h2, h3, h4, -, -, h7, h8⟩ :=
    inOrder_rejected rng n K adjacency_list candidates C states bs0 reps hlen hns hfound
      htabu hasp hdraws k (by omega) hrej
  have hcol : (states k).current_colors = (states 0).current_colors :=
    states_colors rng n K adjacency_list candidates C states k
      (fun j hj => ⟨false, hrej j hj⟩)
  have htrial := phaseRun_trial rng n K adjacency_list candidates C (states k)
    (states (k + 1)) true bs hacc h1 h2 h3 h4
  rw [hcol] at htrial
  rw [inOrder_step rng n K adjacency_list _ candidates C k bs0 bs hrun,
    ompRun_replicate rng n K adjacency_list _ candidates C k stepsPerTrial .notStarted bs
      (h8 k (by omega) hk), htrial]
  refine ⟨_, rfl, rfl, rfl, rfl, rfl, rfl, rfl, ?_, ?_⟩
  · simpa using h7
  · intro j hj hjr
    simp only []
    rw [List.getElem?_set_ne (by omega)]
    exact h8 j (by omega) hjr

/-- Once the flag is set the remaining trials of the batch in index order change nothing but
their own phase. -/
theorem inOrder_skipped (rng : Nat → Nat) (n : Nat) (K : Int)
    (adjacency_list : List (List Nat)) (cur : List Int) (candidates : List Nat) (C : Nat)
    (bs0 bs : BatchState) (reps m : Nat)
    (hrun : ompRun rng n K adjacency_list cur candidates C (inOrder m) bs0 = .ok bs)
    (hfound : bs.found_better_solution = true) (hlen : bs.phases.length = reps)
    (hns : ∀ j, m ≤ j → j < reps → bs.phases[j]? = some .notStarted) :
    ∀ d, m + d ≤ reps →
      ∃ bs1, ompRun rng n K adjacency_list cur candidates C (inOrder (m + d)) bs0 = .ok bs1 ∧
        bs1 = { bs with phases := bs1.phases } ∧ bs1.phases.length = reps ∧
        ∀ j, m + d ≤ j → j < reps → bs1.phases[j]? = some .notStarted := by
  intro d
  induction d with
  | zero => intro _; exact ⟨bs, hrun, rfl, hlen, hns⟩
  | succ d ih =>
    intro hd
    obtain ⟨bs1, hrun1, heq, hlen1, hns1⟩ := ih (by omega)
    have hf1 : bs1.found_better_solution = true := by rw [heq]; exact hfound
    rw [show m + (d + 1) = (m + d) + 1 by omega,
      inOrder_step rng n K adjacency_list cur candidates C (m + d) bs0 bs1 hrun1,
      ompRun_replicate rng n K adjacency_list cur candidates C (m + d) stepsPerTrial
        .notStarted bs1 (hns1 (m + d) (by omega) (by omega))]
    have hskip := phaseRun_skip rng n K adjacency_list cur candidates C bs1 hf1 7
    rw [show stepsPerTrial = 7 + 1 from rfl, hskip]
    refine ⟨_, rfl, ?_, ?_, ?_⟩
    · simp only [bind, Except.bind]
      rw [heq]
    · simpa using hlen1
    · intro j hj hjr
      simp only []
      rw [List.getElem?_set_ne (by omega)]
      exact hns1 j (by omega) hjr

theorem replicate_notStarted (reps j : Nat) (hj : j < reps) :
    (List.replicate reps TrialPhase.notStarted)[j]? = some .notStarted := by
  simp [List.getElem?_replicate, hj]

/-- The batch in index order when every trial of the sequential loop is rejected. -/
theorem ompBatch_rejected (rng : Nat → Nat) (n : Nat) (K : Int)
    (adjacency_list : List (List Nat)) (candidates : List Nat) (C : Nat)
    (states : Nat → SearchState) (st : SearchState)
    (hcur : st.current_colors = (states 0).current_colors)
    (htabu : st.tabu_list = (states 0).tabu_list)
    (hasp : st.aspiration_criteria = (states 0).aspiration_criteria)
    (hdraws : st.draws = (states 0).draws)
    (hrej : ∀ j, j < neighbor_reps → trial rng n K adjacency_list candidates C (states j)
      = .ok (false, states (j + 1))) :
    ∃ bs, ompBatch rng n K adjacency_list candidates C [] st = .ok bs ∧
      bs.tabu_list = (states neighbor_reps).tabu_list ∧
      bs.aspiration_criteria = (states neighbor_reps).aspiration_criteria ∧
      bs.draws = (states neighbor_reps).draws ∧ bs.found_better_solution = false := by
  obtain ⟨bs, hrun, h1, h2, h3, h4, -, -, -, -⟩ :=
    inOrder_rejected rng n K adjacency_list candidates C states
      { tabu_list := st.tabu_list
        aspiration_criteria := st.aspiration_criteria
        found_better_solution := false
        best_candidate_colors := []
        best_selected_candidate := -1
        draws := st.draws
        phases := List.replicate neighbor_reps .notStarted }
      neighbor_reps (by simp) (fun j hj => replicate_notStarted neighbor_reps j hj) rfl
      htabu hasp hdraws neighbor_reps (Nat.le_refl _) hrej
  refine ⟨bs, ?_, h1, h2, h3, h4⟩
  unfold ompBatch
  rw [List.nil_append, hcur]
  exact hrun

/-- The batch in index order when trial `k` is the first one the sequential loop accepts. -/
theorem ompBatch_accepted (rng : Nat → Nat) (n : Nat) (K : Int)
    (adjacency_list : List (List Nat)) (candidates : List Nat) (C : Nat)
    (states : Nat → SearchState) (st : SearchState)
    (hcur : st.current_colors = (states 0).current_colors)
    (htabu : st.tabu_list = (states 0).tabu_list)
    (hasp : st.aspiration_criteria = (states 0).aspiration_criteria)
    (hdraws : st.draws = (states 0).draws)
    (k : Nat) (hk : k < neighbor_reps)
    (hrej : ∀ j, j < k → trial rng n K adjacency_list candidates C (states j)
      = .ok (false, states (j + 1)))
    (hacc : trial rng n K adjacency_list candidates C (states k)
      = .ok (true, states (k + 1))) :
    ∃ bs, ompBatch rng n K adjacency_list candidates C [] st = .ok bs ∧
      bs.tabu_list = (states (k + 1)).tabu_list ∧
      bs.aspiration_criteria = (states (k + 1)).aspiration_criteria ∧
      bs.draws = (states (k + 1)).draws ∧ bs.found_better_solution = true ∧
      bs.best_candidate_colors = (states (k + 1)).candidate_colors ∧
      bs.best_selected_candidate = ((states (k + 1)).selected_candidate : Int) := by
  obtain ⟨bs, hrun, h1, h2, h3, h4, h5, h6, h7, h8⟩ :=
    inOrder_accepted rng n K adjacency_list candidates C states
      { tabu_list := st.tabu_list
        aspiration_criteria := st.aspiration_criteria
        found_better_solution := false
        best_candidate_colors := []
        best_selected_candidate := -1
        draws := st.draws
        phases := List.replicate neighbor_reps .notStarted }
      neighbor_reps (by simp) (fun j hj => replicate_notStarted neighbor_reps j hj) rfl
      htabu hasp hdraws k hk hrej hacc
  obtain ⟨bs1, hrun1, heq, -, -⟩ :=
    inOrder_skipped rng n K adjacency_list _ candidates C _ bs neighbor_reps (k + 1) hrun h4
      h7 h8 (neighbor_reps - (k + 1)) (by omega)
  rw [show k + 1 + (neighbor_reps - (k + 1)) = neighbor_reps by omega] at hrun1
  refine ⟨bs1, ?_, ?_, ?_, ?_, ?_, ?_, ?_⟩
  · unfold ompBatch
    rw [List.nil_append, hcur]
    exact hrun1
  · rw [heq]; exact h1
  · rw [heq]; exact h2
  · rw [heq]; exact h3
  · rw [heq]; exact h4
  · rw [heq]; exact h5
  · rw [heq]; exact h6

/-- The sequential trial loop leaves at the first accepted trial. -/
theorem trialLoop_accepted (rng : Nat → Nat) (n : Nat) (K : Int)
    (adjacency_list : List (List Nat)) (candidates : List Nat) (C : Nat) :
    ∀ (k reps : Nat) (states : Nat → SearchState), k < reps →
      (∀ j, j < k → trial rng n K adjacency_list candidates C (states j)
        = .ok (false, states (j + 1))) →
      trial rng n K adjacency_list candidates C (states k) = .ok (true, states (k + 1)) →
      trialLoop rng n K adjacency_list candidates C reps (states 0)
        = .ok (states (k + 1)) := by
  intro k
  induction k with
  | zero =>
    intro reps states hk _ hacc
    obtain ⟨r, rfl⟩ : ∃ r, reps = r + 1 := ⟨reps - 1, by omega⟩
    rw [trialLoop, hacc]
    rfl
  | succ k ih =>
    intro reps states hk hrej hacc
    obtain ⟨r, rfl⟩ : ∃ r, reps = r + 1 := ⟨reps - 1, by omega⟩
    rw [trialLoop, hrej 0 (by omega)]
    simp only [bind, Except.bind, Bool.false_eq_true, if_false]
    exact ih r (fun j => states (j + 1)) (by omega)
      (fun j hj => hrej (j + 1) (by omega)) hacc

theorem ompIteration_some_intro (rng : Nat → Nat) (n : Nat) (K : Int)
    (adjacency_list : List (List Nat)) (schedule : List Nat) (st : SearchState)
    (candidates : List Nat) (C : Nat) (bs : BatchState)
    (hev : evaluate n adjacency_list st.current_colors = .ok (candidates, C)) (hC : C ≠ 0)
    (hbatch : ompBatch rng n K adjacency_list candidates C schedule
      { st with solutions_checked := st.solutions_checked + 1 } = .ok bs) :
    ompIteration rng n K adjacency_list schedule st
      = .ok (some (ompCommit { st with solutions_checked := st.solutions_checked + 1 } bs)) := by
  unfold ompIteration
  rw [hev]
  show (if C = 0 then _ else _) = _
  rw [if_neg hC]
  show (ompBatch rng n K adjacency_list candidates C schedule _ >>= _) = _
  rw [hbatch]
  rfl

/-! ## Agreement of the two strategies -/

/-- C17: when the trials of the batch of `tabu_search_omp` run one at a time in index order
(the empty schedule) and the two strategies enter an outer iteration with the same current
colouring, tabu list, aspiration table and position in the sequence of draws, then in an outer
iteration in which the sequential trial loop rejects the trials before trial `k` and accepts
trial `k` (by aspiration or plainly), both iterations succeed and end with the same current
colouring (the colouring of trial `k`), the same tabu list, the same aspiration table and
the same position in the sequence of draws. -/
theorem sequential_parallel_agreement (rng : Nat → Nat) (n : Nat) (K : Int)
    (adjacency_list : List (List Nat)) (st_seq st_par : SearchState)
    (candidates : List Nat) (C : Nat) (states : Nat → SearchState) (k : Nat)
    (hcur : st_par.current_colors = st_seq.current_colors)
    (htabu : st_par.tabu_list = st_seq.tabu_list)
    (hasp : st_par.aspiration_criteria = st_seq.aspiration_criteria)
    (hdraws : st_par.draws = st_seq.draws)
    (hev : evaluate n adjacency_list st_seq.current_colors = .ok (candidates, C))
    (hC : C ≠ 0)
    (h0 : states 0 = { st_seq with solutions_checked := st_seq.solutions_checked + 1 })
    (hk : k < 700)
    (hrej : ∀ j, j < k → trial rng n K adjacency_list candidates C (states j)
      = .ok (false, states (j + 1)))
    (hacc : trial rng n K adjacency_list candidates C (states k)
      = .ok (true, states (k + 1))) :
    ∃ s1 s2, iteration rng n K adjacency_list st_seq = .ok (some s1) ∧
      ompIteration rng n K adjacency_list [] st_par = .ok (some s2) ∧
      s1.current_colors = (states (k + 1)).candidate_colors ∧
      s2.current_colors = s1.current_colors ∧ s2.tabu_list = s1.tabu_list ∧
      s2.aspiration_criteria = s1.aspiration_criteria ∧ s2.draws = s1.draws := by
  have hloop := trialLoop_accepted rng n K adjacency_list candidates C k neighbor_reps states
    hk hrej hacc
  have hs0 : (states 0).current_colors = st_seq.current_colors := by rw [h0]
  have ht0 : (states 0).tabu_list = st_seq.tabu_list := by rw [h0]
  have ha0 : (states 0).aspiration_criteria = st_seq.aspiration_criteria := by rw [h0]
  have hd0 : (states 0).draws = st_seq.draws := by rw [h0]
  obtain ⟨bs, hbatch, h1, h2, h3, h4, h5, h6⟩ :=
    ompBatch_accepted rng n K adjacency_list candidates C states
      { st_par with solutions_checked := st_par.solutions_checked + 1 }
      (by rw [hs0]; exact hcur) (by rw [ht0]; exact htabu) (by rw [ha0]; exact hasp)
      (by rw [hd0]; exact hdraws) k hk hrej hacc
  refine ⟨commit (states (k + 1)),
    ompCommit { st_par with solutions_checked := st_par.solutions_checked + 1 } bs,
    ?_, ?_, rfl, ?_, ?_, ?_, ?_⟩
  · unfold iteration
    rw [hev]
    simp only [bind, Except.bind, hC, if_false]
    rw [← h0, hloop]
    rfl
  · exact ompIteration_some_intro rng n K adjacency_list [] st_par candidates C bs
      (by rw [hcur]; exact hev) hC hbatch
  · simp only [ompCommit, commit, h4, if_true, h5]
  · simp only [ompCommit, commit, h4, if_true, h1, h6, Int.toNat_ofNat]
  · simp only [ompCommit, commit, h2]
  · simp only [ompCommit, commit, h3]

theorem sequential_parallel_agreement_witness :
    evaluate 3 [[1], [0, 2], [1]] [1, 1, 1] = .ok ([0, 1, 2], 2) ∧
    ∃ s1 s2,
      iteration (fun _ => 1) 3 2 [[1], [0, 2], [1]]
        { max_iterations := 5000, solutions_checked := 0, tabu_list := [],
          aspiration_criteria := [], current_colors := [1, 1, 1], candidate_colors := [],
          selected_candidate := 0, draws := 3 } = .ok (some s1) ∧
      ompIteration (fun _ => 1) 3 2 [[1], [0, 2], [1]] []
        { max_iterations := 5000, solutions_checked := 0, tabu_list := [],
          aspiration_criteria := [], current_colors := [1, 1, 1],
          candidate_colors := [0, 0, 0], selected_candidate := 0, draws := 3 }
        = .ok (some s2) ∧
      s1.current_colors = [1, 0, 1] ∧
      s2.current_colors = s1.current_colors ∧ s2.tabu_list = s1.tabu_list ∧
      s2.aspiration_criteria = s1.aspiration_criteria ∧ s2.draws = s1.draws :=
  ⟨rfl, sequential_parallel_agreement (fun _ => 1) 3 2 [[1], [0, 2], [1]]
    { max_iterations := 5000, solutions_checked := 0, tabu_list := [],
      aspiration_criteria := [], current_colors := [1, 1, 1], candidate_colors := [],
      selected_candidate := 0, draws := 3 }
    { max_iterations := 5000, solutions_checked := 0, tabu_list := [],
      aspiration_criteria := [], current_colors := [1, 1, 1],
      candidate_colors := [0, 0, 0], selected_candidate := 0, draws := 3 }
    [0, 1, 2] 2
    (fun j =>
      if j = 0 then
        { max_iterations := 5000, solutions_checked := 1, tabu_list := [],
          aspiration_criteria := [], current_colors := [1, 1, 1], candidate_colors := [],
          selected_candidate := 0, draws := 3 }
      else
        { max_iterations := 5000, solutions_checked := 1, tabu_list := [],
          aspiration_criteria := [(2, -1)], current_colors := [1, 1, 1],
          candidate_colors := [1, 0, 1], selected_candidate := 1, draws := 5 })
    0 rfl rfl rfl rfl rfl (by decide) rfl (by decide)
    (fun j hj => absurd hj (Nat.not_lt_zero j)) rfl⟩

/-! ## Stagnation of the parallel strategy -/

/-- At the end of a batch under any schedule: the best slot, when written, holds a colouring
with fewer conflicts than the current one; the tabu list is the one of the start unless the
flag is set; the table has gained at most the key `C`. -/
theorem ompBatch_sharedOK (rng : Nat → Nat) (n : Nat) (K : Int)
    (adjacency_list : List (List Nat)) (candidates : List Nat) (C : Nat)
    (schedule : List Nat) (st : SearchState) (bs : BatchState)
    (h : ompBatch rng n K adjacency_list candidates C schedule st = .ok bs) :
    SharedOK n adjacency_list C st.tabu_list st.aspiration_criteria bs := by
  unfold ompBatch at h
  refine (ompRun_sharedOK rng n K adjacency_list st.current_colors candidates C
    st.tabu_list st.aspiration_criteria _ _ bs ?_ ?_ h).2
  · intro p hp
    rw [List.eq_of_mem_replicate hp]
    trivial
  · exact ⟨fun hf => (by cases hf), fun _ => rfl, fun k hk => Or.inr hk⟩

/-- The counter `max_iterations` and the number of iterations entered add up to the budget. -/
theorem ompSearchLoop_budget (rng : Nat → Nat) (n : Nat) (K : Int)
    (adjacency_list : List (List Nat)) (schedules : Nat → List Nat) :
    ∀ (budget : Nat) (st st1 : SearchState),
      ompSearchLoop rng n K adjacency_list schedules budget st = .ok st1 →
      st.max_iterations = budget →
      st1.max_iterations + st1.solutions_checked = st.max_iterations + st.solutions_checked := by
  intro budget
  induction budget with
  | zero =>
    intro st st1 h _
    simp only [ompSearchLoop] at h
    injection h with h
    subst h
    rfl
  | succ budget ih =>
    intro st st1 h hm
    rw [ompSearchLoop] at h
    obtain ⟨r, hit, h⟩ := bind_ok_inv _ _ _ h
    cases r with
    | none =>
      simp only [pure, Except.pure] at h
      injection h with h
      subst h
      rfl
    | some mid =>
      simp only [] at h
      obtain ⟨candidates, C, bs, -, -, -, rfl⟩ :=
        ompIteration_some_inv rng n K adjacency_list _ st mid hit
      have := ih _ st1 h (by simp only [ompCommit]; omega)
      rw [this]
      simp only [ompCommit]
      omega

/-- C16: in an outer iteration of `tabu_search_omp` whose batch, under any schedule of the
trial steps, ends with the flag `found_better_solution` unset, the iteration succeeds and
leaves the current colouring and the tabu list as they were, while `max_iterations` goes down
by one; and under any schedules the run enters at most 5000 outer iterations, the counter and
the number of iterations entered adding up to 5000. -/
theorem omp_stagnation :
    (∀ (rng : Nat → Nat) (n : Nat) (K : Int) (adjacency_list : List (List Nat))
      (schedule : List Nat) (st : SearchState) (candidates : List Nat) (C : Nat)
      (bs : BatchState),
      evaluate n adjacency_list st.current_colors = .ok (candidates, C) → C ≠ 0 →
      ompBatch rng n K adjacency_list candidates C schedule
        { st with solutions_checked := st.solutions_checked + 1 } = .ok bs →
      bs.found_better_solution = false →
      ∃ st1, ompIteration rng n K adjacency_list schedule st = .ok (some st1) ∧
        st1.current_colors = st.current_colors ∧ st1.tabu_list = st.tabu_list ∧
        st1.max_iterations = st.max_iterations - 1 ∧
        st1.solutions_checked = st.solutions_checked + 1) ∧
    (∀ (rng : Nat → Nat) (n : Nat) (max_colors : Int) (adjacency_list : List (List Nat))
      (schedules : Nat → List Nat) (s : SearchState),
      tabu_search_omp rng n max_colors adjacency_list schedules = .ok s →
      s.solutions_checked ≤ 5000 ∧ s.max_iterations + s.solutions_checked = 5000) := by
  refine ⟨?_, ?_⟩
  · intro rng n K adjacency_list schedule st candidates C bs hev hC hbatch hfound
    have hshared := ompBatch_sharedOK rng n K adjacency_list candidates C schedule _ bs hbatch
    refine ⟨_, ompIteration_some_intro rng n K adjacency_list schedule st candidates C bs hev
      hC hbatch, ?_, ?_, rfl, rfl⟩
    · simp only [ompCommit, hfound, Bool.false_eq_true, if_false]
    · simp only [ompCommit, hfound, Bool.false_eq_true, if_false]
      exact hshared.tabu hfound
  · intro rng n max_colors adjacency_list schedules s h
    unfold tabu_search_omp ompSearchRun at h
    obtain ⟨st0, hinit, hloop⟩ := bind_ok_inv _ _ _ h
    obtain ⟨-, -, hmax, hchk⟩ := ompInitialState_inv rng n max_colors st0 hinit
    have := ompSearchLoop_budget rng n _ adjacency_list schedules 5000 st0 s hloop hmax
    rw [hmax, hchk] at this
    omega

/-- The batch in index order of the first iteration on the path graph under `pathAdversary`:
every trial is rejected. -/
theorem path_ompBatch :
    ∃ bs, ompBatch pathAdversary 3 2 [[1], [0, 2], [1]] [1, 2] 1 []
        { pathState 0 with solutions_checked := (pathState 0).solutions_checked + 1 }
        = .ok bs ∧
      bs.found_better_solution = false ∧ bs.tabu_list = [] ∧ bs.aspiration_criteria = [] := by
  obtain ⟨bs, hb, h1, h2, -, h4⟩ :=
    ompBatch_rejected pathAdversary 3 2 [[1], [0, 2], [1]] [1, 2] 1
      (fun k =>
        { max_iterations := 5000, solutions_checked := 1, tabu_list := [],
          aspiration_criteria := [], current_colors := [1, 0, 0],
          candidate_colors := if k = 0 then [] else [1, 1, 0],
          selected_candidate := if k = 0 then 0 else 1, draws := 3 + 2 * k })
      { pathState 0 with solutions_checked := (pathState 0).solutions_checked + 1 }
      rfl rfl rfl rfl
      (fun k hk => by
        have h := path_trial 0 k hk
          { max_iterations := 5000, solutions_checked := 1, tabu_list := [],
            aspiration_criteria := [], current_colors := [1, 0, 0],
            candidate_colors := if k = 0 then [] else [1, 1, 0],
            selected_candidate := if k = 0 then 0 else 1, draws := 3 + 2 * k }
          rfl (by simp)
        rw [show pathCandidates 0 = [1, 2] from rfl] at h
        rw [h]
        simp [pathColors]
        omega)
  exact ⟨bs, hb, h4, h1, h2⟩

theorem omp_stagnation_witness :
    evaluate 3 [[1], [0, 2], [1]] (pathState 0).current_colors = .ok ([1, 2], 1) ∧
    ∃ st1, ompIteration pathAdversary 3 2 [[1], [0, 2], [1]] [] (pathState 0)
        = .ok (some st1) ∧
      st1.current_colors = [1, 0, 0] ∧ st1.tabu_list = [] ∧ st1.max_iterations = 4999 := by
  refine ⟨rfl, ?_⟩
  obtain ⟨bs, hb, hfound, -, -⟩ := path_ompBatch
  obtain ⟨st1, h1, h2, h3, h4, -⟩ :=
    omp_stagnation.1 pathAdversary 3 2 [[1], [0, 2], [1]] [] (pathState 0) [1, 2] 1 bs rfl
      (by decide) hb hfound
  exact ⟨st1, h1, h2, h3, h4⟩

/-! ## Conflicts never increase in the parallel strategy -/

theorem scanNeighbors_count (colors : List Int) (i : Nat) :
    ∀ (row : List Nat) (s : List Nat) (c : Nat) (r : List Nat × Nat),
      scanNeighbors colors i row (s, c) = .ok r → countNeighbors colors i row c = .ok r.2 := by
  intro row
  induction row with
  | nil =>
    intro s c r h
    simp only [scanNeighbors] at h
    injection h with h
    subst h
    rfl
  | cons w rest ih =>
    intro s c r h
    simp only [scanNeighbors] at h
    obtain ⟨ci, h1, h⟩ := bind_ok_inv _ _ _ h
    obtain ⟨cn, h2, h⟩ := bind_ok_inv _ _ _ h
    simp only [countNeighbors, h1, h2, bind, Except.bind]
    by_cases hc : ci = cn
    · simp only [hc, if_true] at h ⊢
      exact ih _ _ r h
    · simp only [hc, if_false] at h ⊢
      exact ih _ _ r h

theorem evaluateFrom_count (adjacency_list : List (List Nat)) (colors : List Int) :
    ∀ (is : List Nat) (s : List Nat) (c : Nat) (r : List Nat × Nat),
      evaluateFrom adjacency_list colors is (s, c) = .ok r →
      countFrom adjacency_list colors is c = .ok r.2 := by
  intro is
  induction is with
  | nil =>
    intro s c r h
    simp only [evaluateFrom] at h
    injection h with h
    subst h
    rfl
  | cons i rest ih =>
    intro s c r h
    simp only [evaluateFrom] at h
    obtain ⟨row, h1, h⟩ := bind_ok_inv _ _ _ h
    obtain ⟨⟨s1, c1⟩, h2, h⟩ := bind_ok_inv _ _ _ h
    simp only [countFrom, h1, bind, Except.bind,
      scanNeighbors_count colors i row s c (s1, c1) h2]
    exact ih s1 c1 r h

/-- The conflict counter of the evaluation is the count of the trial loop on the same
colouring. -/
theorem evaluate_count (n : Nat) (adjacency_list : List (List Nat)) (colors : List Int)
    (candidates : List Nat) (C : Nat)
    (h : evaluate n adjacency_list colors = .ok (candidates, C)) :
    countConflicts n adjacency_list colors = .ok C := by
  unfold evaluate at h
  obtain ⟨⟨s, c⟩, h1, h⟩ := bind_ok_inv _ _ _ h
  simp only [pure, Except.pure] at h
  injection h with h
  injection h with ha hb
  simp only [countConflicts, bind, Except.bind,
    evaluateFrom_count adjacency_list colors _ [] 0 (s, c) h1, pure, Except.pure]
  rw [hb]

theorem ompIteration_decrease (rng : Nat → Nat) (n : Nat) (K : Int)
    (adjacency_list : List (List Nat)) (schedule : List Nat) (st st1 : SearchState)
    (h : ompIteration rng n K adjacency_list schedule st = .ok (some st1)) :
    ∃ candidates C, evaluate n adjacency_list st.current_colors = .ok (candidates, C) ∧
      countConflicts n adjacency_list st.current_colors = .ok C ∧
      (st1.current_colors = st.current_colors ∨
        ∃ new, countConflicts n adjacency_list st1.current_colors = .ok new ∧ new < C) := by
  obtain ⟨candidates, C, bs, hev, -, hbatch, rfl⟩ :=
    ompIteration_some_inv rng n K adjacency_list schedule st st1 h
  refine ⟨candidates, C, hev, evaluate_count n adjacency_list _ candidates C hev, ?_⟩
  have hshared := ompBatch_sharedOK rng n K adjacency_list candidates C schedule _ bs hbatch
  cases hf : bs.found_better_solution with
  | false => left; simp only [ompCommit, hf, Bool.false_eq_true, if_false]
  | true =>
    right
    simp only [ompCommit, hf, if_true]
    exact hshared.best hf

theorem ompSearchLoop_add (rng : Nat → Nat) (n : Nat) (K : Int)
    (adjacency_list : List (List Nat)) (schedules : Nat → List Nat) (b : Nat) :
    ∀ (a : Nat) (st : SearchState),
      ompSearchLoop rng n K adjacency_list schedules (a + b) st
        = (ompSearchLoop rng n K adjacency_list schedules a st
            >>= ompSearchLoop rng n K adjacency_list schedules b) := by
  intro a
  induction a with
  | zero =>
    intro st
    simp [ompSearchLoop, bind, Except.bind]
  | succ a ih =>
    intro st
    rw [show a + 1 + b = (a + b) + 1 by omega]
    rw [ompSearchLoop, ompSearchLoop]
    cases hit : ompIteration rng n K adjacency_list (schedules st.solutions_checked) st with
    | error e => simp [bind, Except.bind]
    | ok r =>
      cases r with
      | none =>
        simp only [bind, Except.bind, pure, Except.pure]
        cases b with
        | zero => simp [ompSearchLoop]
        | succ b => simp [ompSearchLoop, hit, bind, Except.bind, pure, Except.pure]
      | some mid =>
        simp only [bind, Except.bind]
        have := ih mid
        simp only [bind, Except.bind] at this
        exact this

theorem ompSearchLoop_conflicts (rng : Nat → Nat) (n : Nat) (K : Int)
    (adjacency_list : List (List Nat)) (schedules : Nat → List Nat) (ca : Nat) :
    ∀ (budget : Nat) (st st1 : SearchState),
      (∃ c, countConflicts n adjacency_list st.current_colors = .ok c ∧ c ≤ ca) →
      ompSearchLoop rng n K adjacency_list schedules budget st = .ok st1 →
      ∃ c, countConflicts n adjacency_list st1.current_colors = .ok c ∧ c ≤ ca := by
  apply ompSearchLoop_induct rng n K adjacency_list schedules
    (fun s => ∃ c, countConflicts n adjacency_list s.current_colors = .ok c ∧ c ≤ ca)
  intro schedule st st1 hP hit
  obtain ⟨c, hc, hle⟩ := hP
  obtain ⟨candidates, C, -, hC, hdec⟩ :=
    ompIteration_decrease rng n K adjacency_list schedule st st1 hit
  rw [hC] at hc
  injection hc with hc
  subst hc
  rcases hdec with heq | ⟨new, hnew, hlt⟩
  · exact ⟨C, by rw [heq]; exact hC, hle⟩
  · exact ⟨new, hnew, by omega⟩

/-- C19: in `tabu_search_omp`, for every graph, every sequence of draws and every order in
which the trials of a batch take their steps one at a time, whenever the flag is set the
colouring in the shared best slot has a conflict count strictly below the count `C` the batch
was started with; hence an outer iteration either leaves the current colouring as it was or
replaces it by one with a strictly smaller conflict count than the count `C` of the current
colouring, and over a run the conflict count of the current colouring after `a + d` outer
iterations is at most the one after `a`. -/
theorem omp_conflicts_never_increase :
    (∀ (rng : Nat → Nat) (n : Nat) (K : Int) (adjacency_list : List (List Nat))
      (candidates : List Nat) (C : Nat) (schedule : List Nat) (st : SearchState)
      (bs : BatchState),
      ompRun rng n K adjacency_list st.current_colors candidates C schedule
        { tabu_list := st.tabu_list
          aspiration_criteria := st.aspiration_criteria
          found_better_solution := false
          best_candidate_colors := []
          best_selected_candidate := -1
          draws := st.draws
          phases := List.replicate neighbor_reps .notStarted } = .ok bs →
      bs.found_better_solution = true →
      ∃ new, countConflicts n adjacency_list bs.best_candidate_colors = .ok new ∧ new < C) ∧
    (∀ (rng : Nat → Nat) (n : Nat) (K : Int) (adjacency_list : List (List Nat))
      (schedule : List Nat) (st st1 : SearchState),
      ompIteration rng n K adjacency_list schedule st = .ok (some st1) →
      ∃ candidates C, evaluate n adjacency_list st.current_colors = .ok (candidates, C) ∧
        countConflicts n adjacency_list st.current_colors = .ok C ∧
        (st1.current_colors = st.current_colors ∨
          ∃ new, countConflicts n adjacency_list st1.current_colors = .ok new ∧ new < C)) ∧
    (∀ (rng : Nat → Nat) (n : Nat) (max_colors : Int) (adjacency_list : List (List Nat))
      (schedules : Nat → List Nat) (a d : Nat) (sa sb : SearchState) (ca : Nat),
      ompSearchRun rng n max_colors adjacency_list schedules a = .ok sa →
      ompSearchRun rng n max_colors adjacency_list schedules (a + d) = .ok sb →
      countConflicts n adjacency_list sa.current_colors = .ok ca →
      ∃ cb, countConflicts n adjacency_list sb.current_colors = .ok cb ∧ cb ≤ ca) := by
  refine ⟨?_, ?_, ?_⟩
  · intro rng n K adjacency_list candidates C schedule st bs hrun hfound
    refine (ompRun_sharedOK rng n K adjacency_list st.current_colors candidates C
      st.tabu_list st.aspiration_criteria _ _ bs ?_ ?_ hrun).2.best hfound
    · intro p hp
      rw [List.eq_of_mem_replicate hp]
      trivial
    · exact ⟨fun hf => (by cases hf), fun _ => rfl, fun k hk => Or.inr hk⟩
  · intro rng n K adjacency_list schedule st st1 h
    exact ompIteration_decrease rng n K adjacency_list schedule st st1 h
  · intro rng n max_colors adjacency_list schedules a d sa sb ca ha hb hca
    unfold ompSearchRun at ha hb
    obtain ⟨st0, hinit, hloopa⟩ := bind_ok_inv _ _ _ ha
    rw [hinit] at hb
    simp only [bind, Except.bind] at hb
    rw [ompSearchLoop_add] at hb
    simp only [bind, Except.bind] at hb
    rw [hloopa] at hb
    exact ompSearchLoop_conflicts rng n _ adjacency_list schedules ca d sa sb
      ⟨ca, hca, Nat.le_refl _⟩ hb

/-- The batch in index order of the first iteration on the path graph when every draw is 1:
the first trial recolours the middle vertex and is accepted. -/
theorem ones_ompBatch :
    ∃ bs, ompBatch (fun _ => 1) 3 2 [[1], [0, 2], [1]] [0, 1, 2] 2 []
        { max_iterations := 5000, solutions_checked := 1, tabu_list := [],
          aspiration_criteria := [], current_colors := [1, 1, 1],
          candidate_colors := [0, 0, 0], selected_candidate := 0, draws := 3 } = .ok bs ∧
      bs.found_better_solution = true ∧ bs.best_candidate_colors = [1, 0, 1] ∧
      bs.best_selected_candidate = 1 ∧ bs.tabu_list = [] ∧
      bs.aspiration_criteria = [(2, -1)] := by
  obtain ⟨bs, hb, h1, h2, -, h4, h5, h6⟩ :=
    ompBatch_accepted (fun _ => 1) 3 2 [[1], [0, 2], [1]] [0, 1, 2] 2
      (fun j =>
        if j = 0 then
          { max_iterations := 5000, solutions_checked := 1, tabu_list := [],
            aspiration_criteria := [], current_colors := [1, 1, 1], candidate_colors := [],
            selected_candidate := 0, draws := 3 }
        else
          { max_iterations := 5000, solutions_checked := 1, tabu_list := [],
            aspiration_criteria := [(2, -1)], current_colors := [1, 1, 1],
            candidate_colors := [1, 0, 1], selected_candidate := 1, draws := 5 })
      { max_iterations := 5000, solutions_checked := 1, tabu_list := [],
        aspiration_criteria := [], current_colors := [1, 1, 1],
        candidate_colors := [0, 0, 0], selected_candidate := 0, draws := 3 }
      rfl rfl rfl rfl 0 (by decide) (fun j hj => absurd hj (Nat.not_lt_zero j)) rfl
  exact ⟨bs, hb, h4, h5, h6, h1, h2⟩

theorem omp_conflicts_never_increase_witness :
    ∃ st1,
      ompIteration (fun _ => 1) 3 2 [[1], [0, 2], [1]] []
        { max_iterations := 5000, solutions_checked := 0, tabu_list := [],
          aspiration_criteria := [], current_colors := [1, 1, 1],
          candidate_colors := [0, 0, 0], selected_candidate := 0, draws := 3 }
        = .ok (some st1) ∧
      ∃ candidates C, evaluate 3 [[1], [0, 2], [1]] [1, 1, 1] = .ok (candidates, C) ∧
        countConflicts 3 [[1], [0, 2], [1]] [1, 1, 1] = .ok C ∧
        (st1.current_colors = [1, 1, 1] ∨
          ∃ new, countConflicts 3 [[1], [0, 2], [1]] st1.current_colors = .ok new ∧
            new < C) := by
  obtain ⟨bs, hb, -, -, -, -, -⟩ := ones_ompBatch
  have hit := ompIteration_some_intro (fun _ => 1) 3 2 [[1], [0, 2], [1]] []
    { max_iterations := 5000, solutions_checked := 0, tabu_list := [],
      aspiration_criteria := [], current_colors := [1, 1, 1],
      candidate_colors := [0, 0, 0], selected_candidate := 0, draws := 3 }
    [0, 1, 2] 2 bs rfl (by decide) hb
  exact ⟨_, hit, omp_conflicts_never_increase.2.1 _ _ _ _ _ _ _ hit⟩

/-! ## The tabu list never blocks a move of the batch in index order -/

theorem not_mem_forgive (L : List Nat) (v : Nat) : v ∉ forgive L v := by
  unfold forgive
  split
  · simp
  · assumption

theorem phaseStep_quiet (rng : Nat → Nat) (n : Nat) (K : Int)
    (adjacency_list : List (List Nat)) (cur : List Int) (candidates : List Nat) (C : Nat)
    (p p1 : TrialPhase) (bs bs1 : BatchState)
    (hq : Quiet C p bs) (hb : BestForgiven bs)
    (h : phaseStep rng n K adjacency_list cur candidates C p bs = .ok (p1, bs1)) :
    Quiet C p1 bs1 ∧ BestForgiven bs1 := by
  unfold phaseStep at h
  cases p with
  | notStarted =>
    simp only [Except.ok.injEq, Prod.mk.injEq] at h
    obtain ⟨rfl, rfl⟩ := h
    refine ⟨?_, hb⟩
    cases hf : bs.found_better_solution with
    | true =>
      rw [if_pos rfl]
      exact Or.inl hf
    | false =>
      rw [if_neg (by simp)]
      rcases hq with hq | hq
      · rw [hf] at hq; cases hq
      · exact hq
  | started =>
    obtain ⟨idx, -, h⟩ := bind_ok_inv _ _ _ h
    obtain ⟨sel, -, h⟩ := bind_ok_inv _ _ _ h
    simp only [pure, Except.pure, Except.ok.injEq, Prod.mk.injEq] at h
    obtain ⟨rfl, rfl⟩ := h
    exact ⟨hq, hb⟩
  | picked sel =>
    obtain ⟨drawn, -, h⟩ := bind_ok_inv _ _ _ h
    obtain ⟨recolored, -, h⟩ := bind_ok_inv _ _ _ h
    obtain ⟨old, -, h⟩ := bind_ok_inv _ _ _ h
    obtain ⟨cc, -, h⟩ := bind_ok_inv _ _ _ h
    obtain ⟨new, hnew, h⟩ := bind_ok_inv _ _ _ h
    simp only [pure, Except.pure, Except.ok.injEq, Prod.mk.injEq] at h
    obtain ⟨rfl, rfl⟩ := h
    exact ⟨hq, hb⟩
  | counted sel cc new =>
    have hq1 : mapFind bs.aspiration_criteria C = none := hq
    simp only [hq1, if_true] at h
    split at h
    · rename_i hlt
      simp only [Except.ok.injEq, Prod.mk.injEq] at h
      obtain ⟨rfl, rfl⟩ := h
      exact ⟨⟨hlt, hq1⟩, hb⟩
    · simp only [Except.ok.injEq, Prod.mk.injEq] at h
      obtain ⟨rfl, rfl⟩ := h
      exact ⟨Or.inr hq1, hb⟩
  | needInsert sel cc new =>
    simp only [Except.ok.injEq, Prod.mk.injEq] at h
    obtain ⟨rfl, rfl⟩ := h
    obtain ⟨hlt, hnone⟩ := hq
    refine ⟨⟨hlt, ?_⟩, hb⟩
    show mapFind (mapInsertIfAbsent C ((C : Int) - 1) bs.aspiration_criteria) C = _
    rw [mapFind_created, if_pos rfl]
    simp [threshold, hnone]
  | compare sel cc new =>
    obtain ⟨hlt, hsome⟩ := hq
    have hle : (new : Int) ≤ mapAt bs.aspiration_criteria C := by
      simp only [mapAt, hsome, Option.getD_some]
      omega
    simp only [hle, if_true, Except.ok.injEq, Prod.mk.injEq] at h
    obtain ⟨rfl, rfl⟩ := h
    exact ⟨hlt, hb⟩
  | aspire sel cc new =>
    simp only [Except.ok.injEq, Prod.mk.injEq] at h
    obtain ⟨rfl, rfl⟩ := h
    have hlt : new < C := hq
    rw [writeBest_improving C sel cc new _ hlt]
    refine ⟨Or.inl rfl, ?_⟩
    intro _
    show (sel : Int).toNat ∉ forgive bs.tabu_list sel
    rw [Int.toNat_ofNat]
    exact not_mem_forgive _ _
  | tabuScan sel cc new => exact absurd hq id
  | plain sel cc new => exact absurd hq id
  | done =>
    simp only [Except.ok.injEq, Prod.mk.injEq] at h
    obtain ⟨rfl, rfl⟩ := h
    exact ⟨hq, hb⟩

theorem phaseRun_quiet (rng : Nat → Nat) (n : Nat) (K : Int)
    (adjacency_list : List (List Nat)) (cur : List Int) (candidates : List Nat) (C : Nat) :
    ∀ (k : Nat) (p p1 : TrialPhase) (bs bs1 : BatchState),
      Quiet C p bs → BestForgiven bs →
      phaseRun rng n K adjacency_list cur candidates C k p bs = .ok (p1, bs1) →
      Quiet C p1 bs1 ∧ BestForgiven bs1 ∧ phaseRank p1 ≤ phaseRank p - k ∧
        bs1.phases = bs.phases := by
  intro k
  induction k with
  | zero =>
    intro p p1 bs bs1 hq hb h
    simp only [phaseRun, Except.ok.injEq, Prod.mk.injEq] at h
    obtain ⟨rfl, rfl⟩ := h
    exact ⟨hq, hb, by omega, rfl⟩
  | succ k ih =>
    intro p p1 bs bs1 hq hb h
    simp only [phaseRun] at h
    obtain ⟨⟨p2, bs2⟩, hstep, h⟩ := bind_ok_inv _ _ _ h
    obtain ⟨hq2, hb2⟩ :=
      phaseStep_quiet rng n K adjacency_list cur candidates C p p2 bs bs2 hq hb hstep
    obtain ⟨hph, hrank, -⟩ :=
      phaseStep_frame rng n K adjacency_list cur candidates C p p2 bs bs2 hstep
    obtain ⟨h1, h2, h3, h4⟩ := ih p2 p1 bs2 bs1 hq2 hb2 h
    exact ⟨h1, h2, by omega, by rw [h4, hph]⟩

theorem phaseRank_zero (p : TrialPhase) (h : phaseRank p = 0) : p = .done := by
  cases p <;> simp [phaseRank] at h ⊢

/-- Between two trials of a batch run in index order: the trials from `m` on have not
started, the others are over, the key `C` is absent unless the flag is set. -/
theorem inOrder_quiet (rng : Nat → Nat) (n : Nat) (K : Int)
    (adjacency_list : List (List Nat)) (cur : List Int) (candidates : List Nat) (C : Nat)
    (bs0 : BatchState) (reps : Nat)
    (hlen : bs0.phases.length = reps)
    (hns : ∀ j, j < reps → bs0.phases[j]? = some .notStarted)
    (hkey : mapFind bs0.aspiration_criteria C = none)
    (hfound : bs0.found_better_solution = false) :
    ∀ (m : Nat) (bs : BatchState), m ≤ reps →
      ompRun rng n K adjacency_list cur candidates C (inOrder m) bs0 = .ok bs →
      bs.phases.length = reps ∧
      (∀ j, m ≤ j → j < reps → bs.phases[j]? = some .notStarted) ∧
      (∀ p ∈ bs.phases, p = .notStarted ∨ p = .done) ∧
      (bs.found_better_solution = true ∨ mapFind bs.aspiration_criteria C = none) ∧
      BestForgiven bs := by
  intro m
  induction m with
  | zero =>
    intro bs _ h
    simp only [inOrder, List.range_zero, List.flatMap_nil, ompRun, Except.ok.injEq] at h
    subst h
    refine ⟨hlen, fun j _ hj => hns j hj, ?_, Or.inr hkey, ?_⟩
    · intro p hp
      obtain ⟨j, hj, hpj⟩ := List.getElem_of_mem hp
      have := hns j (by omega)
      rw [List.getElem?_eq_getElem hj, hpj] at this
      injection this with this
      exact Or.inl this
    · intro hf
      rw [hfound] at hf
      cases hf
  | succ m ih =>
    intro bs hm h
    rw [inOrder_succ, ompRun_append] at h
    obtain ⟨bsm, hrun, h⟩ := bind_ok_inv _ _ _ h
    obtain ⟨h1, h2, h3, h4, h5⟩ := ih bsm (by omega) hrun
    rw [ompRun_replicate rng n K adjacency_list cur candidates C m stepsPerTrial .notStarted
      bsm (h2 m (by omega) (by omega))] at h
    obtain ⟨⟨p1, bs1⟩, hph, h⟩ := bind_ok_inv _ _ _ h
    simp only [Except.ok.injEq] at h
    subst h
    obtain ⟨hq, hb, hrank, -⟩ :=
      phaseRun_quiet rng n K adjacency_list cur candidates C stepsPerTrial .notStarted p1
        bsm bs1 h4 h5 hph
    have hr : phaseRank p1 ≤ 8 - 8 := hrank
    have hdone : p1 = .done := phaseRank_zero p1 (by omega)
    subst hdone
    refine ⟨by simpa using h1, ?_, ?_, hq, hb⟩
    · intro j hj hjr
      simp only []
      rw [List.getElem?_set_ne (by omega)]
      exact h2 j (by omega) hjr
    · intro p hp
      rcases List.mem_or_eq_of_mem_set hp with hp | hp
      · exact h3 p hp
      · exact Or.inr hp

/-- Inside a trial of a batch run in index order: every trial that is under way satisfies
`Quiet`. -/
theorem inOrder_partial_quiet (rng : Nat → Nat) (n : Nat) (K : Int)
    (adjacency_list : List (List Nat)) (cur : List Int) (candidates : List Nat) (C : Nat)
    (bs0 : BatchState) (reps : Nat)
    (hlen : bs0.phases.length = reps)
    (hns : ∀ j, j < reps → bs0.phases[j]? = some .notStarted)
    (hkey : mapFind bs0.aspiration_criteria C = none)
    (hfound : bs0.found_better_solution = false)
    (m k : Nat) (hm : m < reps) (bs : BatchState)
    (h : ompRun rng n K adjacency_list cur candidates C
      (inOrder m ++ List.replicate k m) bs0 = .ok bs) :
    (∀ p ∈ bs.phases, p = .notStarted ∨ p = .done ∨ Quiet C p bs) ∧ BestForgiven bs := by
  rw [ompRun_append] at h
  obtain ⟨bsm, hrun, h⟩ := bind_ok_inv _ _ _ h
  obtain ⟨h1, h2, h3, h4, h5⟩ :=
    inOrder_quiet rng n K adjacency_list cur candidates C bs0 reps hlen hns hkey hfound m bsm
      (by omega) hrun
  rw [ompRun_replicate rng n K adjacency_list cur candidates C m k .notStarted
    bsm (h2 m (by omega) hm)] at h
  obtain ⟨⟨p1, bs1⟩, hph, h⟩ := bind_ok_inv _ _ _ h
  simp only [Except.ok.injEq] at h
  subst h
  obtain ⟨hq, hb, -, -⟩ :=
    phaseRun_quiet rng n K adjacency_list cur candidates C k .notStarted p1 bsm bs1 h4 h5 hph
  refine ⟨?_, hb⟩
  intro p hp
  rcases List.mem_or_eq_of_mem_set hp with hp | hp
  · rcases h3 p hp with h | h
    · exact Or.inl h
    · exact Or.inr (Or.inl h)
  · subst hp
    right; right
    cases p <;> exact hq

/-- A prefix of the schedule in index order is a number of whole trials followed by some
steps of the next one. -/
theorem inOrder_prefix :
    ∀ (r : Nat) (pre suf : List Nat), inOrder r = pre ++ suf →
      pre = [] ∨ ∃ i, i < r ∧ ∃ k, pre = inOrder i ++ List.replicate k i := by
  intro r
  induction r with
  | zero =>
    intro pre suf h
    left
    simp only [inOrder, List.range_zero, List.flatMap_nil] at h
    exact (List.append_eq_nil.mp h.symm).1
  | succ r ih =>
    intro pre suf h
    rw [inOrder_succ, List.append_eq_append_iff] at h
    rcases h with ⟨c, hc, hrep⟩ | ⟨a, ha, -⟩
    · right
      refine ⟨r, by omega, c.length, ?_⟩
      rw [hc]
      congr 1
      apply List.eq_replicate_iff.mpr
      refine ⟨rfl, ?_⟩
      intro b hb
      have : b ∈ List.replicate stepsPerTrial r := by
        rw [hrep]
        exact List.mem_append_left _ hb
      exact List.eq_of_mem_replicate this
    · rcases ih pre a ha with h | ⟨i, hi, k, hk⟩
      · exact Or.inl h
      · exact Or.inr ⟨i, by omega, k, hk⟩

/-- At every point of a batch run in index order a trial under way satisfies `Quiet`. -/
theorem ompRun_inOrder_quiet (rng : Nat → Nat) (n : Nat) (K : Int)
    (adjacency_list : List (List Nat)) (cur : List Int) (candidates : List Nat) (C : Nat)
    (bs0 : BatchState) (reps : Nat)
    (hlen : bs0.phases.length = reps)
    (hns : ∀ j, j < reps → bs0.phases[j]? = some .notStarted)
    (hkey : mapFind bs0.aspiration_criteria C = none)
    (hfound : bs0.found_better_solution = false)
    (pre suf : List Nat) (hpre : inOrder reps = pre ++ suf) (bs : BatchState)
    (h : ompRun rng n K adjacency_list cur candidates C pre bs0 = .ok bs) :
    (∀ p ∈ bs.phases, p = .notStarted ∨ p = .done ∨ Quiet C p bs) ∧ BestForgiven bs := by
  rcases inOrder_prefix reps pre suf hpre with hnil | ⟨i, hi, k, hk⟩
  · subst hnil
    simp only [ompRun, Except.ok.injEq] at h
    subst h
    refine ⟨?_, ?_⟩
    · intro p hp
      obtain ⟨j, hj, hpj⟩ := List.getElem_of_mem hp
      have := hns j (by omega)
      rw [List.getElem?_eq_getElem hj, hpj] at this
      injection this with this
      exact Or.inl this
    · intro hf
      rw [hfound] at hf
      cases hf
  · subst hk
    exact inOrder_partial_quiet rng n K adjacency_list cur candidates C bs0 reps hlen hns
      hkey hfound i k hi bs h

/-- An outer iteration whose batch runs in index order keeps every key of the table above
the conflict count of the current colouring. -/
theorem ompIteration_keysAbove (rng : Nat → Nat) (n : Nat) (K : Int)
    (adjacency_list : List (List Nat)) (st st1 : SearchState)
    (hk : KeysAbove n adjacency_list st)
    (h : ompIteration rng n K adjacency_list [] st = .ok (some st1)) :
    KeysAbove n adjacency_list st1 := by
  obtain ⟨candidates, C, bs, hev, -, hbatch, rfl⟩ :=
    ompIteration_some_inv rng n K adjacency_list [] st st1 h
  have hcount := evaluate_count n adjacency_list _ candidates C hev
  have hkey : mapFind st.aspiration_criteria C = none := by
    by_contra hne
    exact Nat.lt_irrefl C (hk C hne C hcount)
  have hshared := ompBatch_sharedOK rng n K adjacency_list candidates C [] _ bs hbatch
  have hend : bs.found_better_solution = true ∨ mapFind bs.aspiration_criteria C = none := by
    unfold ompBatch at hbatch
    rw [List.nil_append] at hbatch
    exact (inOrder_quiet rng n K adjacency_list st.current_colors candidates C
      { tabu_list := st.tabu_list
        aspiration_criteria := st.aspiration_criteria
        found_better_solution := false
        best_candidate_colors := []
        best_selected_candidate := -1
        draws := st.draws
        phases := List.replicate neighbor_reps .notStarted }
      neighbor_reps (List.length_replicate _ _)
      (fun j hj => replicate_notStarted neighbor_reps j hj) hkey rfl neighbor_reps bs
      (Nat.le_refl _) hbatch).2.2.2.1
  intro k hkk c hc
  have hkeys := hshared.keys k hkk
  cases hf : bs.found_better_solution with
  | true =>
    simp only [ompCommit, hf, if_true] at hc
    obtain ⟨new, hnew, hlt⟩ := hshared.best hf
    rw [hnew] at hc
    injection hc with hc
    subst hc
    rcases hkeys with rfl | hold
    · exact hlt
    · have := hk k hold C hcount
      omega
  | false =>
    simp only [ompCommit, hf, Bool.false_eq_true, if_false] at hc
    rcases hend with hend | hend
    · rw [hf] at hend; cases hend
    · rcases hkeys with rfl | hold
      · exact absurd hend hkk
      · exact hk k hold c hc

theorem ompSearchLoop_induct_sched (rng : Nat → Nat) (n : Nat) (K : Int)
    (adjacency_list : List (List Nat)) (schedules : Nat → List Nat) (P : SearchState → Prop)
    (hstep : ∀ st st1, P st →
      ompIteration rng n K adjacency_list (schedules st.solutions_checked) st
        = .ok (some st1) → P st1) :
    ∀ (budget : Nat) (st st1 : SearchState), P st →
      ompSearchLoop rng n K adjacency_list schedules budget st = .ok st1 → P st1 := by
  intro budget
  induction budget with
  | zero =>
    intro st st1 hP h
    simp only [ompSearchLoop] at h
    injection h with h
    subst h; exact hP
  | succ budget ih =>
    intro st st1 hP h
    rw [ompSearchLoop] at h
    obtain ⟨r, hit, h⟩ := bind_ok_inv _ _ _ h
    cases r with
    | none =>
      simp only [pure, Except.pure] at h
      injection h with h
      subst h; exact hP
    | some mid =>
      simp only [] at h
      exact ih mid st1 (hstep st mid hP hit) h

theorem ompSearchRun_keysAbove (rng : Nat → Nat) (n : Nat) (max_colors : Int)
    (adjacency_list : List (List Nat)) (budget : Nat) (st : SearchState)
    (h : ompSearchRun rng n max_colors adjacency_list (fun _ => []) budget = .ok st) :
    KeysAbove n adjacency_list st := by
  unfold ompSearchRun at h
  obtain ⟨st0, hinit, hloop⟩ := bind_ok_inv _ _ _ h
  obtain ⟨-, hasp, -, -⟩ := ompInitialState_inv rng n max_colors st0 hinit
  refine ompSearchLoop_induct_sched rng n _ adjacency_list (fun _ => [])
    (KeysAbove n adjacency_list)
    (fun s s1 hP hit => ompIteration_keysAbove rng n _ adjacency_list s s1 hP hit)
    budget st0 st ?_ hloop
  intro k hk
  rw [hasp] at hk
  exact absurd rfl hk

theorem inOrder_head (m : Nat) :
    inOrder (m + 1) = List.replicate stepsPerTrial 0 ++
      ((List.range m).map Nat.succ).flatMap (fun i => List.replicate stepsPerTrial i) := by
  simp [inOrder, List.range_succ_eq_map]

/-- The first five steps of the schedule in index order belong to trial 0. -/
theorem inOrder_five :
    inOrder neighbor_reps = List.replicate 5 0 ++ (List.replicate 3 0 ++
      ((List.range 699).map Nat.succ).flatMap (fun i => List.replicate stepsPerTrial i)) := by
  rw [show neighbor_reps = 699 + 1 from rfl, inOrder_head,
    show stepsPerTrial = 5 + 3 from rfl, List.replicate_add, List.append_assoc]

/-- C20: in `tabu_search_omp` with the trials of every batch run one at a time in index
order (the empty schedules), for every graph and every sequence of draws, at every point of
the batch of the outer iteration entered from a state the run reaches: a trial at the test
`C' < C` finds no entry for `C` in the aspiration table; a trial that consults the entry
`T(C)` has `C' < C` and reads `C - 1`, so it is accepted by aspiration; no trial is in
the branch that tests membership in the tabu list nor in the plain acceptance after it; and
when the flag is set the vertex in the best slot, the one the iteration commits, is not in the
tabu list it is pushed on. -/
theorem tabu_never_blocks_in_order (rng : Nat → Nat) (n : Nat) (max_colors : Int)
    (adjacency_list : List (List Nat)) (budget : Nat) (st : SearchState)
    (candidates : List Nat) (C : Nat) (pre suf : List Nat) (bs : BatchState)
    (hrun : ompSearchRun rng n max_colors adjacency_list (fun _ => []) budget = .ok st)
    (hev : evaluate n adjacency_list st.current_colors = .ok (candidates, C))
    (hpre : inOrder neighbor_reps = pre ++ suf)
    (hbs : ompRun rng n (clampColors n max_colors) adjacency_list st.current_colors
      candidates C pre
      { tabu_list := st.tabu_list
        aspiration_criteria := st.aspiration_criteria
        found_better_solution := false
        best_candidate_colors := []
        best_selected_candidate := -1
        draws := st.draws
        phases := List.replicate neighbor_reps .notStarted } = .ok bs) :
    (∀ sel cc new, TrialPhase.counted sel cc new ∈ bs.phases →
      mapFind bs.aspiration_criteria C = none) ∧
    (∀ sel cc new, TrialPhase.compare sel cc new ∈ bs.phases →
      new < C ∧ mapFind bs.aspiration_criteria C = some ((C : Int) - 1) ∧
        (new : Int) ≤ mapAt bs.aspiration_criteria C) ∧
    (∀ sel cc new, TrialPhase.tabuScan sel cc new ∉ bs.phases ∧
      TrialPhase.plain sel cc new ∉ bs.phases) ∧
    (bs.found_better_solution = true →
      bs.best_selected_candidate.toNat ∉ bs.tabu_list) := by
  have hk := ompSearchRun_keysAbove rng n max_colors adjacency_list budget st hrun
  have hcount := evaluate_count n adjacency_list _ candidates C hev
  have hkey : mapFind st.aspiration_criteria C = none := by
    by_contra hne
    exact Nat.lt_irrefl C (hk C hne C hcount)
  obtain ⟨hq, hb⟩ := ompRun_inOrder_quiet rng n (clampColors n max_colors) adjacency_list
    st.current_colors candidates C
    { tabu_list := st.tabu_list
      aspiration_criteria := st.aspiration_criteria
      found_better_solution := false
      best_candidate_colors := []
      best_selected_candidate := -1
      draws := st.draws
      phases := List.replicate neighbor_reps .notStarted }
    neighbor_reps (List.length_replicate _ _)
    (fun j hj => replicate_notStarted neighbor_reps j hj) hkey rfl pre suf hpre bs hbs
  refine ⟨?_, ?_, ?_, hb⟩
  · intro sel cc new hmem
    rcases hq _ hmem with h | h | h
    · cases h
    · cases h
    · exact h
  · intro sel cc new hmem
    rcases hq _ hmem with h | h | h
    · cases h
    · cases h
    · obtain ⟨hlt, hsome⟩ := h
      refine ⟨hlt, hsome, ?_⟩
      simp only [mapAt, hsome, Option.getD_some]
      omega
  · intro sel cc new
    refine ⟨?_, ?_⟩
    · intro hmem
      rcases hq _ hmem with h | h | h
      · cases h
      · cases h
      · exact h
    · intro hmem
      rcases hq _ hmem with h | h | h
      · cases h
      · cases h
      · exact h

set_option maxRecDepth 100000 in
theorem tabu_never_blocks_in_order_witness :
    ompSearchRun (fun _ => 1) 3 2 [[1], [0, 2], [1]] (fun _ => []) 0 = .ok
      { max_iterations := 5000, solutions_checked := 0, tabu_list := [],
        aspiration_criteria := [], current_colors := [1, 1, 1],
        candidate_colors := [0, 0, 0], selected_candidate := 0, draws := 3 } ∧
    evaluate 3 [[1], [0, 2], [1]] [1, 1, 1] = .ok ([0, 1, 2], 2) ∧
    0 < 2 ∧ mapFind [(2, (1 : Int))] 2 = some (((2 : Nat) : Int) - 1) ∧
      ((0 : Nat) : Int) ≤ mapAt [(2, (1 : Int))] 2 :=
  ⟨rfl, rfl,
    (tabu_never_blocks_in_order (fun _ => 1) 3 2 [[1], [0, 2], [1]] 0
      { max_iterations := 5000, solutions_checked := 0, tabu_list := [],
        aspiration_criteria := [], current_colors := [1, 1, 1],
        candidate_colors := [0, 0, 0], selected_candidate := 0, draws := 3 }
      [0, 1, 2] 2 (List.replicate 5 0)
      (List.replicate 3 0 ++
        ((List.range 699).map Nat.succ).flatMap (fun i => List.replicate stepsPerTrial i))
      { tabu_list := [], aspiration_criteria := [(2, 1)], found_better_solution := false,
        best_candidate_colors := [], best_selected_candidate := -1, draws := 5,
        phases := .compare 1 [1, 0, 1] 0 :: List.replicate 699 .notStarted }
      rfl rfl inOrder_five rfl).2.1 1 [1, 0, 1] 0 (List.mem_cons_self _ _)⟩

/-! ## Unprotected reads of the shared search memory -/

set_option maxRecDepth 100000 in
/-- C13 (divergence): in the trial loop of `tabu_search_omp` every modification of the tabu
list and of the aspiration table stands inside a critical block, but the reads of lines 97, 104
and 123-128 do not.  On the path graph with every draw 1 (current colouring `[1,1,1]`, conflict
count 2) the batch reaches, after four steps of trial 0 and three steps of trial 350, a state
in which trial 0 is about to insert into the aspiration table inside its critical block while
trial 350 is about to search the table outside any: a data race. -/
theorem unprotected_reads_race :
    (∀ C p a, a ∈ stepAccesses C p → a.writes = true → a.critical = true) ∧
    ({ container := .aspirationTable, writes := false, critical := false } : Access)
      ∈ stepAccesses 2 (.counted 1 [1, 0, 1] 0) ∧
    ompInitialState (fun _ => 1) 3 2 = .ok
      { max_iterations := 5000, solutions_checked := 0, tabu_list := [],
        aspiration_criteria := [], current_colors := [1, 1, 1],
        candidate_colors := [0, 0, 0], selected_candidate := 0, draws := 3 } ∧
    evaluate 3 [[1], [0, 2], [1]] [1, 1, 1] = .ok ([0, 1, 2], 2) ∧
    ∃ bs, ompRun (fun _ => 1) 3 2 [[1], [0, 2], [1]] [1, 1, 1] [0, 1, 2] 2
        [0, 0, 0, 0, 350, 350, 350]
        { tabu_list := []
          aspiration_criteria := []
          found_better_solution := false
          best_candidate_colors := []
          best_selected_candidate := -1
          draws := 3
          phases := List.replicate neighbor_reps .notStarted } = .ok bs ∧
      bs.phases[0]? = some (.needInsert 1 [1, 0, 1] 0) ∧
      bs.phases[350]? = some (.counted 1 [1, 0, 1] 0) ∧
      Race 2 bs := by
  refine ⟨?_, by decide, rfl, rfl, _, rfl, rfl, rfl, ?_⟩
  · intro C p a ha hw
    cases p with
    | counted sel cc new =>
      simp only [stepAccesses] at ha
      split at ha
      · simp only [List.mem_singleton] at ha
        subst ha
        cases hw
      · cases ha
    | needInsert sel cc new =>
      simp only [stepAccesses, List.mem_singleton] at ha
      subst ha
      rfl
    | compare sel cc new =>
      simp only [stepAccesses, List.mem_singleton] at ha
      subst ha
      cases hw
    | aspire sel cc new =>
      simp only [stepAccesses, List.mem_cons, List.mem_singleton, List.not_mem_nil,
        or_false] at ha
      rcases ha with rfl | rfl | rfl <;> rfl
    | tabuScan sel cc new =>
      simp only [stepAccesses, List.mem_singleton] at ha
      subst ha
      cases hw
    | notStarted => cases ha
    | started => cases ha
    | picked sel => cases ha
    | plain sel cc new => cases ha
    | done => cases ha
  · exact ⟨0, 350, .needInsert 1 [1, 0, 1] 0, .counted 1 [1, 0, 1] 0,
      { container := .aspirationTable, writes := true, critical := true },
      { container := .aspirationTable, writes := false, critical := false },
      by decide, rfl, rfl, by decide, by decide, rfl, rfl⟩

/-! ## A parallel run that commits a trial -/

/-- The first outer iteration of the parallel routine on the path graph when every draw is 1,
the batch in index order: trial 0 recolours the middle vertex, is accepted by aspiration and is
committed. -/
theorem ones_ompIteration :
    ompIteration (fun _ => 1) 3 2 [[1], [0, 2], [1]] []
      { max_iterations := 5000, solutions_checked := 0, tabu_list := [],
        aspiration_criteria := [], current_colors := [1, 1, 1],
        candidate_colors := [0, 0, 0], selected_candidate := 0, draws := 3 }
      = .ok (some
        { max_iterations := 4999, solutions_checked := 1, tabu_list := [1],
          aspiration_criteria := [(2, -1)], current_colors := [1, 0, 1],
          candidate_colors := [0, 0, 0], selected_candidate := 0, draws := 5 }) := by
  obtain ⟨bs, hb, h1, h2, h3, h4, h5, h6⟩ :=
    ompBatch_accepted (fun _ => 1) 3 2 [[1], [0, 2], [1]] [0, 1, 2] 2
      (fun j =>
        if j = 0 then
          { max_iterations := 5000, solutions_checked := 1, tabu_list := [],
            aspiration_criteria := [], current_colors := [1, 1, 1], candidate_colors := [],
            selected_candidate := 0, draws := 3 }
        else
          { max_iterations := 5000, solutions_checked := 1, tabu_list := [],
            aspiration_criteria := [(2, -1)], current_colors := [1, 1, 1],
            candidate_colors := [1, 0, 1], selected_candidate := 1, draws := 5 })
      { max_iterations := 5000, solutions_checked := 1, tabu_list := [],
        aspiration_criteria := [], current_colors := [1, 1, 1],
        candidate_colors := [0, 0, 0], selected_candidate := 0, draws := 3 }
      rfl rfl rfl rfl 0 (by decide) (fun j hj => absurd hj (Nat.not_lt_zero j)) rfl
  have hit := ompIteration_some_intro (fun _ => 1) 3 2 [[1], [0, 2], [1]] []
    { max_iterations := 5000, solutions_checked := 0, tabu_list := [],
      aspiration_criteria := [], current_colors := [1, 1, 1],
      candidate_colors := [0, 0, 0], selected_candidate := 0, draws := 3 }
    [0, 1, 2] 2 bs rfl (by decide) hb
  rw [hit]
  simp only [ompCommit, h4, h1, h2, h3, h5, h6]
  rfl

theorem ompSearchLoop_one (rng : Nat → Nat) (n : Nat) (K : Int)
    (adjacency_list : List (List Nat)) (schedules : Nat → List Nat) (st st1 : SearchState)
    (h : ompIteration rng n K adjacency_list (schedules st.solutions_checked) st
      = .ok (some st1)) :
    ompSearchLoop rng n K adjacency_list schedules 1 st = .ok st1 := by
  rw [ompSearchLoop, h]
  rfl

theorem ompSearchRun_of_init (rng : Nat → Nat) (n : Nat) (max_colors : Int)
    (adjacency_list : List (List Nat)) (schedules : Nat → List Nat) (budget : Nat)
    (st0 : SearchState) (h : ompInitialState rng n max_colors = .ok st0) :
    ompSearchRun rng n max_colors adjacency_list schedules budget
      = ompSearchLoop rng n (clampColors n max_colors) adjacency_list schedules budget st0 := by
  unfold ompSearchRun
  rw [h]
  rfl

/-- The parallel routine on the path graph when every draw is 1, after one outer
iteration. -/
theorem ones_ompSearchRun :
    ompSearchRun (fun _ => 1) 3 2 [[1], [0, 2], [1]] (fun _ => []) 1 = .ok
      { max_iterations := 4999, solutions_checked := 1, tabu_list := [1],
        aspiration_criteria := [(2, -1)], current_colors := [1, 0, 1],
        candidate_colors := [0, 0, 0], selected_candidate := 0, draws := 5 } := by
  rw [ompSearchRun_of_init (fun _ => 1) 3 2 [[1], [0, 2], [1]] (fun _ => []) 1
    { max_iterations := 5000, solutions_checked := 0, tabu_list := [],
      aspiration_criteria := [], current_colors := [1, 1, 1],
      candidate_colors := [0, 0, 0], selected_candidate := 0, draws := 3 } rfl]
  exact ompSearchLoop_one (fun _ => 1) 3 2 [[1], [0, 2], [1]] (fun _ => [])
    { max_iterations := 5000, solutions_checked := 0, tabu_list := [],
      aspiration_criteria := [], current_colors := [1, 1, 1],
      candidate_colors := [0, 0, 0], selected_candidate := 0, draws := 3 } _
    ones_ompIteration

theorem tabu_capacity_witness :
    (searchRun (fun _ => 1) 3 2 [[1], [0, 2], [1]] 2 = .ok
        { max_iterations := 4999, solutions_checked := 1, tabu_list := [1],
          aspiration_criteria := [(2, -1)], current_colors := [1, 0, 1],
          candidate_colors := [1, 0, 1], selected_candidate := 1, draws := 5 } ∧
      ([1] : List Nat).length ≤ 4) ∧
    (ompSearchRun (fun _ => 1) 3 2 [[1], [0, 2], [1]] (fun _ => []) 1 = .ok
        { max_iterations := 4999, solutions_checked := 1, tabu_list := [1],
          aspiration_criteria := [(2, -1)], current_colors := [1, 0, 1],
          candidate_colors := [0, 0, 0], selected_candidate := 0, draws := 5 } ∧
      ([1] : List Nat).length ≤ 4 ∧
      ompSearchRun (fun _ => 1) 3 2 [[1], [0, 2], [1]] (fun _ => []) 0 = .ok
        { max_iterations := 5000, solutions_checked := 0, tabu_list := [],
          aspiration_criteria := [], current_colors := [1, 1, 1],
          candidate_colors := [0, 0, 0], selected_candidate := 0, draws := 3 } ∧
      ([1] : List Nat).length ≤ ([] : List Nat).length + 1) :=
  ⟨⟨rfl, (tabu_capacity.1 (fun _ => 1) 3 2 [[1], [0, 2], [1]] 2 _ rfl).1⟩,
    ⟨ones_ompSearchRun,
      (tabu_capacity.2 (fun _ => 1) 3 2 [[1], [0, 2], [1]] (fun _ => []) 1 _
        ones_ompSearchRun).1,
      rfl,
      ((tabu_capacity.2 (fun _ => 1) 3 2 [[1], [0, 2], [1]] (fun _ => []) 0 _ rfl).2.2 [] _
        ones_ompIteration).1⟩⟩

end TabuSearch
